import Mathlib

/-!
Shallow embedding of the core of guenes/m3u-filter and a verification of the
specification claims about it.

Conventions used throughout:

* Rust `u32` keys are embedded as `Nat` (the claims never exercise overflow:
  keys are only compared, cloned and stored, and `Nat` ordering agrees with
  `u32` ordering on all representable values).
* Values `V` stay a type parameter: the tree only clones and moves them.
* Rust `Vec<T>` is `List T`; `Vec::insert(idx, a)` is `listInsertAt` below.
* Panics (`unwrap` on a missing element, out-of-bounds `Vec::insert`) are
  modelled by a default value or by returning the input unchanged; every such
  spot is guarded by an invariant proved later, so the default is never
  exercised in the verified statements.
* The on-disk file of `bplustree.rs` is a sequence of 4096-byte blocks, one
  node per block.  A block's byte layout (leaf flag, length-prefixed bincode
  keys, values resp. child-pointer vector) is modelled as a structured
  record `DiskBlock`; byte offsets (always multiples of 4096) are kept as in
  the source so that child pointers mean the same thing.
-/

/-- Rust `Vec::insert(idx, a)`: shifts the tail right.  For `idx > length`
Rust panics; the model returns `l ++ [a]` there, and every use is guarded by
an in-bounds invariant. -/
def listInsertAt (l : List α) (idx : Nat) (a : α) : List α :=
  l.take idx ++ a :: l.drop idx

/-- `keys` are strictly increasing, stated positionally (the form used by the
binary-search loops of `bplustree.rs`). -/
def SortedKeys (ks : List Nat) : Prop :=
  ∀ i j, i < j → j < ks.length → ks.getD i 0 < ks.getD j 0

/-- `BPlusTreeNode<K, V>` of `bplustree.rs` (fields `keys`, `children`,
`is_leaf`, `values`). -/
inductive BPlusTreeNode (V : Type) : Type where
  | mk (keys : List Nat) (children : List (BPlusTreeNode V))
       (is_leaf : Bool) (values : List V)

instance : Inhabited (BPlusTreeNode V) := ⟨.mk [] [] true []⟩

def BPlusTreeNode.keys : BPlusTreeNode V → List Nat
  | .mk ks _ _ _ => ks

def BPlusTreeNode.children : BPlusTreeNode V → List (BPlusTreeNode V)
  | .mk _ cs _ _ => cs

def BPlusTreeNode.isLeaf : BPlusTreeNode V → Bool
  | .mk _ _ l _ => l

def BPlusTreeNode.values : BPlusTreeNode V → List V
  | .mk _ _ _ vs => vs

/-- Loop body of `BPlusTreeNode::get_entry_index_upper_bound` (also the
identical static `BPlusTreeQuery::get_entry_index_upper_bound`):
`while left < right { mid = left + (right-left)/2; if keys[mid] <= key
{ left = mid+1 } else { right = mid } }; left`. -/
def upperBoundLoop (ks : List Nat) (key : Nat) (left right : Nat) : Nat :=
  if _h : left < right then
    let mid := left + (right - left) / 2
    if ks.getD mid 0 ≤ key then
      upperBoundLoop ks key (mid + 1) right
    else
      upperBoundLoop ks key left mid
  else
    left
termination_by right - left
decreasing_by
  · omega
  · omega

/-- `get_entry_index_upper_bound`: number of keys `≤ key` (for sorted keys). -/
def get_entry_index_upper_bound (ks : List Nat) (key : Nat) : Nat :=
  upperBoundLoop ks key 0 ks.length

/-- Loop body of `BPlusTreeNode::get_equal_entry_index` (`right` is an
inclusive bound; `checked_sub` failures return `none` for the whole call). -/
def equalEntryLoop (ks : List Nat) (key : Nat) (left right : Nat) : Option Nat :=
  if _h : left ≤ right then
    let mid := left + (right - left) / 2
    let mkey := ks.getD mid 0
    if mkey = key then
      some mid
    else if key < mkey then
      if mid = 0 then none
      else equalEntryLoop ks key left (mid - 1)
    else
      equalEntryLoop ks key (mid + 1) right
  else
    none
termination_by right + 1 - left
decreasing_by
  · omega
  · omega

/-- `get_equal_entry_index`: `right = keys.len().checked_sub(1)?`. -/
def get_equal_entry_index (ks : List Nat) (key : Nat) : Option Nat :=
  match ks.length with
  | 0 => none
  | n + 1 => equalEntryLoop ks key 0 n

/-- Model of Rust `slice::binary_search` as used by `query` on the sorted key
slice of a leaf: classic three-way loop, `some i` means `keys[i] = key`. -/
def rustBinarySearch (ks : List Nat) (key : Nat) (left right : Nat) : Option Nat :=
  if _h : left < right then
    let mid := left + (right - left) / 2
    let mkey := ks.getD mid 0
    if mkey < key then
      rustBinarySearch ks key (mid + 1) right
    else if key < mkey then
      rustBinarySearch ks key left mid
    else
      some mid
  else
    none
termination_by right - left
decreasing_by
  · omega
  · omega

def binary_search (ks : List Nat) (key : Nat) : Option Nat :=
  rustBinarySearch ks key 0 ks.length

/-- `BPlusTreeNode::find_leaf_entry`: first key of the leftmost leaf
(`keys.get(0).unwrap()` resp. `children.get(0).unwrap()` modelled with
defaults, guarded by the invariants). -/
def find_leaf_entry : BPlusTreeNode V → Nat
  | .mk ks cs leaf _ =>
    if leaf then ks.headD 0
    else
      match cs with
      | [] => 0
      | c :: _ => find_leaf_entry c

/-- `BPlusTreeNode::query`. -/
def nodeQuery : BPlusTreeNode V → Nat → Option V
  | .mk ks _ true vs, key =>
    match binary_search ks key with
    | some idx => vs.get? idx
    | none => none
  | .mk ks cs false _, key =>
    match _h : cs.get? (get_entry_index_upper_bound ks key) with
    | some c => nodeQuery c key
    | none => none
decreasing_by
  have hmem : c ∈ cs := List.get?_mem _h
  have hlt := List.sizeOf_lt_of_mem hmem
  simp only [BPlusTreeNode.mk.sizeOf_spec]
  omega

/-- `BPlusTreeNode::get_median_index`: `order >> 1`. -/
def get_median_index (order : Nat) : Nat := order / 2

/-- `BPlusTreeNode::split(order)`.  The mutated `self` is the first
component, the returned right sibling the second.  In the internal case the
source pushes a clone of the right sibling's first child onto the left
node's children (`self.children.push(node.children.get(0).unwrap().clone())`). -/
def nodeSplit : BPlusTreeNode V → Nat → BPlusTreeNode V × BPlusTreeNode V
  | .mk ks cs true vs, order =>
    let median := get_median_index order
    (.mk (ks.take median) cs true (vs.take median),
     .mk (ks.drop median) [] true (vs.drop median))
  | .mk ks cs false vs, order =>
    let median := get_median_index order
    let rightCs := cs.drop (median + 1)
    (.mk (ks.take (median + 1)) (cs.take (median + 1) ++ [rightCs.headD default]) false vs,
     .mk (ks.drop (median + 1)) rightCs false [])

/-- The tail of the internal-node branch of `BPlusTreeNode::insert` after the
recursive call on the chosen child: `cs1` is `children` with the updated
child already written back, `os` the child's optional split-off sibling
(`if node.is_some() { ... }` in the source, lines 114-122). -/
def internalAfter (ks : List Nat) (cs1 : List (BPlusTreeNode V)) (vs : List V)
    (os : Option (BPlusTreeNode V)) (inner_order : Nat) :
    BPlusTreeNode V × Option (BPlusTreeNode V) :=
  match os with
  | none => (.mk ks cs1 false vs, none)
  | some node =>
    let leafKey := find_leaf_entry node
    let idx := get_entry_index_upper_bound ks leafKey
    let ks2 := listInsertAt ks idx leafKey
    let cs2 := listInsertAt cs1 (idx + 1) node
    if inner_order < ks2.length then
      let pr := nodeSplit (.mk ks2 cs2 false vs) inner_order
      (pr.1, some pr.2)
    else
      (.mk ks2 cs2 false vs, none)

/-- The leaf branch of `BPlusTreeNode::insert` (source lines 99-109). -/
def leafInsert (ks : List Nat) (cs : List (BPlusTreeNode V)) (vs : List V)
    (key : Nat) (v : V) (leaf_order : Nat) :
    BPlusTreeNode V × Option (BPlusTreeNode V) :=
  match get_equal_entry_index ks key with
  | some eqIdx => (.mk ks cs true (listInsertAt vs eqIdx v), none)
  | none =>
    let pos := get_entry_index_upper_bound ks key
    let ks2 := listInsertAt ks pos key
    let vs2 := listInsertAt vs pos v
    if leaf_order < ks2.length then
      let pr := nodeSplit (.mk ks2 cs true vs2) leaf_order
      (pr.1, some pr.2)
    else
      (.mk ks2 cs true vs2, none)

/-- `BPlusTreeNode::insert(key, v, inner_order, leaf_order)`: the pair is the
mutated `self` together with the optional split-off right sibling.
`is_overflow(order)` is `keys.len() > order`.  The `cs.get? pos = none` arm
models the `children.get_mut(pos).unwrap()` panic and is unreachable under
the structural invariant. -/
def nodeInsert : BPlusTreeNode V → Nat → V → Nat → Nat →
    BPlusTreeNode V × Option (BPlusTreeNode V)
  | .mk ks cs true vs, key, v, _inner_order, leaf_order =>
    leafInsert ks cs vs key v leaf_order
  | .mk ks cs false vs, key, v, inner_order, leaf_order =>
    let pos := get_entry_index_upper_bound ks key
    match _h : cs.get? pos with
    | none => (.mk ks cs false vs, none)
    | some child =>
      let res := nodeInsert child key v inner_order leaf_order
      internalAfter ks (cs.set pos res.1) vs res.2 inner_order
decreasing_by
  have hmem : child ∈ cs := List.get?_mem _h
  have hlt := List.sizeOf_lt_of_mem hmem
  simp only [BPlusTreeNode.mk.sizeOf_spec]
  omega

theorem nodeInsert_leaf_eq (ks : List Nat) (cs : List (BPlusTreeNode V)) (vs : List V)
    (key : Nat) (v : V) (io lo : Nat) :
    nodeInsert (.mk ks cs true vs) key v io lo = leafInsert ks cs vs key v lo := by
  rw [nodeInsert]

theorem nodeInsert_internal_eq_none (ks : List Nat) (cs : List (BPlusTreeNode V))
    (vs : List V) (key : Nat) (v : V) (io lo : Nat)
    (h : cs.get? (get_entry_index_upper_bound ks key) = none) :
    nodeInsert (.mk ks cs false vs) key v io lo = (.mk ks cs false vs, none) := by
  rw [nodeInsert]
  split
  · rfl
  · rename_i child heq
    rw [h] at heq
    cases heq

theorem nodeInsert_internal_eq_some (ks : List Nat) (cs : List (BPlusTreeNode V))
    (vs : List V) (key : Nat) (v : V) (io lo : Nat) (child : BPlusTreeNode V)
    (h : cs.get? (get_entry_index_upper_bound ks key) = some child) :
    nodeInsert (.mk ks cs false vs) key v io lo =
      internalAfter ks (cs.set (get_entry_index_upper_bound ks key)
        (nodeInsert child key v io lo).1) vs (nodeInsert child key v io lo).2 io := by
  rw [nodeInsert]
  split
  · rename_i heq
    rw [h] at heq
    cases heq
  · rename_i child' heq
    rw [h] at heq
    cases heq
    rfl

/-- `BLOCK_SIZE`. -/
def BLOCK_SIZE : Nat := 4096

/-- `POINTER_SIZE = size_of::<Option<u64>>()` (16 on the targets in use). -/
def POINTER_SIZE : Nat := 16

/-- `BINCODE_OVERHEAD`. -/
def BINCODE_OVERHEAD : Nat := 4

/-- `BPlusTree<K, V>` (`root`, `inner_order`, `leaf_order`). -/
structure BPlusTree (V : Type) where
  root : BPlusTreeNode V
  inner_order : Nat
  leaf_order : Nat

/-- Order computation shared by `BPlusTree::new` and `new_with_root`;
`keyMemSize`/`valueMemSize` stand for Rust's `size_of::<K>()` and
`size_of::<V>()` of the concrete instantiation (4 and 24 for `u32`/`String`). -/
def treeOrders (keyMemSize valueMemSize : Nat) : Nat × Nat :=
  let key_size := keyMemSize + POINTER_SIZE + 1 + BINCODE_OVERHEAD
  (BLOCK_SIZE / key_size, BLOCK_SIZE / (key_size + valueMemSize + BINCODE_OVERHEAD))

/-- `BPlusTree::new`. -/
def BPlusTree.new (V : Type) (keyMemSize valueMemSize : Nat) : BPlusTree V :=
  { root := .mk [] [] true []
    inner_order := (treeOrders keyMemSize valueMemSize).1
    leaf_order := (treeOrders keyMemSize valueMemSize).2 }

/-- `BPlusTree::new_with_root`. -/
def BPlusTree.new_with_root (keyMemSize valueMemSize : Nat)
    (root : BPlusTreeNode V) : BPlusTree V :=
  { root := root
    inner_order := (treeOrders keyMemSize valueMemSize).1
    leaf_order := (treeOrders keyMemSize valueMemSize).2 }

/-- `BPlusTree::insert`. -/
def BPlusTree.insert (t : BPlusTree V) (key : Nat) (value : V) : BPlusTree V :=
  if t.root.keys.length = 0 then
    { t with root := .mk (t.root.keys ++ [key]) t.root.children t.root.isLeaf
                        (t.root.values ++ [value]) }
  else
    match nodeInsert t.root key value t.inner_order t.leaf_order with
    | (root1, none) => { t with root := root1 }
    | (root1, some node) =>
      let childKey := if node.isLeaf then node.keys.headD 0 else find_leaf_entry node
      { t with root := .mk [childKey] [root1, node] false [] }

/-- `BPlusTree::query`. -/
def BPlusTree.query (t : BPlusTree V) (key : Nat) : Option V :=
  nodeQuery t.root key

/-- One 4096-byte block of the index file, with the byte packing of
`serialize_to_blocks` abstracted to its fields: the `is_leaf` tag byte, the
length-prefixed key vector, the length-prefixed value vector (leaves only)
and the length-prefixed child byte-offset vector (internal nodes only,
rewritten into the block after the children are emitted). -/
structure DiskBlock (V : Type) where
  is_leaf : Bool
  keys : List Nat
  values : List V
  pointers : List Nat

mutual

/-- `BPlusTreeNode::serialize_to_blocks(file, buffer, offset)`: returns the
blocks written (contiguously, starting at byte `offset`) and the next free
byte offset. -/
def serializeToBlocks : BPlusTreeNode V → Nat → List (DiskBlock V) × Nat
  | .mk ks _ true vs, offset => ([⟨true, ks, vs, []⟩], offset + BLOCK_SIZE)
  | .mk ks cs false _, offset =>
    let r := serializeChildren cs (offset + BLOCK_SIZE)
    (⟨false, ks, [], r.2.1⟩ :: r.1, r.2.2)

/-- The child-emission loop of `serialize_to_blocks`: blocks of all children,
the collected pointer vector, and the next free offset. -/
def serializeChildren : List (BPlusTreeNode V) → Nat → List (DiskBlock V) × List Nat × Nat
  | [], current => ([], [], current)
  | c :: rest, current =>
    let rc := serializeToBlocks c current
    let rr := serializeChildren rest rc.2
    (rc.1 ++ rr.1, current :: rr.2.1, rr.2.2)

end

/-- `BPlusTree::serialize(filename)` onto a file whose current contents are
`existing` (the source opens with `write(true).create(true)` and no
`truncate`, so bytes beyond the written image survive).  Returns the new file
contents and the `io::Result<u64>` byte count. -/
def BPlusTree.serialize (t : BPlusTree V) (existing : List (DiskBlock V)) :
    List (DiskBlock V) × Nat :=
  let r := serializeToBlocks t.root 0
  (r.1 ++ existing.drop r.1.length, r.2)

/-- `BPlusTreeNode::deserialize_from_blocks` with `nested = true` (used by
`BPlusTree::deserialize`): reads the block at byte `offset` and recursively
loads the children.  `fuel` bounds the recursion depth; the Rust original
would diverge (or exhaust the stack) on a cyclic pointer file, which the
model maps to `none`, and a valid image's depth is at most its block count. -/
def deserializeNode (file : List (DiskBlock V)) : Nat → Nat → Option (BPlusTreeNode V)
  | 0, _ => none
  | fuel + 1, offset =>
    if offset % BLOCK_SIZE ≠ 0 then none
    else
      match file.get? (offset / BLOCK_SIZE) with
      | none => none
      | some b =>
        if b.is_leaf then some (.mk b.keys [] true b.values)
        else
          match b.pointers.mapM (fun p => deserializeNode file fuel p) with
          | none => none
          | some cs => some (.mk b.keys cs false [])

/-- `BPlusTree::deserialize(filename)`. -/
def BPlusTree.deserialize (V : Type) (keyMemSize valueMemSize : Nat)
    (file : List (DiskBlock V)) : Option (BPlusTree V) :=
  (deserializeNode file (file.length + 1) 0).map
    (BPlusTree.new_with_root keyMemSize valueMemSize)

/-- `BPlusTreeQuery::query` descent loop (`deserialize_from_blocks` with
`nested = false` per step).  Result `none` models an `Err`/panic
(`read_exact` failing, `pointers.get(child_idx).unwrap()`), `some r` models
`Ok(r)`.  `fuel` bounds the loop as in `deserializeNode`. -/
def streamQueryLoop (file : List (DiskBlock V)) (key : Nat) : Nat → Nat → Option (Option V)
  | _, 0 => none
  | offset, fuel + 1 =>
    if offset % BLOCK_SIZE ≠ 0 then none
    else
      match file.get? (offset / BLOCK_SIZE) with
      | none => none
      | some b =>
        if b.is_leaf then
          match binary_search b.keys key with
          | some idx => some (b.values.get? idx)
          | none => some none
        else
          match b.pointers.get? (get_entry_index_upper_bound b.keys key) with
          | none => none
          | some p => streamQueryLoop file key p fuel

/-- `BPlusTreeQuery::query(&key)` on an open file. -/
def BPlusTreeQuery.query (file : List (DiskBlock V)) (key : Nat) : Option (Option V) :=
  streamQueryLoop file key 0 (file.length + 1)

/-! ### Basic facts about the search loops -/

theorem getD_mem {ks : List Nat} {i : Nat} (h : i < ks.length) : ks.getD i 0 ∈ ks := by
  rw [List.getD_eq_getElem ks 0 h]
  exact List.getElem_mem h

theorem mem_iff_getD {ks : List Nat} {key : Nat} :
    key ∈ ks ↔ ∃ j, j < ks.length ∧ ks.getD j 0 = key := by
  constructor
  · intro h
    obtain ⟨i, hi, he⟩ := List.mem_iff_getElem.mp h
    exact ⟨i, hi, by rw [List.getD_eq_getElem ks 0 hi]; exact he⟩
  · rintro ⟨j, hj, he⟩
    exact he ▸ getD_mem hj

theorem sortedKeys_inj {ks : List Nat} (hs : SortedKeys ks) {i j : Nat}
    (hi : i < ks.length) (hj : j < ks.length) (he : ks.getD i 0 = ks.getD j 0) :
    i = j := by
  rcases Nat.lt_trichotomy i j with h | h | h
  · exact absurd he (Nat.ne_of_lt (hs i j h hj))
  · exact h
  · exact absurd he.symm (Nat.ne_of_lt (hs j i h hi))

theorem upperBoundLoop_bounds (ks : List Nat) (key : Nat) :
    ∀ n left right, right - left ≤ n → left ≤ right →
      left ≤ upperBoundLoop ks key left right ∧ upperBoundLoop ks key left right ≤ right := by
  intro n
  induction n with
  | zero =>
    intro left right h1 h2
    have : left = right := by omega
    subst this
    rw [upperBoundLoop]
    simp
  | succ n ih =>
    intro left right h1 h2
    rw [upperBoundLoop]
    by_cases hlr : left < right
    · simp only [hlr, dif_pos]
      by_cases hk : ks.getD (left + (right - left) / 2) 0 ≤ key
      · simp only [hk, if_pos]
        have := ih (left + (right - left) / 2 + 1) right (by omega) (by omega)
        omega
      · simp only [hk, if_neg, not_false_iff]
        have := ih left (left + (right - left) / 2) (by omega) (by omega)
        omega
    · rw [dif_neg hlr]
      exact ⟨le_refl _, h2⟩

theorem upperBoundLoop_spec (ks : List Nat) (key : Nat) (hs : SortedKeys ks) :
    ∀ n left right, right - left ≤ n → left ≤ right → right ≤ ks.length →
      (∀ i, i < left → ks.getD i 0 ≤ key) →
      (∀ i, right ≤ i → i < ks.length → key < ks.getD i 0) →
      (∀ i, i < upperBoundLoop ks key left right → ks.getD i 0 ≤ key) ∧
      (∀ i, upperBoundLoop ks key left right ≤ i → i < ks.length → key < ks.getD i 0) := by
  intro n
  induction n with
  | zero =>
    intro left right h1 h2 h3 h4 h5
    have : left = right := by omega
    subst this
    rw [upperBoundLoop]
    simp only [lt_irrefl, dite_false]
    exact ⟨h4, h5⟩
  | succ n ih =>
    intro left right h1 h2 h3 h4 h5
    rw [upperBoundLoop]
    by_cases hlr : left < right
    · simp only [hlr, dif_pos]
      set mid := left + (right - left) / 2 with hmid
      have hmidlt : mid < right := by omega
      have hmidlen : mid < ks.length := by omega
      by_cases hk : ks.getD mid 0 ≤ key
      · simp only [hk, if_pos]
        refine ih (mid + 1) right (by omega) (by omega) h3 ?_ h5
        intro i hi
        rcases Nat.lt_or_ge i left with h | h
        · exact h4 i h
        · calc ks.getD i 0 ≤ ks.getD mid 0 := by
                rcases Nat.eq_or_lt_of_le (by omega : i ≤ mid) with he | hl
                · rw [he]
                · exact le_of_lt (hs i mid hl hmidlen)
            _ ≤ key := hk
      · simp only [hk, if_neg, not_false_iff]
        refine ih left mid (by omega) (by omega) (by omega) h4 ?_
        intro i hi hilen
        have hmk : key < ks.getD mid 0 := by omega
        rcases Nat.eq_or_lt_of_le hi with he | hl
        · rw [← he]; exact hmk
        · exact lt_of_lt_of_le hmk (le_of_lt (hs mid i hl hilen))
    · simp only [hlr, dite_false]
      have : left = right := by omega
      subst this
      exact ⟨h4, h5⟩

theorem ub_le_length (ks : List Nat) (key : Nat) :
    get_entry_index_upper_bound ks key ≤ ks.length :=
  (upperBoundLoop_bounds ks key ks.length 0 ks.length (by omega) (by omega)).2

theorem ub_spec (ks : List Nat) (key : Nat) (hs : SortedKeys ks) :
    (∀ i, i < get_entry_index_upper_bound ks key → ks.getD i 0 ≤ key) ∧
    (∀ i, get_entry_index_upper_bound ks key ≤ i → i < ks.length → key < ks.getD i 0) :=
  upperBoundLoop_spec ks key hs ks.length 0 ks.length (by omega) (by omega) (le_refl _)
    (by omega) (by intro i h1 h2; omega)

theorem ub_eq_of_bracket (ks : List Nat) (key : Nat) (hs : SortedKeys ks) (p : Nat)
    (hp : p ≤ ks.length)
    (hlow : ∀ i, i < p → ks.getD i 0 ≤ key)
    (hhigh : ∀ i, p ≤ i → i < ks.length → key < ks.getD i 0) :
    get_entry_index_upper_bound ks key = p := by
  obtain ⟨h1, h2⟩ := ub_spec ks key hs
  have hle := ub_le_length ks key
  by_contra hne
  rcases Nat.lt_or_ge (get_entry_index_upper_bound ks key) p with h | h
  · exact absurd (hlow _ h) (not_le.mpr (h2 _ (le_refl _) (by omega)))
  · have h' : get_entry_index_upper_bound ks key ≠ p := hne
    have hplt : p < get_entry_index_upper_bound ks key := by omega
    exact absurd (h1 p hplt) (not_le.mpr (hhigh p (le_refl _) (by omega)))

theorem equalEntryLoop_sound (ks : List Nat) (key : Nat) :
    ∀ n left right, right + 1 - left ≤ n → right < ks.length →
      ∀ i, equalEntryLoop ks key left right = some i →
        i < ks.length ∧ ks.getD i 0 = key := by
  intro n
  induction n with
  | zero =>
    intro left right h1 h2 i h
    rw [equalEntryLoop] at h
    have : ¬ (left ≤ right) := by omega
    simp [this] at h
  | succ n ih =>
    intro left right h1 h2 i h
    rw [equalEntryLoop] at h
    by_cases hlr : left ≤ right
    · simp only [hlr, dif_pos] at h
      set mid := left + (right - left) / 2 with hmid
      have hmr : mid ≤ right := by omega
      by_cases he : ks.getD mid 0 = key
      · simp only [he, if_pos] at h
        have hmi := Option.some.inj h
        rw [← hmi]
        exact ⟨by omega, he⟩
      · simp only [he, if_neg, not_false_iff] at h
        by_cases hlt : key < ks.getD mid 0
        · simp only [hlt, if_pos] at h
          by_cases h0 : mid = 0
          · simp [h0] at h
          · simp only [h0, if_neg, not_false_iff] at h
            exact ih left (mid - 1) (by omega) (by omega) i h
        · simp only [hlt, if_neg, not_false_iff] at h
          exact ih (mid + 1) right (by omega) h2 i h
    · simp [hlr] at h

theorem get_equal_entry_index_sound (ks : List Nat) (key : Nat) (i : Nat)
    (h : get_equal_entry_index ks key = some i) :
    i < ks.length ∧ ks.getD i 0 = key := by
  unfold get_equal_entry_index at h
  rcases he : ks.length with _ | n
  · rw [he] at h; cases h
  · rw [he] at h
    exact he ▸ equalEntryLoop_sound ks key (n + 1) 0 n (by omega) (by omega) i h

theorem get_equal_entry_index_none_of_not_mem (ks : List Nat) (key : Nat)
    (h : key ∉ ks) : get_equal_entry_index ks key = none := by
  rcases he : get_equal_entry_index ks key with _ | i
  · rfl
  · obtain ⟨h1, h2⟩ := get_equal_entry_index_sound ks key i he
    exact absurd (h2 ▸ getD_mem h1) h

theorem equalEntryLoop_complete (ks : List Nat) (key : Nat) (hs : SortedKeys ks) :
    ∀ n left right j, right + 1 - left ≤ n → right < ks.length →
      j < ks.length → ks.getD j 0 = key → left ≤ j → j ≤ right →
      equalEntryLoop ks key left right = some j := by
  intro n
  induction n with
  | zero => intro left right j h1 _ _ _ _ _; omega
  | succ n ih =>
    intro left right j h1 h2 hj hkey hlj hjr
    rw [equalEntryLoop]
    have hlr : left ≤ right := by omega
    simp only [hlr, dif_pos]
    set mid := left + (right - left) / 2 with hmid
    have hmr : mid ≤ right := by omega
    have hml : left ≤ mid := by omega
    by_cases he : ks.getD mid 0 = key
    · have hmj : mid = j := sortedKeys_inj hs (by omega) hj (he.trans hkey.symm)
      rw [if_pos he, hmj]
    · simp only [he, if_neg, not_false_iff]
      by_cases hlt : key < ks.getD mid 0
      · simp only [hlt, if_pos]
        have hjm : j < mid := by
          by_contra hge
          have : mid ≤ j := by omega
          rcases Nat.eq_or_lt_of_le this with h' | h'
          · exact he (by rw [h']; exact hkey)
          · exact absurd (hkey ▸ hs mid j h' hj) (by omega)
        have h0 : mid ≠ 0 := by omega
        simp only [h0, if_neg, not_false_iff]
        exact ih left (mid - 1) j (by omega) (by omega) hj hkey hlj (by omega)
      · simp only [hlt, if_neg, not_false_iff]
        have hmk : ks.getD mid 0 < key := by omega
        have hjm : mid < j := by
          by_contra hge
          have : j ≤ mid := by omega
          rcases Nat.eq_or_lt_of_le this with h' | h'
          · exact he (by rw [← h']; exact hkey)
          · exact absurd (hkey ▸ hs j mid h' (by omega)) (by omega)
        exact ih (mid + 1) right j (by omega) h2 hj hkey (by omega) hjr

theorem get_equal_entry_index_complete (ks : List Nat) (key : Nat) (hs : SortedKeys ks)
    (j : Nat) (hj : j < ks.length) (hkey : ks.getD j 0 = key) :
    get_equal_entry_index ks key = some j := by
  unfold get_equal_entry_index
  rcases he : ks.length with _ | n
  · omega
  · exact equalEntryLoop_complete ks key hs (n + 1) 0 n j (by omega) (by omega) hj hkey
      (by omega) (by omega)

theorem rustBinarySearch_sound (ks : List Nat) (key : Nat) :
    ∀ n left right, right - left ≤ n → right ≤ ks.length →
      ∀ i, rustBinarySearch ks key left right = some i →
        i < ks.length ∧ ks.getD i 0 = key := by
  intro n
  induction n with
  | zero =>
    intro left right h1 h2 i h
    rw [rustBinarySearch] at h
    have : ¬ (left < right) := by omega
    simp [this] at h
  | succ n ih =>
    intro left right h1 h2 i h
    rw [rustBinarySearch] at h
    by_cases hlr : left < right
    · simp only [hlr, dif_pos] at h
      set mid := left + (right - left) / 2 with hmid
      have hmr : mid < right := by omega
      by_cases hk : ks.getD mid 0 < key
      · simp only [hk, if_pos] at h
        exact ih (mid + 1) right (by omega) h2 i h
      · simp only [hk, if_neg, not_false_iff] at h
        by_cases hk2 : key < ks.getD mid 0
        · simp only [hk2, if_pos] at h
          exact ih left mid (by omega) (by omega) i h
        · simp only [hk2, if_neg, not_false_iff] at h
          have hmi := Option.some.inj h
          rw [← hmi]
          exact ⟨by omega, by omega⟩
    · simp [hlr] at h

theorem binary_search_none_of_not_mem (ks : List Nat) (key : Nat)
    (h : key ∉ ks) : binary_search ks key = none := by
  rcases he : binary_search ks key with _ | i
  · rfl
  · obtain ⟨h1, h2⟩ := rustBinarySearch_sound ks key ks.length 0 ks.length (by omega)
      (le_refl _) i he
    exact absurd (h2 ▸ getD_mem h1) h

theorem rustBinarySearch_complete (ks : List Nat) (key : Nat) (hs : SortedKeys ks) :
    ∀ n left right j, right - left ≤ n → right ≤ ks.length →
      j < ks.length → ks.getD j 0 = key → left ≤ j → j < right →
      rustBinarySearch ks key left right = some j := by
  intro n
  induction n with
  | zero => intro left right j h1 _ _ _ _ _; omega
  | succ n ih =>
    intro left right j h1 h2 hj hkey hlj hjr
    rw [rustBinarySearch]
    have hlr : left < right := by omega
    simp only [hlr, dif_pos]
    set mid := left + (right - left) / 2 with hmid
    have hmr : mid < right := by omega
    by_cases hk : ks.getD mid 0 < key
    · simp only [hk, if_pos]
      have hjm : mid < j := by
        by_contra hge
        have : j ≤ mid := by omega
        rcases Nat.eq_or_lt_of_le this with h' | h'
        · rw [h'] at hkey; omega
        · exact absurd (hkey ▸ hs j mid h' (by omega)) (by omega)
      exact ih (mid + 1) right j (by omega) h2 hj hkey (by omega) hjr
    · simp only [hk, if_neg, not_false_iff]
      by_cases hk2 : key < ks.getD mid 0
      · simp only [hk2, if_pos]
        have hjm : j < mid := by
          by_contra hge
          have : mid ≤ j := by omega
          rcases Nat.eq_or_lt_of_le this with h' | h'
          · rw [← h'] at hkey; omega
          · exact absurd (hkey ▸ hs mid j h' hj) (by omega)
        exact ih left mid j (by omega) (by omega) hj hkey hlj hjm
      · have heq : ks.getD mid 0 = key := by omega
        have hmj : mid = j := sortedKeys_inj hs (by omega) hj (heq.trans hkey.symm)
        rw [if_neg (by omega), hmj]

theorem binary_search_complete (ks : List Nat) (key : Nat) (hs : SortedKeys ks)
    (j : Nat) (hj : j < ks.length) (hkey : ks.getD j 0 = key) :
    binary_search ks key = some j :=
  rustBinarySearch_complete ks key hs ks.length 0 ks.length j (by omega) (le_refl _)
    hj hkey (by omega) hj

/-! ### Index bookkeeping for `listInsertAt` and `List.set` -/

theorem length_listInsertAt (l : List α) (i : Nat) (a : α) :
    (listInsertAt l i a).length = l.length + 1 := by
  unfold listInsertAt
  simp
  omega

theorem getD_listInsertAt_lt (l : List α) (i : Nat) (a : α) (j : Nat) (d : α)
    (hj : j < i) (hi : i ≤ l.length) :
    (listInsertAt l i a).getD j d = l.getD j d := by
  unfold listInsertAt
  have h1 : j < (l.take i).length := by simp; omega
  have h2 : j < l.length := by omega
  rw [List.getD_eq_getElem _ _ (by simp; omega)]
  rw [List.getElem_append_left h1]
  rw [List.getElem_take]
  rw [List.getD_eq_getElem _ _ h2]

theorem getD_listInsertAt_self (l : List α) (i : Nat) (a : α) (d : α)
    (hi : i ≤ l.length) :
    (listInsertAt l i a).getD i d = a := by
  unfold listInsertAt
  have h1 : (l.take i).length = i := by simp; omega
  rw [List.getD_eq_getElem _ _ (by simp; omega), List.getElem_append_right (by omega)]
  simp [h1]

theorem getD_listInsertAt_gt (l : List α) (i : Nat) (a : α) (j : Nat) (d : α)
    (hj : i < j) (hi : i ≤ l.length) (hjl : j ≤ l.length) :
    (listInsertAt l i a).getD j d = l.getD (j - 1) d := by
  unfold listInsertAt
  have h1 : (l.take i).length = i := by simp; omega
  rw [List.getD_eq_getElem _ _ (by simp; omega), List.getElem_append_right (by omega)]
  have h2 : j - (l.take i).length = (j - i - 1) + 1 := by omega
  simp only [h2, List.getElem_cons_succ]
  rw [List.getElem_drop]
  rw [List.getD_eq_getElem _ _ (by omega)]
  congr 1
  omega

theorem getD_set_self (l : List α) (i : Nat) (a : α) (d : α) (hi : i < l.length) :
    (l.set i a).getD i d = a := by
  rw [List.getD_eq_getElem _ _ (by simpa using hi)]
  simp [List.getElem_set, hi]

theorem getD_set_ne (l : List α) (i : Nat) (a : α) (j : Nat) (d : α) (hij : i ≠ j) :
    (l.set i a).getD j d = l.getD j d := by
  rcases Nat.lt_or_ge j l.length with h | h
  · rw [List.getD_eq_getElem _ _ (by simpa using h), List.getD_eq_getElem _ _ h]
    simp [List.getElem_set, hij]
  · rw [List.getD_eq_default _ _ (by simpa using h), List.getD_eq_default _ _ h]

theorem sortedKeys_listInsertAt (ks : List Nat) (p : Nat) (a : Nat)
    (hs : SortedKeys ks) (hp : p ≤ ks.length)
    (hlow : ∀ i, i < p → ks.getD i 0 < a)
    (hhigh : ∀ i, p ≤ i → i < ks.length → a < ks.getD i 0) :
    SortedKeys (listInsertAt ks p a) := by
  intro i j hij hj
  rw [length_listInsertAt] at hj
  rcases Nat.lt_trichotomy i p with hi | hi | hi
  · rw [getD_listInsertAt_lt ks p a i 0 hi hp]
    rcases Nat.lt_trichotomy j p with hj' | hj' | hj'
    · rw [getD_listInsertAt_lt ks p a j 0 hj' hp]
      exact hs i j hij (by omega)
    · rw [hj', getD_listInsertAt_self ks p a 0 hp]
      exact hlow i hi
    · rw [getD_listInsertAt_gt ks p a j 0 hj' hp (by omega)]
      exact hs i (j - 1) (by omega) (by omega)
  · subst hi
    rw [getD_listInsertAt_self ks i a 0 hp,
        getD_listInsertAt_gt ks i a j 0 (by omega) hp (by omega)]
    exact hhigh (j - 1) (by omega) (by omega)
  · rw [getD_listInsertAt_gt ks p a i 0 hi hp (by omega),
        getD_listInsertAt_gt ks p a j 0 (by omega) hp (by omega)]
    exact hs (i - 1) (j - 1) (by omega) (by omega)

theorem sortedKeys_take (ks : List Nat) (n : Nat) (hs : SortedKeys ks) :
    SortedKeys (ks.take n) := by
  intro i j hij hj
  simp only [List.length_take] at hj
  have hi : i < n := by omega
  have hj2 : j < n := by omega
  have hjk : j < ks.length := by omega
  rw [List.getD_eq_getElem _ _ (by simp; omega), List.getD_eq_getElem _ _ (by simp; omega)]
  simp only [List.getElem_take]
  have := hs i j hij hjk
  rwa [List.getD_eq_getElem _ _ (by omega), List.getD_eq_getElem _ _ hjk] at this

theorem sortedKeys_drop (ks : List Nat) (n : Nat) (hs : SortedKeys ks) :
    SortedKeys (ks.drop n) := by
  intro i j hij hj
  simp only [List.length_drop] at hj
  rw [List.getD_eq_getElem _ _ (by simp; omega), List.getD_eq_getElem _ _ (by simp; omega)]
  simp only [List.getElem_drop]
  have := hs (n + i) (n + j) (by omega) (by omega)
  rwa [List.getD_eq_getElem _ _ (by omega), List.getD_eq_getElem _ _ (by omega)] at this

theorem getD_take (l : List α) (n j : Nat) (d : α) (hj : j < n) (hn : j < l.length) :
    (l.take n).getD j d = l.getD j d := by
  rw [List.getD_eq_getElem _ _ (by simp; omega), List.getD_eq_getElem _ _ hn]
  simp [List.getElem_take]

theorem getD_drop (l : List α) (n j : Nat) (d : α) (h : n + j < l.length) :
    (l.drop n).getD j d = l.getD (n + j) d := by
  rw [List.getD_eq_getElem _ _ (by simp; omega), List.getD_eq_getElem _ _ h]
  simp [List.getElem_drop]

/-! ### Structural invariant and the serialization layout -/

mutual

/-- Height of a node (depth of the descent recursions). -/
def height : BPlusTreeNode V → Nat
  | .mk _ cs _ _ => 1 + heightList cs

def heightList : List (BPlusTreeNode V) → Nat
  | [] => 0
  | c :: rest => max (height c) (heightList rest)

end

/-- Structural well-formedness: leaves have no children, internal nodes have
`keys.len() + 1` children, at least one child, empty `values`.  This is what
serialization, deserialization and the streaming query rely on; it holds for
every tree built by `BPlusTree::insert` (duplicate keys included). -/
inductive SINV {V : Type} : BPlusTreeNode V → Prop where
  | leaf : ∀ (ks : List Nat) (vs : List V), SINV (.mk ks [] true vs)
  | internal : ∀ (ks : List Nat) (cs : List (BPlusTreeNode V)),
      cs ≠ [] → cs.length = ks.length + 1 →
      (∀ c ∈ cs, SINV c) → SINV (.mk ks cs false [])

theorem get_median_index_eq (order : Nat) : get_median_index order = order / 2 := rfl

theorem sinv_nodeSplit {n : BPlusTreeNode V} (hs : SINV n) (order : Nat)
    (hover : order < n.keys.length) :
    SINV (nodeSplit n order).1 ∧ SINV (nodeSplit n order).2 := by
  cases hs with
  | leaf ks vs =>
    constructor <;> exact SINV.leaf _ _
  | internal ks cs hne hlen hall =>
    simp only [BPlusTreeNode.keys] at hover
    have hm : get_median_index order + 1 ≤ ks.length := by
      rw [get_median_index_eq]
      omega
    have hcs : cs.length = ks.length + 1 := hlen
    constructor
    · simp only [nodeSplit]
      refine SINV.internal _ _ (by simp) ?_ ?_
      · simp only [List.length_append, List.length_take, List.length_cons,
          List.length_nil]
        omega
      · intro c hc
        rcases List.mem_append.mp hc with h | h
        · exact hall c (List.mem_of_mem_take h)
        · have hh : c = (cs.drop (get_median_index order + 1)).headD default := by
            simpa using h
          rcases he : cs.drop (get_median_index order + 1) with _ | ⟨c0, rest⟩
          · exfalso
            have := congrArg List.length he
            simp at this
            omega
          · rw [hh, he]
            exact hall c0 (List.mem_of_mem_drop (he ▸ List.mem_cons_self c0 rest))
    · simp only [nodeSplit]
      refine SINV.internal _ _ ?_ ?_ ?_
      · intro hnil
        have := congrArg List.length hnil
        simp at this
        omega
      · simp only [List.length_drop]
        omega
      · intro c hc
        exact hall c (List.mem_of_mem_drop hc)

/-- `internalAfter` preserves the structural invariant provided the written
back children are sound and the counts match. -/
theorem sinv_internalAfter (ks : List Nat) (cs1 : List (BPlusTreeNode V))
    (os : Option (BPlusTreeNode V)) (io : Nat)
    (hlen : cs1.length = ks.length + 1)
    (hall : ∀ c ∈ cs1, SINV c)
    (hos : ∀ s, os = some s → SINV s) :
    SINV (internalAfter ks cs1 [] os io).1 ∧
      (∀ s, (internalAfter ks cs1 [] os io).2 = some s → SINV s) := by
  rcases os with _ | sib
  · exact ⟨SINV.internal _ _ (by intro h; rw [h] at hlen; simp at hlen) hlen hall,
      by simp [internalAfter]⟩
  · have hsib : SINV sib := hos sib rfl
    rw [internalAfter]
    simp only
    set lk := find_leaf_entry sib with hlk
    set idx := get_entry_index_upper_bound ks lk with hidx
    have hlen2 : (listInsertAt cs1 (idx + 1) sib).length =
        (listInsertAt ks idx lk).length + 1 := by
      rw [length_listInsertAt, length_listInsertAt]
      omega
    have hall2 : ∀ c ∈ listInsertAt cs1 (idx + 1) sib, SINV c := by
      intro c hc
      unfold listInsertAt at hc
      rcases List.mem_append.mp hc with h | h
      · exact hall c (List.mem_of_mem_take h)
      · rcases List.mem_cons.mp h with h' | h'
        · exact h' ▸ hsib
        · exact hall c (List.mem_of_mem_drop h')
    have hne2 : listInsertAt cs1 (idx + 1) sib ≠ [] := by
      intro hnil
      have := congrArg List.length hnil
      rw [length_listInsertAt] at this
      simp at this
    by_cases hov : io < (listInsertAt ks idx lk).length
    · rw [if_pos hov]
      have hsp2 := sinv_nodeSplit (n := .mk (listInsertAt ks idx lk)
          (listInsertAt cs1 (idx + 1) sib) false [])
        (SINV.internal _ _ hne2 hlen2 hall2) io
        (by simpa [BPlusTreeNode.keys] using hov)
      exact ⟨hsp2.1, fun s hse => by rw [← Option.some.inj hse]; exact hsp2.2⟩
    · rw [if_neg hov]
      exact ⟨SINV.internal _ _ hne2 hlen2 hall2, by simp⟩

theorem sinv_leafInsert (ks : List Nat) (vs : List V) (key : Nat) (v : V) (lo : Nat) :
    SINV (leafInsert ks ([] : List (BPlusTreeNode V)) vs key v lo).1 ∧
      (∀ s, (leafInsert ks ([] : List (BPlusTreeNode V)) vs key v lo).2 = some s → SINV s) := by
  rw [leafInsert]
  split
  · exact ⟨SINV.leaf _ _, by simp⟩
  · simp only
    by_cases hov : lo < (listInsertAt ks (get_entry_index_upper_bound ks key) key).length
    · rw [if_pos hov]
      have hsp := sinv_nodeSplit
        (n := .mk (listInsertAt ks (get_entry_index_upper_bound ks key) key) []
          true (listInsertAt vs (get_entry_index_upper_bound ks key) v))
        (SINV.leaf _ _) lo (by simpa [BPlusTreeNode.keys] using hov)
      exact ⟨hsp.1, fun s hse => by rw [← Option.some.inj hse]; exact hsp.2⟩
    · rw [if_neg hov]
      exact ⟨SINV.leaf _ _, by simp⟩

theorem sinv_nodeInsert {n : BPlusTreeNode V} (hs : SINV n)
    (key : Nat) (v : V) (io lo : Nat) :
    SINV (nodeInsert n key v io lo).1 ∧
      (∀ s, (nodeInsert n key v io lo).2 = some s → SINV s) := by
  induction hs with
  | leaf ks vs =>
    rw [nodeInsert_leaf_eq]
    exact sinv_leafInsert ks vs key v lo
  | internal ks cs hne hlen hall ih =>
    rcases hch : cs.get? (get_entry_index_upper_bound ks key) with _ | child
    · rw [nodeInsert_internal_eq_none _ _ _ _ _ _ _ hch]
      exact ⟨SINV.internal _ _ hne hlen hall, by simp⟩
    · rw [nodeInsert_internal_eq_some _ _ _ _ _ _ _ _ hch]
      have hchild : child ∈ cs := List.get?_mem hch
      obtain ⟨ih1, ih2⟩ := ih child hchild
      refine sinv_internalAfter _ _ _ _ (by simpa using hlen) ?_ ih2
      intro c hc
      rcases List.mem_or_eq_of_mem_set hc with h | h
      · exact hall c h
      · exact h ▸ ih1

/-- The tree-level invariant: a structurally sound root which, when its key
list is empty, is the pristine empty leaf produced by `BPlusTree::new`. -/
def TreeWF (t : BPlusTree V) : Prop :=
  SINV t.root ∧ (t.root.keys = [] → t.root = .mk [] [] true [])

theorem treeWF_new (V : Type) (km vm : Nat) : TreeWF (BPlusTree.new V km vm) :=
  ⟨SINV.leaf _ _, fun _ => rfl⟩

/-- Without a split, `insert` never shrinks a node's key list (the split
branches return `some`). -/
theorem leafInsert_none_keys_len (ks : List Nat) (cs : List (BPlusTreeNode V))
    (vs : List V) (key : Nat) (v : V) (lo : Nat) :
    (leafInsert ks cs vs key v lo).2 = none →
      ks.length ≤ (leafInsert ks cs vs key v lo).1.keys.length := by
  rw [leafInsert]
  split
  · intro _
    simp [BPlusTreeNode.keys]
  · simp only
    by_cases hov : lo < (listInsertAt ks (get_entry_index_upper_bound ks key) key).length
    · rw [if_pos hov]
      intro h
      cases h
    · rw [if_neg hov]
      intro _
      simp [BPlusTreeNode.keys, length_listInsertAt]

theorem internalAfter_none_keys_len (ks : List Nat) (cs1 : List (BPlusTreeNode V))
    (vs : List V) (os : Option (BPlusTreeNode V)) (io : Nat) :
    (internalAfter ks cs1 vs os io).2 = none →
      ks.length ≤ (internalAfter ks cs1 vs os io).1.keys.length := by
  rcases os with _ | sib
  · intro _
    simp [internalAfter, BPlusTreeNode.keys]
  · simp only [internalAfter]
    by_cases hov : io < (listInsertAt ks (get_entry_index_upper_bound ks
        (find_leaf_entry sib)) (find_leaf_entry sib)).length
    · rw [if_pos hov]
      intro h
      cases h
    · rw [if_neg hov]
      intro _
      simp [BPlusTreeNode.keys, length_listInsertAt]

theorem nodeInsert_none_keys_len (n : BPlusTreeNode V) (key : Nat) (v : V) (io lo : Nat)
    (h : (nodeInsert n key v io lo).2 = none) :
    n.keys.length ≤ (nodeInsert n key v io lo).1.keys.length := by
  rcases n with ⟨ks, cs, leaf, vs⟩
  rcases leaf with _ | _
  · rcases hch : cs.get? (get_entry_index_upper_bound ks key) with _ | child
    · rw [nodeInsert_internal_eq_none _ _ _ _ _ _ _ hch]
    · rw [nodeInsert_internal_eq_some _ _ _ _ _ _ _ _ hch] at h ⊢
      exact internalAfter_none_keys_len _ _ _ _ _ h
  · rw [nodeInsert_leaf_eq] at h ⊢
    exact leafInsert_none_keys_len _ _ _ _ _ _ h

theorem treeWF_insert {t : BPlusTree V} (h : TreeWF t) (key : Nat) (v : V) :
    TreeWF (t.insert key v) := by
  obtain ⟨hs, hempty⟩ := h
  unfold BPlusTree.insert
  by_cases h0 : t.root.keys.length = 0
  · have hr : t.root = .mk [] [] true [] := hempty (List.length_eq_zero.mp h0)
    rw [hr]
    rw [if_pos (by rfl)]
    constructor
    · exact SINV.leaf _ _
    · intro hk
      simp [BPlusTreeNode.keys] at hk
  · rw [if_neg h0]
    obtain ⟨h1, h2⟩ := sinv_nodeInsert hs key v t.inner_order t.leaf_order
    rcases hres : nodeInsert t.root key v t.inner_order t.leaf_order with ⟨root1, os⟩
    rcases os with _ | node
    · refine ⟨by rw [hres] at h1; exact h1, ?_⟩
      intro hk
      exfalso
      have hlen := nodeInsert_none_keys_len t.root key v t.inner_order t.leaf_order
        (by rw [hres])
      rw [hres] at hlen
      have hk' : root1.keys = [] := hk
      have hlen2 : t.root.keys.length ≤ root1.keys.length := hlen
      rw [hk'] at hlen2
      simp only [List.length_nil] at hlen2
      omega
    · refine ⟨SINV.internal _ _ (by simp) (by simp) ?_, ?_⟩
      · intro c hc
        rw [hres] at h1 h2
        rcases List.mem_cons.mp hc with h | h
        · exact h ▸ h1
        · rcases List.mem_cons.mp h with h' | h'
          · exact h' ▸ h2 node rfl
          · cases h'
      · intro hk
        exfalso
        have hk' : ([if node.isLeaf then node.keys.headD 0 else find_leaf_entry node]
            : List Nat) = [] := hk
        cases hk'

/-! ### Serialization layout, eager deserialization and the streaming query -/

/-- The image `blks` is installed in `file` starting at byte offset `off`
(one `DiskBlock` per 4096 bytes). -/
def blocksAt (file : List (DiskBlock V)) (off : Nat) (blks : List (DiskBlock V)) : Prop :=
  off % BLOCK_SIZE = 0 ∧
    ∀ i, i < blks.length → file.get? (off / BLOCK_SIZE + i) = blks.get? i

theorem blocksAt_append_left {file : List (DiskBlock V)} {off : Nat}
    {A B : List (DiskBlock V)} (h : blocksAt file off (A ++ B)) :
    blocksAt file off A := by
  refine ⟨h.1, fun i hi => ?_⟩
  rw [h.2 i (by simp; omega)]
  exact List.get?_append (by simpa using hi)

theorem blocksAt_append_right {file : List (DiskBlock V)} {off : Nat}
    {A B : List (DiskBlock V)} (h : blocksAt file off (A ++ B)) :
    blocksAt file (off + BLOCK_SIZE * A.length) B := by
  obtain ⟨hmod, hget⟩ := h
  constructor
  · show (off + BLOCK_SIZE * A.length) % BLOCK_SIZE = 0
    unfold BLOCK_SIZE at *
    omega
  · intro i hi
    show file.get? ((off + BLOCK_SIZE * A.length) / BLOCK_SIZE + i) = B.get? i
    have hdiv : (off + BLOCK_SIZE * A.length) / BLOCK_SIZE = off / BLOCK_SIZE + A.length := by
      unfold BLOCK_SIZE at *
      omega
    rw [hdiv]
    have hg := hget (A.length + i) (by simp; omega)
    rw [List.get?_append_right (by omega)] at hg
    simp only [Nat.add_sub_cancel_left] at hg
    rw [← hg]
    congr 1
    omega

theorem blocksAt_head {file : List (DiskBlock V)} {off : Nat}
    {b : DiskBlock V} {rest : List (DiskBlock V)} (h : blocksAt file off (b :: rest)) :
    file.get? (off / BLOCK_SIZE) = some b := by
  have := h.2 0 (by simp)
  simpa using this

theorem blocksAt_tail {file : List (DiskBlock V)} {off : Nat}
    {b : DiskBlock V} {rest : List (DiskBlock V)} (h : blocksAt file off (b :: rest)) :
    blocksAt file (off + BLOCK_SIZE) rest := by
  have h' : blocksAt file off ([b] ++ rest) := by simpa using h
  have := blocksAt_append_right h'
  simpa using this

/-- Offset accounting of the serializer: the returned next offset advances by
exactly one block per emitted node, the pointer vector has one entry per
child, and at least one block is written per node. -/
theorem serialize_offsets (V : Type) : ∀ s : Nat,
    (∀ (n : BPlusTreeNode V), sizeOf n ≤ s → ∀ off,
      (serializeToBlocks n off).2 = off + BLOCK_SIZE * (serializeToBlocks n off).1.length ∧
      1 ≤ (serializeToBlocks n off).1.length) ∧
    (∀ (cs : List (BPlusTreeNode V)), sizeOf cs ≤ s → ∀ off,
      (serializeChildren cs off).2.2 = off + BLOCK_SIZE * (serializeChildren cs off).1.length ∧
      (serializeChildren cs off).2.1.length = cs.length) := by
  intro s
  induction s with
  | zero =>
    constructor
    · intro n hn
      exfalso
      rcases n with ⟨ks, cs, b, vs⟩
      simp [BPlusTreeNode.mk.sizeOf_spec] at hn
    · intro cs hcs
      exfalso
      rcases cs with _ | ⟨c, rest⟩ <;> simp at hcs
  | succ s ih =>
    constructor
    · intro n hn off
      rcases n with ⟨ks, cs, b, vs⟩
      rcases b with _ | _
      · rw [serializeToBlocks]
        have hcs : sizeOf cs ≤ s := by
          simp [BPlusTreeNode.mk.sizeOf_spec] at hn
          omega
        obtain ⟨h1, _⟩ := (ih.2 cs hcs (off + BLOCK_SIZE))
        simp only [List.length_cons]
        constructor
        · rw [h1]
          ring
        · omega
      · rw [serializeToBlocks]
        simp
    · intro cs hcs off
      rcases cs with _ | ⟨c, rest⟩
      · rw [serializeChildren]
        simp
      · rw [serializeChildren]
        have hc : sizeOf c ≤ s := by
          simp at hcs
          omega
        have hrest : sizeOf rest ≤ s := by
          simp at hcs
          omega
        obtain ⟨hc1, hc2⟩ := ih.1 c hc off
        obtain ⟨hr1, hr2⟩ := ih.2 rest hrest (serializeToBlocks c off).2
        simp only [List.length_append, List.length_cons]
        refine ⟨?_, by omega⟩
        rw [hr1, hc1]
        ring

theorem serializeToBlocks_snd (n : BPlusTreeNode V) (off : Nat) :
    (serializeToBlocks n off).2 = off + BLOCK_SIZE * (serializeToBlocks n off).1.length :=
  ((serialize_offsets V (sizeOf n)).1 n (le_refl _) off).1

theorem serializeChildren_snd (cs : List (BPlusTreeNode V)) (off : Nat) :
    (serializeChildren cs off).2.2 = off + BLOCK_SIZE * (serializeChildren cs off).1.length :=
  ((serialize_offsets V (sizeOf cs)).2 cs (le_refl _) off).1

theorem serializeChildren_pointers_length (cs : List (BPlusTreeNode V)) (off : Nat) :
    (serializeChildren cs off).2.1.length = cs.length :=
  ((serialize_offsets V (sizeOf cs)).2 cs (le_refl _) off).2

/-- Every serialized image is at least as long (in blocks) as the height of
the serialized tree (needs the structural invariant: internal nodes have at
least one child). -/
theorem serialize_height_le (V : Type) : ∀ s : Nat,
    (∀ (n : BPlusTreeNode V), sizeOf n ≤ s → SINV n → ∀ off,
      height n ≤ (serializeToBlocks n off).1.length) ∧
    (∀ (cs : List (BPlusTreeNode V)), sizeOf cs ≤ s → cs ≠ [] → (∀ c ∈ cs, SINV c) → ∀ off,
      heightList cs ≤ (serializeChildren cs off).1.length) := by
  intro s
  induction s with
  | zero =>
    constructor
    · intro n hn
      exfalso
      rcases n with ⟨ks, cs, b, vs⟩
      simp [BPlusTreeNode.mk.sizeOf_spec] at hn
    · intro cs hcs hne
      exfalso
      rcases cs with _ | ⟨c, rest⟩
      · exact hne rfl
      · simp at hcs
  | succ s ih =>
    constructor
    · intro n hn hsinv off
      cases hsinv with
      | leaf ks vs =>
        rw [serializeToBlocks, height, heightList]
        simp
      | internal ks cs hne hlen hall =>
        rw [serializeToBlocks, height]
        have hcs : sizeOf cs ≤ s := by
          simp [BPlusTreeNode.mk.sizeOf_spec] at hn
          omega
        have := ih.2 cs hcs hne hall (off + BLOCK_SIZE)
        simp only [List.length_cons]
        omega
    · intro cs hcs hne hall off
      rcases cs with _ | ⟨c, rest⟩
      · exact absurd rfl hne
      · rw [serializeChildren, heightList]
        have hc : sizeOf c ≤ s := by
          simp at hcs
          omega
        have hrest : sizeOf rest ≤ s := by
          simp at hcs
          omega
        have h1 := ih.1 c hc (hall c (List.mem_cons_self _ _)) off
        simp only [List.length_append]
        rcases hr : rest with _ | ⟨c2, rest2⟩
        · rw [heightList]
          simp only [Nat.max_eq_left (Nat.zero_le _)]
          omega
        · have h2 := ih.2 rest hrest (by rw [hr]; simp) (fun c' hc' =>
            hall c' (List.mem_cons_of_mem _ hc')) (serializeToBlocks c off).2
          rw [← hr]
          omega

/-- Memberwise bound used to step the streaming/deserialization fuel. -/
theorem height_le_heightList {c : BPlusTreeNode V} {cs : List (BPlusTreeNode V)}
    (h : c ∈ cs) : height c ≤ heightList cs := by
  induction cs with
  | nil => cases h
  | cons c0 rest ih =>
    rw [heightList]
    rcases List.mem_cons.mp h with h' | h'
    · rw [h']
      omega
    · have := ih h'
      omega

/-- The pointer vector collected by `serializeChildren` addresses each child's
image inside the file. -/
theorem serializeChildren_access (cs : List (BPlusTreeNode V)) :
    ∀ (cur : Nat) (file : List (DiskBlock V)),
      blocksAt file cur (serializeChildren cs cur).1 →
      ∀ k, k < cs.length →
        ∃ p, (serializeChildren cs cur).2.1.get? k = some p ∧
          blocksAt file p (serializeToBlocks (cs.getD k default) p).1 := by
  induction cs with
  | nil => intro cur file _ k hk; simp at hk
  | cons c rest ih =>
    intro cur file hblocks k hk
    rw [serializeChildren] at hblocks ⊢
    simp only at hblocks ⊢
    rcases k with _ | k
    · refine ⟨cur, rfl, ?_⟩
      simpa using blocksAt_append_left hblocks
    · have hrest : blocksAt file (serializeToBlocks c cur).2
          (serializeChildren rest (serializeToBlocks c cur).2).1 := by
        have := blocksAt_append_right hblocks
        rwa [← serializeToBlocks_snd] at this
      obtain ⟨p, hp1, hp2⟩ := ih (serializeToBlocks c cur).2 file hrest k (by simpa using hk)
      exact ⟨p, by simpa using hp1, by simpa using hp2⟩

/-- Eager deserialization inverts serialization on structurally sound nodes. -/
theorem deserialize_roundtrip (V : Type) : ∀ s : Nat,
    (∀ (n : BPlusTreeNode V), sizeOf n ≤ s → SINV n →
      ∀ (off : Nat) (file : List (DiskBlock V)) (fuel : Nat),
      blocksAt file off (serializeToBlocks n off).1 → height n ≤ fuel →
      deserializeNode file fuel off = some n) ∧
    (∀ (cs : List (BPlusTreeNode V)), sizeOf cs ≤ s → (∀ c ∈ cs, SINV c) →
      ∀ (cur : Nat) (file : List (DiskBlock V)) (fuel : Nat),
      blocksAt file cur (serializeChildren cs cur).1 → heightList cs ≤ fuel →
      (serializeChildren cs cur).2.1.mapM (fun p => deserializeNode file fuel p) = some cs) := by
  intro s
  induction s with
  | zero =>
    constructor
    · intro n hn
      exfalso
      rcases n with ⟨ks, cs, b, vs⟩
      simp [BPlusTreeNode.mk.sizeOf_spec] at hn
    · intro cs hcs hall cur file fuel hblocks hfuel
      rcases cs with _ | ⟨c, rest⟩
      · rfl
      · exfalso
        simp at hcs
  | succ s ih =>
    constructor
    · intro n hn hsinv off file fuel hblocks hfuel
      cases hsinv with
      | leaf ks vs =>
        rw [serializeToBlocks] at hblocks
        have hh : height (BPlusTreeNode.mk ks ([] : List (BPlusTreeNode V)) true vs) = 1 := by
          rw [height, heightList]
        rw [hh] at hfuel
        rcases fuel with _ | fuel
        · omega
        · rw [deserializeNode]
          rw [if_neg (by simp [hblocks.1])]
          rw [blocksAt_head hblocks]
          simp
      | internal ks cs hne hlen hall =>
        rw [serializeToBlocks] at hblocks
        simp only at hblocks
        have hh : height (BPlusTreeNode.mk ks cs false ([] : List V)) =
            1 + heightList cs := by rw [height]
        rcases fuel with _ | fuel
        · rw [hh] at hfuel
          omega
        · rw [deserializeNode]
          rw [if_neg (by simp [hblocks.1])]
          rw [blocksAt_head hblocks]
          simp only
          have hcs : sizeOf cs ≤ s := by
            simp [BPlusTreeNode.mk.sizeOf_spec] at hn
            omega
          have htail := blocksAt_tail hblocks
          have hmap := ih.2 cs hcs hall (off + BLOCK_SIZE) file fuel htail
            (by rw [hh] at hfuel; omega)
          rw [hmap]
          simp
    · intro cs hcs hall cur file fuel hblocks hfuel
      rcases cs with _ | ⟨c, rest⟩
      · rfl
      · rw [serializeChildren] at hblocks ⊢
        simp only at hblocks ⊢
        have hc : sizeOf c ≤ s := by
          simp at hcs
          omega
        have hrest : sizeOf rest ≤ s := by
          simp at hcs
          omega
        have hcblocks : blocksAt file cur (serializeToBlocks c cur).1 :=
          blocksAt_append_left hblocks
        have hrestblocks : blocksAt file (serializeToBlocks c cur).2
            (serializeChildren rest (serializeToBlocks c cur).2).1 := by
          have := blocksAt_append_right hblocks
          rwa [← serializeToBlocks_snd] at this
        have hfc : height c ≤ fuel := by
          have := height_le_heightList (List.mem_cons_self c rest)
          omega
        have hfrest : heightList rest ≤ fuel := by
          rw [heightList] at hfuel
          omega
        have h1 := ih.1 c hc (hall c (List.mem_cons_self _ _)) cur file fuel hcblocks hfc
        have h2 := ih.2 rest hrest (fun c' hc' => hall c' (List.mem_cons_of_mem _ hc'))
          (serializeToBlocks c cur).2 file fuel hrestblocks hfrest
        rw [List.mapM_cons, h1, h2]
        rfl

theorem get?_eq_some_getD (l : List α) (k : Nat) (d : α) (h : k < l.length) :
    l.get? k = some (l.getD k d) := by
  rw [List.getD_eq_getElem _ _ h, List.get?_eq_getElem?, List.getElem?_eq_getElem h]

theorem getD_mem_any {l : List α} {i : Nat} (d : α) (h : i < l.length) : l.getD i d ∈ l := by
  rw [List.getD_eq_getElem _ _ h]
  exact List.getElem_mem h

theorem nodeQuery_leaf_eq (ks : List Nat) (cs : List (BPlusTreeNode V)) (vs : List V)
    (key : Nat) :
    nodeQuery (.mk ks cs true vs) key =
      match binary_search ks key with
      | some idx => vs.get? idx
      | none => none := by
  rw [nodeQuery]

theorem nodeQuery_internal_eq_some (ks : List Nat) (cs : List (BPlusTreeNode V))
    (vs : List V) (key : Nat) (c : BPlusTreeNode V)
    (h : cs.get? (get_entry_index_upper_bound ks key) = some c) :
    nodeQuery (.mk ks cs false vs) key = nodeQuery c key := by
  rw [nodeQuery]
  split
  · rename_i c' heq
    rw [h] at heq
    cases heq
    rfl
  · rename_i heq
    rw [h] at heq
    cases heq

theorem nodeQuery_internal_eq_none (ks : List Nat) (cs : List (BPlusTreeNode V))
    (vs : List V) (key : Nat)
    (h : cs.get? (get_entry_index_upper_bound ks key) = none) :
    nodeQuery (.mk ks cs false vs) key = none := by
  rw [nodeQuery]
  split
  · rename_i c' heq
    rw [h] at heq
    cases heq
  · rfl

/-- The streaming query reads back exactly the in-memory answer on every
serialized, structurally sound tree. -/
theorem stream_query_eq (V : Type) : ∀ s : Nat,
    ∀ (n : BPlusTreeNode V), sizeOf n ≤ s → SINV n →
    ∀ (off : Nat) (file : List (DiskBlock V)) (fuel : Nat) (key : Nat),
      blocksAt file off (serializeToBlocks n off).1 → height n ≤ fuel →
      streamQueryLoop file key off fuel = some (nodeQuery n key) := by
  intro s
  induction s with
  | zero =>
    intro n hn
    exfalso
    rcases n with ⟨ks, cs, b, vs⟩
    simp [BPlusTreeNode.mk.sizeOf_spec] at hn
  | succ s ih =>
    intro n hn hsinv off file fuel key hblocks hfuel
    cases hsinv with
    | leaf ks vs =>
      rw [serializeToBlocks] at hblocks
      have hh : height (BPlusTreeNode.mk ks ([] : List (BPlusTreeNode V)) true vs) = 1 := by
        rw [height, heightList]
      rw [hh] at hfuel
      rcases fuel with _ | fuel
      · omega
      · rw [streamQueryLoop]
        rw [if_neg (by simp [hblocks.1])]
        rw [blocksAt_head hblocks]
        simp only [nodeQuery]
        rcases binary_search ks key with _ | idx <;> simp
    | internal ks cs hne hlen hall =>
      rw [serializeToBlocks] at hblocks
      simp only at hblocks
      have hh : height (BPlusTreeNode.mk ks cs false ([] : List V)) =
          1 + heightList cs := by rw [height]
      rcases fuel with _ | fuel
      · rw [hh] at hfuel
        omega
      · rw [streamQueryLoop]
        rw [if_neg (by simp [hblocks.1])]
        rw [blocksAt_head hblocks]
        simp only
        have hidx : get_entry_index_upper_bound ks key < cs.length := by
          have := ub_le_length ks key
          omega
        have htail := blocksAt_tail hblocks
        obtain ⟨p, hp1, hp2⟩ := serializeChildren_access cs (off + BLOCK_SIZE) file htail
          (get_entry_index_upper_bound ks key) hidx
        simp only [hp1]
        have hmem : cs.getD (get_entry_index_upper_bound ks key) default ∈ cs :=
          getD_mem_any default hidx
        have hsize : sizeOf (cs.getD (get_entry_index_upper_bound ks key) default) ≤ s := by
          have h1 := List.sizeOf_lt_of_mem hmem
          simp [BPlusTreeNode.mk.sizeOf_spec] at hn
          omega
        have hhc : height (cs.getD (get_entry_index_upper_bound ks key) default) ≤ fuel := by
          have := height_le_heightList hmem
          rw [hh] at hfuel
          omega
        have hrec := ih _ hsize (hall _ hmem) p file fuel key hp2 hhc
        rw [hrec]
        rw [nodeQuery_internal_eq_some ks cs [] key _
          (get?_eq_some_getD cs (get_entry_index_upper_bound ks key) default hidx)]
        simp

inductive TreeIoError where
  | invalidData
  | openFailed
deriving DecidableEq

/-- `BPlusTreeQuery::is_multiple_of_block_size` on the file length in bytes. -/
def is_multiple_of_block_size (fileSize : Nat) : Bool :=
  fileSize % BLOCK_SIZE == 0

/-- `BPlusTreeQuery::new(filename)` on a file-system where `file = none`
means `File::open` fails and `file = some n` opens a file of byte length `n`;
the result carries the validated length. -/
def BPlusTreeQuery.new (file : Option Nat) : Except TreeIoError Nat :=
  match file with
  | none => .error .openFailed
  | some size =>
    if is_multiple_of_block_size size then .ok size
    else .error .invalidData


/-! ### Tree-level facts -/

/-- The tree obtained by inserting the pairs of `l` in order into
`BPlusTree::new` (Rust `size_of` parameters as in `treeOrders`). -/
def buildTree (V : Type) (keyMemSize valueMemSize : Nat) (l : List (Nat × V)) : BPlusTree V :=
  l.foldl (fun t kv => t.insert kv.1 kv.2) (BPlusTree.new V keyMemSize valueMemSize)

theorem insert_inner_order (t : BPlusTree V) (key : Nat) (v : V) :
    (t.insert key v).inner_order = t.inner_order := by
  unfold BPlusTree.insert
  split
  · rfl
  · split <;> rfl

theorem insert_leaf_order (t : BPlusTree V) (key : Nat) (v : V) :
    (t.insert key v).leaf_order = t.leaf_order := by
  unfold BPlusTree.insert
  split
  · rfl
  · split <;> rfl

theorem foldl_insert_orders (l : List (Nat × V)) :
    ∀ t : BPlusTree V,
      (l.foldl (fun t kv => t.insert kv.1 kv.2) t).inner_order = t.inner_order ∧
      (l.foldl (fun t kv => t.insert kv.1 kv.2) t).leaf_order = t.leaf_order := by
  induction l with
  | nil => intro t; exact ⟨rfl, rfl⟩
  | cons kv rest ih =>
    intro t
    simp only [List.foldl_cons]
    obtain ⟨h1, h2⟩ := ih (t.insert kv.1 kv.2)
    rw [h1, h2, insert_inner_order, insert_leaf_order]
    exact ⟨rfl, rfl⟩

theorem buildTree_orders (V : Type) (km vm : Nat) (l : List (Nat × V)) :
    (buildTree V km vm l).inner_order = (treeOrders km vm).1 ∧
    (buildTree V km vm l).leaf_order = (treeOrders km vm).2 :=
  foldl_insert_orders l (BPlusTree.new V km vm)

theorem treeWF_buildTree (V : Type) (km vm : Nat) (l : List (Nat × V)) :
    TreeWF (buildTree V km vm l) := by
  unfold buildTree
  have : ∀ t : BPlusTree V, TreeWF t →
      TreeWF (l.foldl (fun t kv => t.insert kv.1 kv.2) t) := by
    induction l with
    | nil => intro t ht; exact ht
    | cons kv rest ih =>
      intro t ht
      simp only [List.foldl_cons]
      exact ih _ (treeWF_insert ht kv.1 kv.2)
  exact this _ (treeWF_new V km vm)

theorem blocksAt_self (blks : List (DiskBlock V)) : blocksAt blks 0 blks := by
  refine ⟨by decide, fun i hi => ?_⟩
  have h0 : (0 : Nat) / BLOCK_SIZE = 0 := by decide
  rw [h0]
  simp

theorem serialize_fresh_file (t : BPlusTree V) :
    (t.serialize []).1 = (serializeToBlocks t.root 0).1 := by
  unfold BPlusTree.serialize
  simp

theorem serialize_fresh_count (t : BPlusTree V) :
    (t.serialize []).2 = BLOCK_SIZE * (t.serialize []).1.length := by
  unfold BPlusTree.serialize
  simp only [List.drop_nil, List.append_nil]
  have := serializeToBlocks_snd t.root 0
  omega

/-- The root's height is at most the number of blocks in the fresh image. -/
theorem height_le_file_length (t : BPlusTree V) (h : SINV t.root) :
    height t.root ≤ (t.serialize []).1.length := by
  rw [serialize_fresh_file]
  exact (serialize_height_le V (sizeOf t.root)).1 t.root (le_refl _) h 0

/-- `BPlusTreeQuery::query` on a freshly serialized structurally sound tree
returns `Ok` of exactly the in-memory query result. -/
theorem streamQuery_of_serialize (t : BPlusTree V) (h : SINV t.root) (key : Nat) :
    BPlusTreeQuery.query (t.serialize []).1 key = some (t.query key) := by
  unfold BPlusTreeQuery.query BPlusTree.query
  have hfile := serialize_fresh_file t
  apply stream_query_eq V (sizeOf t.root) t.root (le_refl _) h 0 _ _ key
  · rw [← hfile]
    exact hfile ▸ blocksAt_self _
  · have := height_le_file_length t h
    omega

/-- `BPlusTree::deserialize` of a freshly serialized sound tree rebuilds the
root exactly. -/
theorem deserialize_of_serialize (km vm : Nat) (t : BPlusTree V) (h : SINV t.root) :
    BPlusTree.deserialize V km vm (t.serialize []).1 =
      some (BPlusTree.new_with_root km vm t.root) := by
  unfold BPlusTree.deserialize
  have hroot : deserializeNode (t.serialize []).1 ((t.serialize []).1.length + 1) 0 =
      some t.root := by
    apply (deserialize_roundtrip V (sizeOf t.root)).1 t.root (le_refl _) h 0
    · rw [serialize_fresh_file]
      exact (serialize_fresh_file t) ▸ blocksAt_self _
    · have := height_le_file_length t h
      omega
  rw [hroot]
  rfl

/-! ### Claim C2 -/

/-- Byte length of the on-disk file: each `DiskBlock` occupies exactly
`BLOCK_SIZE` bytes (`serialize_to_blocks` always writes
`buffer_slice[..BLOCK_SIZE]` per node). -/
def fileLengthBytes (file : List (DiskBlock V)) : Nat := BLOCK_SIZE * file.length

/-- C2: for every tree `T` built by insertions into a fresh `BPlusTree` and
every fresh output file, `serialize` returns a byte count that is a multiple
of 4096 and equals the resulting file length, and `deserialize` of that file
yields a tree answering `query(k)` identically to `T` for every key `k`. -/
theorem c2_serialize_roundtrip (V : Type) (km vm : Nat) (l : List (Nat × V)) :
    ((buildTree V km vm l).serialize []).2 % 4096 = 0 ∧
    ((buildTree V km vm l).serialize []).2 =
      fileLengthBytes ((buildTree V km vm l).serialize []).1 ∧
    ∃ t2, BPlusTree.deserialize V km vm ((buildTree V km vm l).serialize []).1 = some t2 ∧
      ∀ k, t2.query k = (buildTree V km vm l).query k := by
  have hwf := treeWF_buildTree V km vm l
  have hcount := serialize_fresh_count (buildTree V km vm l)
  refine ⟨?_, ?_, ?_⟩
  · rw [hcount]
    unfold BLOCK_SIZE
    omega
  · rw [hcount]
    rfl
  · refine ⟨BPlusTree.new_with_root km vm (buildTree V km vm l).root,
      deserialize_of_serialize km vm _ hwf.1, ?_⟩
    intro k
    rfl

/-! ### Claim C9 -/

/-- C9 counterexample: a zero-length file is accepted by
`BPlusTreeQuery::new` (`0 % 4096 == 0`), contradicting the claim that any
length that is not a *positive* multiple of 4096 is rejected with
`InvalidData`. -/
theorem c9_counterexample :
    BPlusTreeQuery.new (some 0) = Except.ok 0 ∧
      Except.ok 0 ≠ (Except.error TreeIoError.invalidData : Except TreeIoError Nat) := by
  constructor
  · rfl
  · exact fun h => Except.noConfusion h

/-- C9 (amended): `BPlusTreeQuery::new` succeeds exactly when the file can be
opened and its length is a multiple of 4096 (zero included); a length that is
not a multiple of 4096 yields an `InvalidData` error, and a failed open
propagates the open error. -/
theorem c9_new_block_size_check (file : Option Nat) :
    ((∃ n, file = some n ∧ n % 4096 = 0) ↔ (∃ n, BPlusTreeQuery.new file = Except.ok n)) ∧
    (∀ n, file = some n → n % 4096 ≠ 0 →
      BPlusTreeQuery.new file = Except.error TreeIoError.invalidData) ∧
    (file = none → BPlusTreeQuery.new file = Except.error TreeIoError.openFailed) := by
  refine ⟨⟨?_, ?_⟩, ?_, ?_⟩
  · rintro ⟨n, rfl, hm⟩
    refine ⟨n, ?_⟩
    unfold BPlusTreeQuery.new is_multiple_of_block_size BLOCK_SIZE
    simp [hm]
  · rintro ⟨n, hok⟩
    rcases file with _ | sz
    · cases hok
    · unfold BPlusTreeQuery.new is_multiple_of_block_size BLOCK_SIZE at hok
      by_cases hm : sz % 4096 = 0
      · exact ⟨sz, rfl, hm⟩
      · simp [hm] at hok
  · intro n hf hm
    subst hf
    unfold BPlusTreeQuery.new is_multiple_of_block_size BLOCK_SIZE
    simp [hm]
  · intro hf
    subst hf
    rfl

/-- C9 witness: the amended characterization evaluated at an openable aligned
file, a misaligned file and a failed open. -/
theorem c9_new_block_size_check_witness :
    (∃ n, BPlusTreeQuery.new (some 8192) = Except.ok n) ∧
    BPlusTreeQuery.new (some 100) = Except.error TreeIoError.invalidData ∧
    BPlusTreeQuery.new none = Except.error TreeIoError.openFailed :=
  ⟨(c9_new_block_size_check (some 8192)).1.1 ⟨8192, rfl, by decide⟩,
   (c9_new_block_size_check (some 100)).2.1 100 rfl (by decide),
   (c9_new_block_size_check none).2.2 rfl⟩

/-! ### Claim C10 -/

/-- C10: `BPlusTree::serialize` opens with `create` but without `truncate`:
serializing onto an existing longer file leaves every block beyond the
written image unchanged, and the resulting file length strictly exceeds the
byte count `serialize` returns. -/
theorem c10_serialize_keeps_tail (V : Type) (km vm : Nat) (l : List (Nat × V))
    (existing : List (DiskBlock V))
    (hlong : (serializeToBlocks (buildTree V km vm l).root 0).1.length < existing.length) :
    ((buildTree V km vm l).serialize existing).2 <
      fileLengthBytes ((buildTree V km vm l).serialize existing).1 ∧
    ∀ i, (serializeToBlocks (buildTree V km vm l).root 0).1.length ≤ i →
      ((buildTree V km vm l).serialize existing).1.get? i = existing.get? i := by
  unfold BPlusTree.serialize fileLengthBytes
  simp only
  have hsnd := serializeToBlocks_snd (buildTree V km vm l).root 0
  set img := (serializeToBlocks (buildTree V km vm l).root 0).1 with himg
  constructor
  · rw [hsnd]
    simp only [List.length_append, List.length_drop]
    unfold BLOCK_SIZE at *
    have himg1 : 1 ≤ img.length :=
      ((serialize_offsets V (sizeOf (buildTree V km vm l).root)).1 _ (le_refl _) 0).2
    omega
  · intro i hi
    rw [List.get?_append_right (by omega)]
    rw [List.get?_drop]
    congr 1
    omega

/-- C10 witness: a fresh one-element tree (one block) written over a
three-block file: block 2 survives and the file stays 3 blocks long while
`serialize` returns 4096. -/
theorem c10_serialize_keeps_tail_witness :
    ((buildTree Nat 4 24 [(1, 10)]).serialize
        [⟨true, [7], [77], []⟩, ⟨true, [8], [88], []⟩, ⟨true, [9], [99], []⟩]).2 <
      fileLengthBytes ((buildTree Nat 4 24 [(1, 10)]).serialize
        [⟨true, [7], [77], []⟩, ⟨true, [8], [88], []⟩, ⟨true, [9], [99], []⟩]).1 ∧
    ((buildTree Nat 4 24 [(1, 10)]).serialize
        [⟨true, [7], [77], []⟩, ⟨true, [8], [88], []⟩, ⟨true, [9], [99], []⟩]).1.get? 2 =
      some ⟨true, [9], [99], []⟩ := by
  have h := c10_serialize_keeps_tail Nat 4 24 [(1, 10)]
    [⟨true, [7], [77], []⟩, ⟨true, [8], [88], []⟩, ⟨true, [9], [99], []⟩] (by decide)
  exact ⟨h.1, (h.2 2 (by decide)).trans rfl⟩


/-! ### The ordering invariant of built trees -/

/-- Optional lower bound (`none` = unbounded). -/
def loLe : Option Nat → Nat → Prop
  | none, _ => True
  | some l, x => l ≤ x

/-- Strict optional upper bound. -/
def ltHi : Nat → Option Nat → Prop
  | _, none => True
  | x, some h => x < h

/-- Weak optional upper bound (internal separator keys may equal the bound:
after an internal split the left node retains the promoted median key). -/
def leHi : Nat → Option Nat → Prop
  | _, none => True
  | x, some h => x ≤ h

/-- Lower bound of the `i`-th child slot of an internal node. -/
def childLo (lo : Option Nat) (ks : List Nat) : Nat → Option Nat
  | 0 => lo
  | i + 1 => some (ks.getD i 0)

mutual

/-- All keys stored in the leaves of a subtree, clones included. -/
def leafKeys : BPlusTreeNode V → List Nat
  | .mk ks cs leaf _ => if leaf then ks else leafKeysList cs

def leafKeysList : List (BPlusTreeNode V) → List Nat
  | [] => []
  | c :: rest => leafKeys c ++ leafKeysList rest

end

theorem leafKeysList_mem_iff {cs : List (BPlusTreeNode V)} {y : Nat} :
    y ∈ leafKeysList cs ↔ ∃ c ∈ cs, y ∈ leafKeys c := by
  induction cs with
  | nil =>
    rw [leafKeysList]
    simp
  | cons c rest ih =>
    rw [leafKeysList]
    simp only [List.mem_append, ih, List.mem_cons]
    constructor
    · rintro (h | ⟨c', hc', hy⟩)
      · exact ⟨c, Or.inl rfl, h⟩
      · exact ⟨c', Or.inr hc', hy⟩
    · rintro ⟨c', hc' | hc', hy⟩
      · exact Or.inl (hc' ▸ hy)
      · exact Or.inr ⟨c', hc', hy⟩

theorem leafKeys_internal (ks : List Nat) (cs : List (BPlusTreeNode V)) (vs : List V) :
    leafKeys (.mk ks cs false vs) = leafKeysList cs := by
  rw [leafKeys]
  simp

theorem leafKeys_leaf (ks : List Nat) (cs : List (BPlusTreeNode V)) (vs : List V) :
    leafKeys (.mk ks cs true vs) = ks := by
  rw [leafKeys]
  simp

/-- The ordering invariant of nodes produced by `insert` starting from a
fresh tree with pairwise distinct keys.  `lo`/`hi` delimit the *live*
interval: the keys that queries and inserts routed through the parents can
carry into this node.  Specifics of this implementation:

* internal-node keys are bounded only weakly above (`leHi`): after an
  internal split the left sibling keeps the promoted median as its last key,
  which then equals its own live upper bound;
* the last child of an internal node carries its own upper bound `hi'`.
  Normally (`ltHi lastKey hi`, a non-empty live interval) `hi' = hi`; after
  a split the left sibling's last child is the cloned first child of the
  right sibling (`split` pushes `node.children[0].clone()`), its live
  interval at this position is empty, and `hi'` is the bound the clone had
  at its original position — queries and inserts never reach it;
* every separator key equals `find_leaf_entry` of the child to its right
  (the source inserts exactly that key when propagating a split). -/
inductive INV {V : Type} : BPlusTreeNode V → Option Nat → Option Nat → Prop where
  | leaf : ∀ (ks : List Nat) (vs : List V) (lo hi : Option Nat),
      SortedKeys ks → ks ≠ [] → vs.length = ks.length →
      (∀ k ∈ ks, loLe lo k) → (∀ k ∈ ks, ltHi k hi) →
      INV (.mk ks [] true vs) lo hi
  | internal : ∀ (ks : List Nat) (cs : List (BPlusTreeNode V)) (lo hi hi' : Option Nat),
      SortedKeys ks → ks ≠ [] → cs.length = ks.length + 1 →
      (∀ k ∈ ks, loLe lo k) → (∀ k ∈ ks, leHi k hi) →
      (∀ i, i < ks.length →
        INV (cs.getD i default) (childLo lo ks i) (some (ks.getD i 0))) →
      INV (cs.getD ks.length default) (some (ks.getD (ks.length - 1) 0)) hi' →
      (ltHi (ks.getD (ks.length - 1) 0) hi → hi' = hi) →
      ltHi (ks.getD (ks.length - 1) 0) hi' →
      (∀ i, i < ks.length →
        find_leaf_entry (cs.getD (i + 1) default) = ks.getD i 0) →
      INV (.mk ks cs false []) lo hi

theorem inv_sinv {n : BPlusTreeNode V} {lo hi : Option Nat} (h : INV n lo hi) :
    SINV n := by
  induction h with
  | leaf ks vs lo hi _ _ _ _ _ => exact SINV.leaf ks vs
  | internal ks cs lo hi hi' hs hne hlen hblo bhi hlive hlast hlastlive hlastne hsep
      ihlive ihlast =>
    refine SINV.internal ks cs (by intro h; rw [h] at hlen; simp at hlen) hlen ?_
    intro c hc
    obtain ⟨i, hi2, hci⟩ := List.mem_iff_getElem.mp hc
    have hcd : c = cs.getD i default := by
      rw [List.getD_eq_getElem _ _ hi2]
      exact hci.symm
    rcases Nat.lt_or_ge i ks.length with h' | h'
    · exact hcd ▸ ihlive i h'
    · have : i = ks.length := by omega
      subst this
      exact hcd ▸ ihlast

theorem fle_internal_head (ks : List Nat) (c : BPlusTreeNode V)
    (rest : List (BPlusTreeNode V)) (vs : List V) :
    find_leaf_entry (.mk ks (c :: rest) false vs) = find_leaf_entry c := by
  rw [find_leaf_entry.eq_def]
  simp

theorem fle_internal_getD (ks : List Nat) (cs : List (BPlusTreeNode V)) (vs : List V)
    (hne : cs ≠ []) :
    find_leaf_entry (.mk ks cs false vs) = find_leaf_entry (cs.getD 0 default) := by
  rcases cs with _ | ⟨c, rest⟩
  · exact absurd rfl hne
  · rw [fle_internal_head]
    rfl

theorem fle_leaf (ks : List Nat) (cs : List (BPlusTreeNode V)) (vs : List V) :
    find_leaf_entry (.mk ks cs true vs) = ks.headD 0 := by
  rw [find_leaf_entry.eq_def]
  simp

theorem headD_eq_getD (l : List Nat) : l.headD 0 = l.getD 0 0 := by
  rcases l with _ | ⟨a, rest⟩ <;> rfl

theorem fle_lt {n : BPlusTreeNode V} {lo hi : Option Nat} (hinv : INV n lo hi) :
    ∀ h, hi = some h → find_leaf_entry n < h := by
  induction hinv with
  | leaf ks vs lo hi hs hne hlen hblo hbhi =>
    intro h hh
    subst hh
    rw [fle_leaf, headD_eq_getD]
    have hmem : ks.getD 0 0 ∈ ks := getD_mem (List.length_pos.mpr hne)
    exact hbhi _ hmem
  | internal ks cs lo hi hi' hs hne hlen hblo hbhi hlive hlast hlastlive hlastne hsep
      ihlive ihlast =>
    intro h hh
    have hkslen : 0 < ks.length := List.length_pos.mpr hne
    rw [fle_internal_getD _ _ _ (by intro hcs; rw [hcs] at hlen; simp at hlen)]
    have h0 := ihlive 0 (by omega) (ks.getD 0 0) rfl
    have hk0 : ks.getD 0 0 ∈ ks := getD_mem (by omega)
    have := hbhi _ hk0
    rw [hh] at this
    unfold leHi at this
    omega

theorem fle_ge {n : BPlusTreeNode V} {lo hi : Option Nat} (hinv : INV n lo hi) :
    ∀ l, lo = some l → l ≤ find_leaf_entry n := by
  induction hinv with
  | leaf ks vs lo hi hs hne hlen hblo hbhi =>
    intro l hl
    subst hl
    rw [fle_leaf, headD_eq_getD]
    have hmem : ks.getD 0 0 ∈ ks := getD_mem (List.length_pos.mpr hne)
    exact hblo _ hmem
  | internal ks cs lo hi hi' hs hne hlen hblo hbhi hlive hlast hlastlive hlastne hsep
      ihlive ihlast =>
    intro l hl
    have hkslen : 0 < ks.length := List.length_pos.mpr hne
    rw [fle_internal_getD _ _ _ (by intro hcs; rw [hcs] at hlen; simp at hlen)]
    have h0 := ihlive 0 (by omega) l (by rw [← hl]; rfl)
    exact h0

theorem fle_mem {n : BPlusTreeNode V} {lo hi : Option Nat} (hinv : INV n lo hi) :
    find_leaf_entry n ∈ leafKeys n := by
  induction hinv with
  | leaf ks vs lo hi hs hne hlen hblo hbhi =>
    rw [fle_leaf, leafKeys_leaf, headD_eq_getD]
    exact getD_mem (List.length_pos.mpr hne)
  | internal ks cs lo hi hi' hs hne hlen hblo hbhi hlive hlast hlastlive hlastne hsep
      ihlive ihlast =>
    have hkslen : 0 < ks.length := List.length_pos.mpr hne
    have hcsne : cs ≠ [] := by
      intro hcs
      rw [hcs] at hlen
      simp at hlen
    rw [fle_internal_getD _ _ _ hcsne, leafKeys_internal]
    refine leafKeysList_mem_iff.mpr ⟨cs.getD 0 default, ?_, ihlive 0 (by omega)⟩
    exact getD_mem_any default (by omega)

theorem getD_append_left_any (A B : List α) (i : Nat) (d : α) (h : i < A.length) :
    (A ++ B).getD i d = A.getD i d := by
  rw [List.getD_eq_getElem _ _ (by simp; omega), List.getD_eq_getElem _ _ h]
  exact List.getElem_append_left h

theorem getD_append_right_any (A B : List α) (i : Nat) (d : α) (h : A.length ≤ i) :
    (A ++ B).getD i d = B.getD (i - A.length) d := by
  rcases Nat.lt_or_ge i (A ++ B).length with h2 | h2
  · rw [List.getD_eq_getElem _ _ h2, List.getD_eq_getElem _ _ (by simp at h2; omega)]
    exact List.getElem_append_right h
  · rw [List.getD_eq_default _ _ (by omega), List.getD_eq_default _ _ (by simp at h2; omega)]

theorem leafKeysList_append (A B : List (BPlusTreeNode V)) :
    leafKeysList (A ++ B) = leafKeysList A ++ leafKeysList B := by
  induction A with
  | nil => rw [leafKeysList]; simp
  | cons c rest ih =>
    rw [List.cons_append, leafKeysList, leafKeysList, ih, List.append_assoc]

theorem leaf_query_found (ks : List Nat) (cs : List (BPlusTreeNode V)) (vs : List V)
    (y j : Nat) (hs : SortedKeys ks) (hj : j < ks.length) (hkey : ks.getD j 0 = y) :
    nodeQuery (.mk ks cs true vs) y = vs.get? j := by
  rw [nodeQuery_leaf_eq, binary_search_complete ks y hs j hj hkey]

theorem leaf_query_missing (ks : List Nat) (cs : List (BPlusTreeNode V)) (vs : List V)
    (y : Nat) (hy : y ∉ ks) :
    nodeQuery (.mk ks cs true vs) y = none := by
  rw [nodeQuery_leaf_eq, binary_search_none_of_not_mem ks y hy]

/-- Conclusion bundle for a node-level split: `L`/`R` are the mutated left
node and the returned sibling, `n` the pre-split node. -/
def SplitOut (n L R : BPlusTreeNode V) (lo hi : Option Nat) : Prop :=
  INV L lo (some (find_leaf_entry R)) ∧
  INV R (some (find_leaf_entry R)) hi ∧
  loLe lo (find_leaf_entry R) ∧
  ltHi (find_leaf_entry R) hi ∧
  (∀ l, lo = some l → find_leaf_entry n = l →
    find_leaf_entry L = l ∧ l < find_leaf_entry R) ∧
  (∀ y, y ∈ leafKeys L ∨ y ∈ leafKeys R → y ∈ leafKeys n) ∧
  (∀ y, loLe lo y → ltHi y hi →
    (y < find_leaf_entry R → nodeQuery L y = nodeQuery n y) ∧
    (find_leaf_entry R ≤ y → nodeQuery R y = nodeQuery n y))

/-- Conclusion bundle of `insert` when no split propagates: `n'` behaves like
`n` with `(x, v)` added, within the live window `(lo, hi)`. -/
def InsNoSplitOut (n n' : BPlusTreeNode V) (x : Nat) (v : V) (lo hi : Option Nat) : Prop :=
  INV n' lo hi ∧
  (∀ l, lo = some l → find_leaf_entry n = l → find_leaf_entry n' = l) ∧
  (∀ y, y ∈ leafKeys n' → y = x ∨ y ∈ leafKeys n) ∧
  nodeQuery n' x = some v ∧
  (∀ y, y ≠ x → loLe lo y → ltHi y hi → nodeQuery n' y = nodeQuery n y)

/-- Conclusion bundle of `insert` when a split is returned to the caller. -/
def InsSplitOut (n n' s : BPlusTreeNode V) (x : Nat) (v : V) (lo hi : Option Nat) : Prop :=
  INV n' lo (some (find_leaf_entry s)) ∧
  INV s (some (find_leaf_entry s)) hi ∧
  loLe lo (find_leaf_entry s) ∧
  ltHi (find_leaf_entry s) hi ∧
  (∀ l, lo = some l → find_leaf_entry n = l →
    find_leaf_entry n' = l ∧ l < find_leaf_entry s) ∧
  (∀ y, y ∈ leafKeys n' ∨ y ∈ leafKeys s → y = x ∨ y ∈ leafKeys n) ∧
  (∀ y, loLe lo y → ltHi y hi →
    (y < find_leaf_entry s →
      nodeQuery n' y = if y = x then some v else nodeQuery n y) ∧
    (find_leaf_entry s ≤ y →
      nodeQuery s y = if y = x then some v else nodeQuery n y))

/-- A pre-split update bundle composed with a split yields the split bundle. -/
theorem splitOut_compose {n m L R : BPlusTreeNode V} {x : Nat} {v : V}
    {lo hi : Option Nat}
    (hm : InsNoSplitOut n m x v lo hi) (hsp : SplitOut m L R lo hi) :
    InsSplitOut n L R x v lo hi := by
  obtain ⟨hminv, hmfle, hmkeys, hmx, hmy⟩ := hm
  obtain ⟨h1, h2, h3, h4, h5, h6, h7⟩ := hsp
  refine ⟨h1, h2, h3, h4, ?_, ?_, ?_⟩
  · intro l hlo hfle
    exact h5 l hlo (hmfle l hlo hfle)
  · intro y hy
    exact hmkeys y (h6 y hy)
  · intro y hylo hyhi
    obtain ⟨hL, hR⟩ := h7 y hylo hyhi
    constructor
    · intro hlt
      rw [hL hlt]
      by_cases hyx : y = x
      · subst hyx
        rw [if_pos rfl]
        exact hmx
      · rw [if_neg hyx]
        exact hmy y hyx hylo hyhi
    · intro hge
      rw [hR hge]
      by_cases hyx : y = x
      · subst hyx
        rw [if_pos rfl]
        exact hmx
      · rw [if_neg hyx]
        exact hmy y hyx hylo hyhi

theorem split_spec_leaf (ks : List Nat) (vs : List V) (lo hi : Option Nat) (order : Nat)
    (hinv : INV (.mk ks ([] : List (BPlusTreeNode V)) true vs) lo hi)
    (hover : order < ks.length) (horder : 2 ≤ order) :
    SplitOut (.mk ks [] true vs) (nodeSplit (.mk ks [] true vs) order).1
      (nodeSplit (.mk ks [] true vs) order).2 lo hi := by
  cases hinv with
  | leaf _ _ _ _ hs hne hlenv hblo hbhi =>
  have hblo' : ∀ i, i < ks.length → loLe lo (ks.getD i 0) := fun i h => hblo _ (getD_mem h)
  have hbhi' : ∀ i, i < ks.length → ltHi (ks.getD i 0) hi := fun i h => hbhi _ (getD_mem h)
  simp only [nodeSplit]
  set m := get_median_index order with hm
  have hm1 : 1 ≤ m := by
    rw [hm, get_median_index_eq]
    omega
  have hmlt : m < ks.length := by
    rw [hm, get_median_index_eq]
    omega
  have hsepeq : find_leaf_entry (BPlusTreeNode.mk (ks.drop m) ([] : List (BPlusTreeNode V))
      true (vs.drop m)) = ks.getD m 0 := by
    rw [fle_leaf, headD_eq_getD, getD_drop _ _ _ _ (by omega), Nat.add_zero]
  rw [SplitOut]
  simp only [hsepeq]
  have hlentake : (ks.take m).length = m := by simp; omega
  have hlendrop : (ks.drop m).length = ks.length - m := by simp
  have htakepos : ∀ k ∈ ks.take m, ∃ i, i < m ∧ ks.getD i 0 = k := by
    intro k hk
    obtain ⟨i, hi, he⟩ := mem_iff_getD.mp hk
    rw [hlentake] at hi
    exact ⟨i, hi, by rw [← getD_take ks m i 0 hi (by omega)]; exact he⟩
  have hdroppos : ∀ k ∈ ks.drop m, ∃ i, i < ks.length - m ∧ ks.getD (m + i) 0 = k := by
    intro k hk
    obtain ⟨i, hi, he⟩ := mem_iff_getD.mp hk
    rw [hlendrop] at hi
    exact ⟨i, hi, by rw [← getD_drop ks m i 0 (by omega)]; exact he⟩
  refine ⟨?_, ?_, hblo' m hmlt, hbhi' m hmlt, ?_, ?_, ?_⟩
  · refine INV.leaf _ _ _ _ (sortedKeys_take ks m hs) ?_ ?_ ?_ ?_
    · intro h
      have := congrArg List.length h
      rw [hlentake] at this
      simp at this
      omega
    · simp
      omega
    · intro k hk
      obtain ⟨i, hi, he⟩ := htakepos k hk
      exact he ▸ hblo' i (by omega)
    · intro k hk
      obtain ⟨i, hi, he⟩ := htakepos k hk
      rw [← he]
      simp only [ltHi]
      exact hs i m hi hmlt
  · refine INV.leaf _ _ _ _ (sortedKeys_drop ks m hs) ?_ ?_ ?_ ?_
    · intro h
      have := congrArg List.length h
      rw [hlendrop] at this
      simp at this
      omega
    · simp
      omega
    · intro k hk
      obtain ⟨i, hi, he⟩ := hdroppos k hk
      rw [← he]
      simp only [loLe]
      rcases Nat.eq_zero_or_pos i with h0 | h0
      · subst h0
        simp
      · exact le_of_lt (hs m (m + i) (by omega) (by omega))
    · intro k hk
      obtain ⟨i, hi, he⟩ := hdroppos k hk
      exact he ▸ hbhi' (m + i) (by omega)
  · intro l hlo hfle
    rw [fle_leaf, headD_eq_getD] at hfle
    constructor
    · rw [fle_leaf, headD_eq_getD, getD_take ks m 0 0 (by omega) (by omega)]
      exact hfle
    · rw [← hfle]
      exact hs 0 m (by omega) hmlt
  · intro y hy
    rw [leafKeys_leaf]
    rcases hy with hy | hy
    · rw [leafKeys_leaf] at hy
      exact List.mem_of_mem_take hy
    · rw [leafKeys_leaf] at hy
      exact List.mem_of_mem_drop hy
  · intro y hylo hyhi
    constructor
    · intro hlt
      by_cases hmem : y ∈ ks
      · obtain ⟨j, hj, hkey⟩ := mem_iff_getD.mp hmem
        have hjm : j < m := by
          by_contra hge
          have hge2 : m ≤ j := by omega
          rcases Nat.eq_or_lt_of_le hge2 with h' | h'
          · rw [← h'] at hkey
            omega
          · have := hs m j h' hj
            omega
        rw [leaf_query_found _ _ _ y j hs hj hkey,
          leaf_query_found _ _ _ y j (sortedKeys_take ks m hs) (by omega)
            (by rw [getD_take ks m j 0 hjm (by omega)]; exact hkey)]
        exact List.get?_take hjm
      · rw [leaf_query_missing _ _ _ y hmem,
          leaf_query_missing _ _ _ y (fun hc => hmem (List.mem_of_mem_take hc))]
    · intro hge
      by_cases hmem : y ∈ ks
      · obtain ⟨j, hj, hkey⟩ := mem_iff_getD.mp hmem
        have hjm : m ≤ j := by
          by_contra hlt2
          have h' : j < m := by omega
          have := hs j m h' hmlt
          omega
        rw [leaf_query_found _ _ _ y j hs hj hkey,
          leaf_query_found _ _ _ y (j - m) (sortedKeys_drop ks m hs)
            (by rw [hlendrop]; omega)
            (by rw [getD_drop ks m (j - m) 0 (by omega)]
                rw [show m + (j - m) = j by omega]
                exact hkey)]
        rw [List.get?_drop]
        congr 1
        omega
      · rw [leaf_query_missing _ _ _ y hmem,
          leaf_query_missing _ _ _ y (fun hc => hmem (List.mem_of_mem_drop hc))]

theorem get?_listInsertAt_lt (l : List α) (i : Nat) (a : α) (j : Nat)
    (hj : j < i) (hi : i ≤ l.length) :
    (listInsertAt l i a).get? j = l.get? j := by
  unfold listInsertAt
  rw [List.get?_append (by rw [List.length_take]; omega)]
  exact List.get?_take hj

theorem get?_listInsertAt_self (l : List α) (i : Nat) (a : α) (hi : i ≤ l.length) :
    (listInsertAt l i a).get? i = some a := by
  unfold listInsertAt
  rw [List.get?_append_right (by rw [List.length_take]; omega)]
  have hz : i - (l.take i).length = 0 := by rw [List.length_take]; omega
  rw [hz]
  rfl

theorem get?_listInsertAt_gt (l : List α) (i : Nat) (a : α) (j : Nat)
    (hj : i < j) (hi : i ≤ l.length) :
    (listInsertAt l i a).get? j = l.get? (j - 1) := by
  unfold listInsertAt
  rw [List.get?_append_right (by rw [List.length_take]; omega)]
  have hlen : (l.take i).length = i := by rw [List.length_take]; omega
  have hstep : j - (l.take i).length = (j - i - 1) + 1 := by omega
  rw [hstep, List.get?_cons_succ, List.get?_drop]
  congr 1
  omega

/-- Keys of the inserted leaf, positionally. -/
theorem mem_listInsertAt_elim (ks : List Nat) (p a : Nat) (hp : p ≤ ks.length) :
    ∀ k ∈ listInsertAt ks p a, k = a ∨ k ∈ ks := by
  intro k hk
  unfold listInsertAt at hk
  rcases List.mem_append.mp hk with h | h
  · exact Or.inr (List.mem_of_mem_take h)
  · rcases List.mem_cons.mp h with h' | h'
    · exact Or.inl h'
    · exact Or.inr (List.mem_of_mem_drop h')

/-- Inserting a fresh key into a live leaf: the full no-split bundle. -/
theorem leaf_update (ks : List Nat) (vs : List V) (lo hi : Option Nat) (x : Nat) (v : V)
    (hinv : INV (.mk ks ([] : List (BPlusTreeNode V)) true vs) lo hi)
    (hxlo : loLe lo x) (hxhi : ltHi x hi) (hfresh : x ∉ ks) :
    InsNoSplitOut (.mk ks [] true vs)
      (.mk (listInsertAt ks (get_entry_index_upper_bound ks x) x) []
        true (listInsertAt vs (get_entry_index_upper_bound ks x) v)) x v lo hi := by
  cases hinv with
  | leaf _ _ _ _ hs hne hlenv hblo hbhi =>
  have hblo' : ∀ i, i < ks.length → loLe lo (ks.getD i 0) := fun i h => hblo _ (getD_mem h)
  have hbhi' : ∀ i, i < ks.length → ltHi (ks.getD i 0) hi := fun i h => hbhi _ (getD_mem h)
  set pos := get_entry_index_upper_bound ks x with hposdef
  have hposle : pos ≤ ks.length := ub_le_length ks x
  obtain ⟨hubl, hubr⟩ := ub_spec ks x hs
  have hlowstrict : ∀ i, i < pos → ks.getD i 0 < x := by
    intro i hi
    have h1 := hubl i hi
    have h2 : ks.getD i 0 ≠ x := fun he => hfresh (he ▸ getD_mem (by omega))
    omega
  have hsorted2 : SortedKeys (listInsertAt ks pos x) :=
    sortedKeys_listInsertAt ks pos x hs hposle hlowstrict hubr
  have hlen2 : (listInsertAt ks pos x).length = ks.length + 1 := length_listInsertAt _ _ _
  have hvlen2 : (listInsertAt vs pos v).length = vs.length + 1 := length_listInsertAt _ _ _
  have hgetD2 : ∀ i, i < ks.length + 1 →
      (listInsertAt ks pos x).getD i 0 =
        if i < pos then ks.getD i 0 else if i = pos then x else ks.getD (i - 1) 0 := by
    intro i hi
    rcases Nat.lt_trichotomy i pos with h | h | h
    · rw [if_pos h, getD_listInsertAt_lt ks pos x i 0 h hposle]
    · rw [if_neg (by omega), if_pos h, h, getD_listInsertAt_self ks pos x 0 hposle]
    · rw [if_neg (by omega), if_neg (by omega),
        getD_listInsertAt_gt ks pos x i 0 h hposle (by omega)]
  refine ⟨?_, ?_, ?_, ?_, ?_⟩
  · refine INV.leaf _ _ _ _ hsorted2 ?_ ?_ ?_ ?_
    · intro h
      have := congrArg List.length h
      rw [hlen2] at this
      simp at this
    · rw [hlen2, hvlen2, hlenv]
    · intro k hk
      rcases mem_listInsertAt_elim ks pos x hposle k hk with h | h
      · exact h ▸ hxlo
      · exact hblo _ h
    · intro k hk
      rcases mem_listInsertAt_elim ks pos x hposle k hk with h | h
      · exact h ▸ hxhi
      · exact hbhi _ h
  · intro l hlo hfle
    rw [fle_leaf, headD_eq_getD] at hfle
    have hkslen : 0 < ks.length := List.length_pos.mpr hne
    have hlx : l < x := by
      rw [hlo] at hxlo
      have h2 : l ≤ x := hxlo
      have h3 : l ≠ x := fun he => hfresh (he ▸ hfle ▸ getD_mem hkslen)
      omega
    have hpos1 : 1 ≤ pos := by
      by_contra h0
      have : pos = 0 := by omega
      have := hubr 0 (by omega) hkslen
      rw [hfle] at this
      omega
    rw [fle_leaf, headD_eq_getD, getD_listInsertAt_lt ks pos x 0 0 (by omega) hposle]
    exact hfle
  · intro y hy
    rw [leafKeys_leaf] at hy ⊢
    exact mem_listInsertAt_elim ks pos x hposle y hy
  · rw [leaf_query_found _ _ _ x pos hsorted2 (by omega)
      (getD_listInsertAt_self ks pos x 0 hposle)]
    rw [get?_listInsertAt_self vs pos v (by omega)]
  · intro y hyx hylo hyhi
    by_cases hmem : y ∈ ks
    · obtain ⟨j, hj, hkey⟩ := mem_iff_getD.mp hmem
      rcases Nat.lt_or_ge j pos with hjpos | hjpos
      · rw [leaf_query_found _ _ _ y j hs hj hkey,
          leaf_query_found _ _ _ y j hsorted2 (by omega)
            (by rw [getD_listInsertAt_lt ks pos x j 0 hjpos hposle]; exact hkey),
          get?_listInsertAt_lt vs pos v j hjpos (by omega)]
      · rw [leaf_query_found _ _ _ y j hs hj hkey,
          leaf_query_found _ _ _ y (j + 1) hsorted2 (by omega)
            (by rw [getD_listInsertAt_gt ks pos x (j + 1) 0 (by omega) hposle (by omega)]
                simp only [Nat.add_sub_cancel]
                exact hkey),
          get?_listInsertAt_gt vs pos v (j + 1) (by omega) (by omega)]
        simp
    · have hmem2 : y ∉ listInsertAt ks pos x := by
        intro hc
        rcases mem_listInsertAt_elim ks pos x hposle y hc with h | h
        · exact hyx h
        · exact hmem h
      rw [leaf_query_missing _ _ _ y hmem, leaf_query_missing _ _ _ y hmem2]

theorem headD_eq_getD_any (l : List α) (d : α) : l.headD d = l.getD 0 d := by
  cases l <;> rfl

theorem split_spec_internal (ks : List Nat) (cs : List (BPlusTreeNode V))
    (lo hi : Option Nat) (order : Nat)
    (hinv : INV (.mk ks cs false ([] : List V)) lo hi)
    (hover : order < ks.length) (horder : 1 ≤ order) :
    SplitOut (.mk ks cs false []) (nodeSplit (.mk ks cs false []) order).1
      (nodeSplit (.mk ks cs false []) order).2 lo hi := by
  cases hinv with
  | internal _ _ _ _ hi' hs hne hcslen hblo hbhi hlive hlast hlastlive hlastne hsep =>
  have hblo' : ∀ i, i < ks.length → loLe lo (ks.getD i 0) := fun i h => hblo _ (getD_mem h)
  have hbhi' : ∀ i, i < ks.length → leHi (ks.getD i 0) hi := fun i h => hbhi _ (getD_mem h)
  simp only [nodeSplit]
  set m := get_median_index order with hmdef
  have hm2 : m + 2 ≤ ks.length := by
    rw [hmdef, get_median_index_eq]
    omega
  have hm1cs : m + 1 < cs.length := by omega
  have hcsne : cs ≠ [] := by
    intro h
    rw [h] at hcslen
    simp at hcslen
  have hclone : (cs.drop (m + 1)).headD default = cs.getD (m + 1) default := by
    rw [headD_eq_getD_any, getD_drop cs (m + 1) 0 default (by omega), Nat.add_zero]
  have hRcsne : cs.drop (m + 1) ≠ [] := by
    intro h
    have := congrArg List.length h
    simp at this
    omega
  have hlentake : (ks.take (m + 1)).length = m + 1 := by
    rw [List.length_take]
    omega
  have hlendrop : (ks.drop (m + 1)).length = ks.length - (m + 1) := by
    rw [List.length_drop]
  have hlentakecs : (cs.take (m + 1)).length = m + 1 := by
    rw [List.length_take]
    omega
  have hgettake : ∀ i, i < m + 1 → (ks.take (m + 1)).getD i 0 = ks.getD i 0 := by
    intro i hi
    exact getD_take ks (m + 1) i 0 hi (by omega)
  have hgetdrop : ∀ i, m + 1 + i < ks.length → (ks.drop (m + 1)).getD i 0 = ks.getD (m + 1 + i) 0 := by
    intro i hi
    exact getD_drop ks (m + 1) i 0 hi
  have hgetdropcs : ∀ i, m + 1 + i < cs.length →
      (cs.drop (m + 1)).getD i default = cs.getD (m + 1 + i) default := by
    intro i hi
    exact getD_drop cs (m + 1) i default hi
  have hLcs : ∀ i, i < m + 1 →
      (cs.take (m + 1) ++ [(cs.drop (m + 1)).headD default]).getD i default =
        cs.getD i default := by
    intro i hi
    rw [getD_append_left_any _ _ _ _ (by omega), getD_take cs (m + 1) i default hi (by omega)]
  have hLcsLast :
      (cs.take (m + 1) ++ [(cs.drop (m + 1)).headD default]).getD (m + 1) default =
        cs.getD (m + 1) default := by
    rw [getD_append_right_any _ _ _ _ (by omega)]
    rw [hlentakecs]
    simp [hclone]
  have hsepeq : find_leaf_entry (BPlusTreeNode.mk (ks.drop (m + 1)) (cs.drop (m + 1))
      false ([] : List V)) = ks.getD m 0 := by
    rw [fle_internal_getD _ _ _ hRcsne, getD_drop cs (m + 1) 0 default (by omega),
      Nat.add_zero]
    exact hsep m (by omega)
  rw [SplitOut]
  simp only [hsepeq]
  refine ⟨?_, ?_, hblo' m (by omega), ?_, ?_, ?_, ?_⟩
  · -- INV of the left node
    refine INV.internal _ _ _ _ (some (ks.getD (m + 1) 0)) (sortedKeys_take ks (m + 1) hs)
      ?_ ?_ ?_ ?_ ?_ ?_ ?_ ?_ ?_
    · intro h
      have := congrArg List.length h
      rw [hlentake] at this
      simp at this
    · rw [List.length_append, hlentakecs, hlentake]
      simp
    · intro k hk
      obtain ⟨i, hi, he⟩ := mem_iff_getD.mp hk
      rw [hlentake] at hi
      rw [← he, hgettake i hi]
      exact hblo' i (by omega)
    · intro k hk
      obtain ⟨i, hi, he⟩ := mem_iff_getD.mp hk
      rw [hlentake] at hi
      rw [← he, hgettake i hi]
      simp only [leHi]
      rcases Nat.eq_or_lt_of_le (by omega : i ≤ m) with h' | h'
      · rw [h']
      · exact le_of_lt (hs i m h' (by omega))
    · intro i hi
      rw [hlentake] at hi
      rw [hLcs i hi, hgettake i hi]
      have horig := hlive i (by omega)
      have hcl : childLo lo (ks.take (m + 1)) i = childLo lo ks i := by
        rcases i with _ | i0
        · rfl
        · show some ((ks.take (m + 1)).getD i0 0) = some (ks.getD i0 0)
          rw [hgettake i0 (by omega)]
      rw [hcl]
      exact horig
    · rw [hlentake, hLcsLast]
      simp only [Nat.add_sub_cancel]
      rw [hgettake m (by omega)]
      have horig := hlive (m + 1) (by omega)
      have hcl2 : childLo lo ks (m + 1) = some (ks.getD m 0) := rfl
      rw [hcl2] at horig
      exact horig
    · rw [hlentake]
      simp only [Nat.add_sub_cancel]
      intro hcontra
      rw [hgettake m (by omega)] at hcontra
      simp only [ltHi] at hcontra
      omega
    · rw [hlentake]
      simp only [Nat.add_sub_cancel, ltHi]
      rw [hgettake m (by omega)]
      exact hs m (m + 1) (by omega) (by omega)
    · intro i hi
      rw [hlentake] at hi
      rw [hgettake i hi]
      rcases Nat.lt_or_ge (i + 1) (m + 1) with h' | h'
      · rw [hLcs (i + 1) h']
        exact hsep i (by omega)
      · have : i + 1 = m + 1 := by omega
        rw [this, hLcsLast]
        have : i = m := by omega
        rw [this]
        exact hsep m (by omega)
  · -- INV of the right node
    refine INV.internal _ _ _ _ hi' (sortedKeys_drop ks (m + 1) hs) ?_ ?_ ?_ ?_ ?_ ?_ ?_ ?_ ?_
    · intro h
      have := congrArg List.length h
      rw [hlendrop] at this
      simp at this
      omega
    · rw [List.length_drop, List.length_drop]
      omega
    · intro k hk
      obtain ⟨i, hi, he⟩ := mem_iff_getD.mp hk
      rw [hlendrop] at hi
      rw [← he, hgetdrop i (by omega)]
      simp only [loLe]
      exact le_of_lt (hs m (m + 1 + i) (by omega) (by omega))
    · intro k hk
      obtain ⟨i, hi, he⟩ := mem_iff_getD.mp hk
      rw [hlendrop] at hi
      rw [← he, hgetdrop i (by omega)]
      exact hbhi' (m + 1 + i) (by omega)
    · intro i hi
      rw [hlendrop] at hi
      rw [hgetdropcs i (by omega), hgetdrop i (by omega)]
      have horig := hlive (m + 1 + i) (by omega)
      have hcl : childLo (some (ks.getD m 0)) (ks.drop (m + 1)) i = childLo lo ks (m + 1 + i) := by
        rcases i with _ | i0
        · rfl
        · show some ((ks.drop (m + 1)).getD i0 0) = some (ks.getD (m + 1 + i0) 0)
          rw [hgetdrop i0 (by omega)]
      rw [hcl]
      exact horig
    · rw [hlendrop]
      rw [hgetdropcs (ks.length - (m + 1)) (by omega)]
      rw [hgetdrop (ks.length - (m + 1) - 1) (by omega)]
      rw [show m + 1 + (ks.length - (m + 1)) = ks.length by omega]
      rw [show m + 1 + (ks.length - (m + 1) - 1) = ks.length - 1 by omega]
      exact hlast
    · rw [hlendrop]
      rw [hgetdrop (ks.length - (m + 1) - 1) (by omega)]
      rw [show m + 1 + (ks.length - (m + 1) - 1) = ks.length - 1 by omega]
      exact hlastlive
    · rw [hlendrop]
      rw [hgetdrop (ks.length - (m + 1) - 1) (by omega)]
      rw [show m + 1 + (ks.length - (m + 1) - 1) = ks.length - 1 by omega]
      exact hlastne
    · intro i hi
      rw [hlendrop] at hi
      rw [hgetdropcs (i + 1) (by omega), hgetdrop i (by omega)]
      rw [show m + 1 + (i + 1) = (m + 1 + i) + 1 by omega]
      exact hsep (m + 1 + i) (by omega)
  · -- the separator is strictly below the live upper bound
    rcases hi with _ | h
    · simp [ltHi]
    · simp only [ltHi]
      have h1 := hbhi' (ks.length - 1) (by omega)
      simp only [leHi] at h1
      have h2 := hs m (ks.length - 1) (by omega) (by omega)
      omega
  · -- find_leaf_entry is preserved on the left and grows strictly
    intro l hlo hfle
    rw [fle_internal_getD _ _ _ hcsne] at hfle
    constructor
    · rw [fle_internal_getD _ _ _ (by
        intro h
        have hl := congrArg List.length h
        rw [List.length_append, hlentakecs] at hl
        simp at hl)]
      rw [show ((cs.take (m + 1) ++ [(cs.drop (m + 1)).headD default]) : List (BPlusTreeNode V)).getD 0 default = cs.getD 0 default from hLcs 0 (by omega)]
      exact hfle
    · have hlt := fle_lt (hlive 0 (by omega)) (ks.getD 0 0) rfl
      rw [hfle] at hlt
      rcases Nat.eq_or_lt_of_le (by omega : 0 ≤ m) with h' | h'
      · rw [← h']
        omega
      · have := hs 0 m h' (by omega)
        omega
  · -- leaf keys are preserved
    intro y hy
    rw [leafKeys_internal]
    rcases hy with hy | hy
    · rw [leafKeys_internal] at hy
      obtain ⟨c, hc, hyc⟩ := leafKeysList_mem_iff.mp hy
      rcases List.mem_append.mp hc with h | h
      · exact leafKeysList_mem_iff.mpr ⟨c, List.mem_of_mem_take h, hyc⟩
      · have hcc : c = cs.getD (m + 1) default := by
          rw [← hclone]
          simpa using h
        refine leafKeysList_mem_iff.mpr ⟨c, ?_, hyc⟩
        rw [hcc]
        exact getD_mem_any default (by omega)
    · rw [leafKeys_internal] at hy
      obtain ⟨c, hc, hyc⟩ := leafKeysList_mem_iff.mp hy
      exact leafKeysList_mem_iff.mpr ⟨c, List.mem_of_mem_drop hc, hyc⟩
  · -- query routing
    intro y hylo hyhi
    obtain ⟨hubl, hubr⟩ := ub_spec ks y hs
    have huble := ub_le_length ks y
    constructor
    · intro hlt
      have hq : get_entry_index_upper_bound ks y ≤ m := by
        by_contra hgt
        have := hubl m (by omega)
        omega
      have hnq : nodeQuery (BPlusTreeNode.mk ks cs false ([] : List V)) y =
          nodeQuery (cs.getD (get_entry_index_upper_bound ks y) default) y :=
        nodeQuery_internal_eq_some ks cs [] y _
          (get?_eq_some_getD cs _ default (by omega))
      have hubL : get_entry_index_upper_bound (ks.take (m + 1)) y =
          get_entry_index_upper_bound ks y := by
        apply ub_eq_of_bracket _ _ (sortedKeys_take ks (m + 1) hs) _ (by omega)
        · intro i hi
          rw [hgettake i (by omega)]
          exact hubl i hi
        · intro i hi1 hi2
          rw [hlentake] at hi2
          rw [hgettake i hi2]
          exact hubr i hi1 (by omega)
      have hnqL : nodeQuery (BPlusTreeNode.mk (ks.take (m + 1))
          (cs.take (m + 1) ++ [(cs.drop (m + 1)).headD default]) false ([] : List V)) y =
          nodeQuery (cs.getD (get_entry_index_upper_bound ks y) default) y := by
        rw [nodeQuery_internal_eq_some _ _ _ y (cs.getD (get_entry_index_upper_bound ks y) default) ?_]
        rw [hubL]
        rw [get?_eq_some_getD _ _ default (by
          rw [List.length_append, hlentakecs]
          simp
          omega)]
        rw [hLcs _ (by omega)]
      rw [hnq, hnqL]
    · intro hge
      have hq : m + 1 ≤ get_entry_index_upper_bound ks y := by
        by_contra hgt
        have := hubr m (by omega) (by omega)
        omega
      have hnq : nodeQuery (BPlusTreeNode.mk ks cs false ([] : List V)) y =
          nodeQuery (cs.getD (get_entry_index_upper_bound ks y) default) y :=
        nodeQuery_internal_eq_some ks cs [] y _
          (get?_eq_some_getD cs _ default (by omega))
      have hubR : get_entry_index_upper_bound (ks.drop (m + 1)) y =
          get_entry_index_upper_bound ks y - (m + 1) := by
        apply ub_eq_of_bracket _ _ (sortedKeys_drop ks (m + 1) hs) _ (by
          rw [hlendrop]
          omega)
        · intro i hi
          rw [hgetdrop i (by omega)]
          exact hubl (m + 1 + i) (by omega)
        · intro i hi1 hi2
          rw [hlendrop] at hi2
          rw [hgetdrop i (by omega)]
          exact hubr (m + 1 + i) (by omega) (by omega)
      have hnqR : nodeQuery (BPlusTreeNode.mk (ks.drop (m + 1)) (cs.drop (m + 1))
          false ([] : List V)) y =
          nodeQuery (cs.getD (get_entry_index_upper_bound ks y) default) y := by
        rw [nodeQuery_internal_eq_some _ _ _ y (cs.getD (get_entry_index_upper_bound ks y) default) ?_]
        rw [hubR]
        rw [get?_eq_some_getD _ _ default (by
          rw [List.length_drop]
          omega)]
        rw [hgetdropcs _ (by omega)]
        rw [show m + 1 + (get_entry_index_upper_bound ks y - (m + 1)) =
          get_entry_index_upper_bound ks y by omega]
      rw [hnq, hnqR]

theorem internalAfter_none_eq (ks : List Nat) (cs1 : List (BPlusTreeNode V)) (vs : List V)
    (io : Nat) :
    internalAfter ks cs1 vs none io = (.mk ks cs1 false vs, none) := rfl

theorem internalAfter_some_eq (ks : List Nat) (cs1 : List (BPlusTreeNode V)) (vs : List V)
    (sib : BPlusTreeNode V) (io : Nat) :
    internalAfter ks cs1 vs (some sib) io =
      (if io < (listInsertAt ks (get_entry_index_upper_bound ks (find_leaf_entry sib))
          (find_leaf_entry sib)).length then
        ((nodeSplit (.mk (listInsertAt ks (get_entry_index_upper_bound ks
            (find_leaf_entry sib)) (find_leaf_entry sib))
          (listInsertAt cs1 (get_entry_index_upper_bound ks (find_leaf_entry sib) + 1) sib)
          false vs) io).1,
         some ((nodeSplit (.mk (listInsertAt ks (get_entry_index_upper_bound ks
            (find_leaf_entry sib)) (find_leaf_entry sib))
          (listInsertAt cs1 (get_entry_index_upper_bound ks (find_leaf_entry sib) + 1) sib)
          false vs) io).2))
      else
        (.mk (listInsertAt ks (get_entry_index_upper_bound ks (find_leaf_entry sib))
            (find_leaf_entry sib))
          (listInsertAt cs1 (get_entry_index_upper_bound ks (find_leaf_entry sib) + 1) sib)
          false vs, none)) := rfl

theorem leafInsert_eq_dup (ks : List Nat) (cs : List (BPlusTreeNode V)) (vs : List V)
    (key : Nat) (v : V) (lo eqIdx : Nat)
    (heq : get_equal_entry_index ks key = some eqIdx) :
    leafInsert ks cs vs key v lo = (.mk ks cs true (listInsertAt vs eqIdx v), none) := by
  rw [leafInsert]
  split
  · rename_i i heq2
    rw [heq] at heq2
    cases heq2
    rfl
  · rename_i heq2
    rw [heq] at heq2
    cases heq2

theorem leafInsert_eq_fresh (ks : List Nat) (cs : List (BPlusTreeNode V)) (vs : List V)
    (key : Nat) (v : V) (lo : Nat)
    (heq : get_equal_entry_index ks key = none) :
    leafInsert ks cs vs key v lo =
      (if lo < (listInsertAt ks (get_entry_index_upper_bound ks key) key).length then
        ((nodeSplit (.mk (listInsertAt ks (get_entry_index_upper_bound ks key) key) cs true
            (listInsertAt vs (get_entry_index_upper_bound ks key) v)) lo).1,
         some ((nodeSplit (.mk (listInsertAt ks (get_entry_index_upper_bound ks key) key) cs
            true (listInsertAt vs (get_entry_index_upper_bound ks key) v)) lo).2))
      else
        (.mk (listInsertAt ks (get_entry_index_upper_bound ks key) key) cs true
          (listInsertAt vs (get_entry_index_upper_bound ks key) v), none)) := by
  rw [leafInsert]
  split
  · rename_i i heq2
    rw [heq] at heq2
    cases heq2
  · rfl

theorem mem_listInsertAt_elim_any (l : List α) (p : Nat) (a : α) :
    ∀ b ∈ listInsertAt l p a, b = a ∨ b ∈ l := by
  intro b hb
  unfold listInsertAt at hb
  rcases List.mem_append.mp hb with h | h
  · exact Or.inr (List.mem_of_mem_take h)
  · rcases List.mem_cons.mp h with h' | h'
    · exact Or.inl h'
    · exact Or.inr (List.mem_of_mem_drop h')

theorem leafKeys_child_sub (ks : List Nat) (cs : List (BPlusTreeNode V)) (vs : List V)
    (i : Nat) (hi : i < cs.length) (y : Nat)
    (hy : y ∈ leafKeys (cs.getD i default)) :
    y ∈ leafKeys (.mk ks cs false vs) := by
  rw [leafKeys_internal]
  exact leafKeysList_mem_iff.mpr ⟨cs.getD i default, getD_mem_any default hi, hy⟩

theorem childLo_pos (lo : Option Nat) (ks : List Nat) (p : Nat) (hp : 0 < p) :
    childLo lo ks p = some (ks.getD (p - 1) 0) := by
  cases p with
  | zero => omega
  | succ p0 => rfl

/-- Writing back an updated child that did not split preserves the whole
insert bundle at the internal node (source lines 111-123, `node` = `None`). -/
theorem internal_child_nosplit (ks : List Nat) (cs : List (BPlusTreeNode V))
    (lo hi : Option Nat) (x : Nat) (v : V) (child' : BPlusTreeNode V) (hic : Option Nat)
    (hinv : INV (.mk ks cs false ([] : List V)) lo hi)
    (hxlo : loLe lo x) (hxhi : ltHi x hi)
    (hhiclt : get_entry_index_upper_bound ks x < ks.length →
      hic = some (ks.getD (get_entry_index_upper_bound ks x) 0))
    (hhiceq : get_entry_index_upper_bound ks x = ks.length → hic = hi)
    (hnd : InsNoSplitOut (cs.getD (get_entry_index_upper_bound ks x) default) child' x v
      (childLo lo ks (get_entry_index_upper_bound ks x)) hic) :
    InsNoSplitOut (.mk ks cs false [])
      (.mk ks (cs.set (get_entry_index_upper_bound ks x) child') false []) x v lo hi := by
  cases hinv with
  | internal _ _ _ _ hi' hs hne hcslen hblo hbhi hlive hlast hlastlive hlastne hsep =>
  obtain ⟨hnd1, hnd2, hnd3, hnd4, hnd5⟩ := hnd
  have hkslen : 0 < ks.length := List.length_pos.mpr hne
  obtain ⟨hubl, hubr⟩ := ub_spec ks x hs
  have hposle : get_entry_index_upper_bound ks x ≤ ks.length := ub_le_length ks x
  set pos := get_entry_index_upper_bound ks x with hposdef
  have hposcs : pos < cs.length := by omega
  have hsetlen : (cs.set pos child').length = cs.length := by simp
  have hcsne : cs ≠ [] := by
    intro h
    rw [h] at hcslen
    simp at hcslen
  have hcsne' : cs.set pos child' ≠ [] := by
    intro h
    have h2 : (cs.set pos child').length = 0 := by rw [h]; rfl
    rw [hsetlen] at h2
    omega
  refine ⟨?_, ?_, ?_, ?_, ?_⟩
  · -- INV of the rebuilt node
    rcases Nat.lt_or_ge pos ks.length with hplt | hpge
    · refine INV.internal ks _ lo hi hi' hs hne (by rw [hsetlen]; exact hcslen)
        hblo hbhi ?_ ?_ hlastlive hlastne ?_
      · intro i hilt
        by_cases hip : i = pos
        · subst hip
          rw [getD_set_self cs _ _ _ hposcs]
          rw [hhiclt hplt] at hnd1
          exact hnd1
        · rw [getD_set_ne cs _ _ _ _ (fun h => hip h.symm)]
          exact hlive i hilt
      · rw [getD_set_ne cs _ _ _ _ (by omega)]
        exact hlast
      · intro i hilt
        by_cases hip : i + 1 = pos
        · rw [hip, getD_set_self cs _ _ _ hposcs]
          have h1 : childLo lo ks pos = some (ks.getD i 0) := by
            rw [childLo_pos lo ks _ (by omega)]
            have h0 : pos - 1 = i := by omega
            rw [h0]
          have h2 : find_leaf_entry (cs.getD pos default) = ks.getD i 0 := by
            rw [← hip]
            exact hsep i hilt
          exact hnd2 _ h1 h2
        · rw [getD_set_ne cs _ _ _ _ (fun h => hip h.symm)]
          exact hsep i hilt
    · have hpeq : pos = ks.length := by omega
      have hlasthi : ltHi (ks.getD (ks.length - 1) 0) hi := by
        cases hi with
        | none => exact trivial
        | some h =>
          have h1 : ks.getD (ks.length - 1) 0 ≤ x := hubl (ks.length - 1) (by omega)
          have h2 : x < h := hxhi
          show ks.getD (ks.length - 1) 0 < h
          omega
      refine INV.internal ks _ lo hi hi hs hne (by rw [hsetlen]; exact hcslen)
        hblo hbhi ?_ ?_ (fun _ => rfl) hlasthi ?_
      · intro i hilt
        rw [getD_set_ne cs _ _ _ _ (by omega)]
        exact hlive i hilt
      · rw [← hpeq, getD_set_self cs _ _ _ hposcs]
        rw [childLo_pos lo ks _ (by omega), hhiceq hpeq] at hnd1
        exact hnd1
      · intro i hilt
        by_cases hip : i + 1 = pos
        · rw [hip, getD_set_self cs _ _ _ hposcs]
          have h1 : childLo lo ks pos = some (ks.getD i 0) := by
            rw [childLo_pos lo ks _ (by omega)]
            have h0 : pos - 1 = i := by omega
            rw [h0]
          have h2 : find_leaf_entry (cs.getD pos default) = ks.getD i 0 := by
            rw [← hip]
            exact hsep i hilt
          exact hnd2 _ h1 h2
        · rw [getD_set_ne cs _ _ _ _ (fun h => hip h.symm)]
          exact hsep i hilt
  · -- first leaf entry is kept
    intro l hlo hfle
    rw [fle_internal_getD ks (cs.set pos child') [] hcsne']
    rw [fle_internal_getD ks cs [] hcsne] at hfle
    by_cases hp0 : pos = 0
    · have h1 : childLo lo ks pos = some l := by
        rw [hp0]
        exact hlo
      have h2 : find_leaf_entry (cs.getD pos default) = l := by
        rw [hp0]
        exact hfle
      rw [hp0, getD_set_self cs 0 child' default (by omega)]
      exact hnd2 l h1 h2
    · rw [getD_set_ne cs pos child' 0 default (fun h => hp0 h)]
      exact hfle
  · -- keys only grow by x
    intro y hy
    rw [leafKeys_internal] at hy
    obtain ⟨c, hc, hyc⟩ := leafKeysList_mem_iff.mp hy
    rcases List.mem_or_eq_of_mem_set hc with hcin | hceq
    · refine Or.inr ?_
      rw [leafKeys_internal]
      exact leafKeysList_mem_iff.mpr ⟨c, hcin, hyc⟩
    · subst hceq
      rcases hnd3 y hyc with hyx | hym
      · exact Or.inl hyx
      · refine Or.inr ?_
        rw [leafKeys_internal]
        exact leafKeysList_mem_iff.mpr
          ⟨cs.getD pos default, getD_mem_any default hposcs, hym⟩
  · -- the inserted key is found
    have hget' : (cs.set pos child').get? pos = some child' := by
      rw [get?_eq_some_getD _ _ default (by rw [hsetlen]; omega),
        getD_set_self cs _ _ _ hposcs]
    rw [nodeQuery_internal_eq_some ks _ [] x child' hget']
    exact hnd4
  · -- other keys are unchanged
    intro y hyx hylo hyhi
    obtain ⟨hubly, hubry⟩ := ub_spec ks y hs
    have hqle : get_entry_index_upper_bound ks y ≤ ks.length := ub_le_length ks y
    have hgety : cs.get? (get_entry_index_upper_bound ks y) =
        some (cs.getD (get_entry_index_upper_bound ks y) default) :=
      get?_eq_some_getD _ _ _ (by omega)
    rw [nodeQuery_internal_eq_some ks cs [] y _ hgety]
    by_cases hqp : get_entry_index_upper_bound ks y = pos
    · have hgety' : (cs.set pos child').get? (get_entry_index_upper_bound ks y) =
          some child' := by
        rw [hqp, get?_eq_some_getD _ _ default (by rw [hsetlen]; omega),
          getD_set_self cs _ _ _ hposcs]
      rw [nodeQuery_internal_eq_some ks _ [] y child' hgety', hqp]
      refine hnd5 y hyx ?_ ?_
      · by_cases hp0 : pos = 0
        · rw [hp0]
          exact hylo
        · rw [childLo_pos lo ks _ (by omega)]
          exact hubly (pos - 1) (by omega)
      · rcases Nat.lt_or_ge pos ks.length with hplt | hpge
        · rw [hhiclt hplt]
          exact hubry pos (by omega) hplt
        · rw [hhiceq (by omega)]
          exact hyhi
    · have hgety' : (cs.set pos child').get? (get_entry_index_upper_bound ks y) =
          some (cs.getD (get_entry_index_upper_bound ks y) default) := by
        rw [get?_eq_some_getD _ _ default (by rw [hsetlen]; omega),
          getD_set_ne cs _ _ _ _ (fun h => hqp h.symm)]
      rw [nodeQuery_internal_eq_some ks _ [] y _ hgety']

/-- Absorbing a child's split sibling (source lines 114-122) below the order
bound preserves the whole insert bundle at the internal node. -/
theorem internal_child_split (ks : List Nat) (cs : List (BPlusTreeNode V))
    (lo hi : Option Nat) (x : Nat) (v : V) (child' s_c : BPlusTreeNode V) (hic : Option Nat)
    (hinv : INV (.mk ks cs false ([] : List V)) lo hi)
    (hxlo : loLe lo x) (hxhi : ltHi x hi)
    (hhiclt : get_entry_index_upper_bound ks x < ks.length →
      hic = some (ks.getD (get_entry_index_upper_bound ks x) 0))
    (hhiceq : get_entry_index_upper_bound ks x = ks.length → hic = hi)
    (hsp : InsSplitOut (cs.getD (get_entry_index_upper_bound ks x) default) child' s_c x v
      (childLo lo ks (get_entry_index_upper_bound ks x)) hic) :
    InsNoSplitOut (.mk ks cs false [])
      (.mk (listInsertAt ks (get_entry_index_upper_bound ks (find_leaf_entry s_c))
          (find_leaf_entry s_c))
        (listInsertAt (cs.set (get_entry_index_upper_bound ks x) child')
          (get_entry_index_upper_bound ks (find_leaf_entry s_c) + 1) s_c)
        false []) x v lo hi := by
  cases hinv with
  | internal _ _ _ _ hi' hs hne hcslen hblo hbhi hlive hlast hlastlive hlastne hsep =>
  obtain ⟨hsp1, hsp2, hsp3, hsp4, hsp5, hsp6, hsp7⟩ := hsp
  have hkslen : 0 < ks.length := List.length_pos.mpr hne
  obtain ⟨hubl, hubr⟩ := ub_spec ks x hs
  have hposle : get_entry_index_upper_bound ks x ≤ ks.length := ub_le_length ks x
  set pos := get_entry_index_upper_bound ks x with hposdef
  set sep := find_leaf_entry s_c with hsepdef
  have hposcs : pos < cs.length := by omega
  have hlp : 0 < pos → ks.getD (pos - 1) 0 ≤ sep := by
    intro hp
    have h := hsp3
    rw [childLo_pos lo ks _ hp] at h
    exact h
  have hfcpos : 0 < pos → find_leaf_entry (cs.getD pos default) = ks.getD (pos - 1) 0 := by
    intro hp
    have h3 := hsep (pos - 1) (by omega)
    have hp1 : pos - 1 + 1 = pos := by omega
    rw [hp1] at h3
    exact h3
  have hstrictlow : ∀ i, i < pos → ks.getD i 0 < sep := by
    intro i hi2
    have hp : 0 < pos := by omega
    have hl5 := hsp5 (ks.getD (pos - 1) 0) (childLo_pos lo ks _ hp) (hfcpos hp)
    rcases Nat.lt_or_ge i (pos - 1) with h | h
    · have h6 := hs i (pos - 1) h (by omega)
      have h7 := hl5.2
      omega
    · have hieq : i = pos - 1 := by omega
      rw [hieq]
      exact hl5.2
  have hstricthigh : ∀ i, pos ≤ i → i < ks.length → sep < ks.getD i 0 := by
    intro i hge hlt
    have hplt : pos < ks.length := by omega
    have h4 : sep < ks.getD pos 0 := by
      have h := hsp4
      rwa [hhiclt hplt] at h
    rcases Nat.lt_or_ge pos i with h | h
    · have h6 := hs pos i h hlt
      omega
    · have hieq : i = pos := by omega
      rw [hieq]
      exact h4
  have hidx : get_entry_index_upper_bound ks sep = pos :=
    ub_eq_of_bracket ks sep hs pos hposle
      (fun i hi2 => Nat.le_of_lt (hstrictlow i hi2))
      hstricthigh
  rw [hidx]
  set cs1 := cs.set pos child' with hcs1def
  set keys2 := listInsertAt ks pos sep with hkeys2def
  set cs2 := listInsertAt cs1 (pos + 1) s_c with hcs2def
  have hcs1len : cs1.length = cs.length := by rw [hcs1def]; simp
  have hk2len : keys2.length = ks.length + 1 := by
    rw [hkeys2def]
    exact length_listInsertAt ks pos sep
  have hc2len : cs2.length = ks.length + 2 := by
    rw [hcs2def, length_listInsertAt]
    omega
  have hk2lt : ∀ i, i < pos → keys2.getD i 0 = ks.getD i 0 := fun i h =>
    getD_listInsertAt_lt ks pos sep i 0 h hposle
  have hk2self : keys2.getD pos 0 = sep := getD_listInsertAt_self ks pos sep 0 hposle
  have hk2gt : ∀ i, pos < i → i ≤ ks.length → keys2.getD i 0 = ks.getD (i - 1) 0 :=
    fun i h1 h2 => getD_listInsertAt_gt ks pos sep i 0 h1 hposle h2
  have hpos1le : pos + 1 ≤ cs1.length := by omega
  have hc2lt : ∀ j, j < pos → cs2.getD j default = cs.getD j default := by
    intro j hj
    rw [hcs2def, getD_listInsertAt_lt cs1 (pos + 1) s_c j default (by omega) hpos1le,
      hcs1def, getD_set_ne cs _ _ _ _ (by omega)]
  have hc2pos : cs2.getD pos default = child' := by
    rw [hcs2def, getD_listInsertAt_lt cs1 (pos + 1) s_c pos default (by omega) hpos1le,
      hcs1def, getD_set_self cs _ _ _ hposcs]
  have hc2sep : cs2.getD (pos + 1) default = s_c := by
    rw [hcs2def, getD_listInsertAt_self cs1 (pos + 1) s_c default hpos1le]
  have hc2gt : ∀ j, pos + 1 < j → j ≤ cs.length →
      cs2.getD j default = cs.getD (j - 1) default := by
    intro j h1 h2
    rw [hcs2def, getD_listInsertAt_gt cs1 (pos + 1) s_c j default h1 hpos1le (by omega),
      hcs1def, getD_set_ne cs _ _ _ _ (by omega)]
  have hseplo : loLe lo sep := by
    by_cases hp0 : pos = 0
    · have h := hsp3
      rw [hp0] at h
      exact h
    · have h1 := hlp (by omega)
      have h2 : loLe lo (ks.getD (pos - 1) 0) := hblo _ (getD_mem (by omega))
      cases lo with
      | none => exact trivial
      | some l0 =>
        have h2' : l0 ≤ ks.getD (pos - 1) 0 := h2
        show l0 ≤ sep
        omega
  have hsephi : leHi sep hi := by
    rcases Nat.lt_or_ge pos ks.length with hplt | hpge
    · have h4 : sep < ks.getD pos 0 := by
        have h := hsp4
        rwa [hhiclt hplt] at h
      have h5 : leHi (ks.getD pos 0) hi := hbhi _ (getD_mem hplt)
      cases hi with
      | none => exact trivial
      | some h =>
        have h5' : ks.getD pos 0 ≤ h := h5
        show sep ≤ h
        omega
    · have hpeq : pos = ks.length := by omega
      have h4 := hsp4
      rw [hhiceq hpeq] at h4
      cases hi with
      | none => exact trivial
      | some h =>
        have h4' : sep < h := h4
        show sep ≤ h
        omega
  have hs2 : SortedKeys keys2 := by
    rw [hkeys2def]
    exact sortedKeys_listInsertAt ks pos sep hs hposle hstrictlow hstricthigh
  have hne2 : keys2 ≠ [] := by
    intro h
    have h2 : keys2.length = 0 := by rw [h]; rfl
    omega
  have hcllt : ∀ i, i ≤ pos → childLo lo keys2 i = childLo lo ks i := by
    intro i hi2
    cases i with
    | zero => rfl
    | succ i0 =>
      rw [childLo_pos lo keys2 _ (by omega), childLo_pos lo ks _ (by omega)]
      have h0 : i0 + 1 - 1 = i0 := rfl
      rw [h0, hk2lt i0 (by omega)]
  have hblo2 : ∀ k ∈ keys2, loLe lo k := by
    intro k hk
    rw [hkeys2def] at hk
    rcases mem_listInsertAt_elim ks pos sep hposle k hk with rfl | hkm
    · exact hseplo
    · exact hblo k hkm
  have hbhi2 : ∀ k ∈ keys2, leHi k hi := by
    intro k hk
    rw [hkeys2def] at hk
    rcases mem_listInsertAt_elim ks pos sep hposle k hk with rfl | hkm
    · exact hsephi
    · exact hbhi k hkm
  have hlive2 : ∀ i, i < keys2.length →
      INV (cs2.getD i default) (childLo lo keys2 i) (some (keys2.getD i 0)) := by
    intro i hilt
    rw [hk2len] at hilt
    rcases Nat.lt_trichotomy i pos with hi1 | hi1 | hi1
    · rw [hc2lt i hi1, hk2lt i hi1, hcllt i (by omega)]
      exact hlive i (by omega)
    · rw [hi1, hc2pos, hk2self, hcllt pos (le_refl _)]
      exact hsp1
    · by_cases hi2 : i = pos + 1
      · have hplt : pos < ks.length := by omega
        rw [hi2, hc2sep, hk2gt (pos + 1) (by omega) (by omega)]
        have h0 : pos + 1 - 1 = pos := rfl
        rw [h0]
        have hcl : childLo lo keys2 (pos + 1) = some sep := by
          rw [childLo_pos lo keys2 _ (by omega)]
          rw [h0, hk2self]
        rw [hcl, ← hhiclt hplt]
        exact hsp2
      · have hi3 : pos + 1 < i := by omega
        rw [hc2gt i hi3 (by omega), hk2gt i (by omega) (by omega)]
        have hcl : childLo lo keys2 i = some (ks.getD (i - 2) 0) := by
          rw [childLo_pos lo keys2 _ (by omega), hk2gt (i - 1) (by omega) (by omega)]
          have h0 : i - 1 - 1 = i - 2 := by omega
          rw [h0]
        rw [hcl]
        have hcl2 : childLo lo ks (i - 1) = some (ks.getD (i - 2) 0) := by
          rw [childLo_pos lo ks _ (by omega)]
          have h0 : i - 1 - 1 = i - 2 := by omega
          rw [h0]
        rw [← hcl2]
        exact hlive (i - 1) (by omega)
  have hsep2 : ∀ i, i < keys2.length →
      find_leaf_entry (cs2.getD (i + 1) default) = keys2.getD i 0 := by
    intro i hilt
    rw [hk2len] at hilt
    rcases Nat.lt_trichotomy i pos with hi1 | hi1 | hi1
    · rw [hk2lt i hi1]
      by_cases hi2 : i + 1 = pos
      · rw [hi2, hc2pos]
        have hp : 0 < pos := by omega
        have hl5 := hsp5 (ks.getD (pos - 1) 0) (childLo_pos lo ks _ hp) (hfcpos hp)
        have h0 : pos - 1 = i := by omega
        rw [h0] at hl5
        exact hl5.1
      · rw [hc2lt (i + 1) (by omega)]
        exact hsep i (by omega)
    · rw [hi1, hc2sep, hk2self, hsepdef]
    · have h1 : i - 1 + 1 = i := by omega
      rw [hk2gt i (by omega) (by omega), hc2gt (i + 1) (by omega) (by omega)]
      have h0 : i + 1 - 1 = i := rfl
      rw [h0]
      have h3 := hsep (i - 1) (by omega)
      rw [h1] at h3
      exact h3
  refine ⟨?_, ?_, ?_, ?_, ?_⟩
  · -- INV of the grown node
    rcases Nat.lt_or_ge pos ks.length with hplt | hpge
    · refine INV.internal keys2 cs2 lo hi hi' hs2 hne2 (by omega) hblo2 hbhi2 hlive2
        ?_ ?_ ?_ hsep2
      · rw [hk2len]
        have h0 : ks.length + 1 - 1 = ks.length := rfl
        rw [h0, hc2gt (ks.length + 1) (by omega) (by omega), h0,
          hk2gt ks.length (by omega) (le_refl _)]
        exact hlast
      · rw [hk2len]
        have h0 : ks.length + 1 - 1 = ks.length := rfl
        rw [h0, hk2gt ks.length (by omega) (le_refl _)]
        exact hlastlive
      · rw [hk2len]
        have h0 : ks.length + 1 - 1 = ks.length := rfl
        rw [h0, hk2gt ks.length (by omega) (le_refl _)]
        exact hlastne
    · have hpeq : pos = ks.length := by omega
      refine INV.internal keys2 cs2 lo hi hi hs2 hne2 (by omega) hblo2 hbhi2 hlive2
        ?_ (fun _ => rfl) ?_ hsep2
      · rw [hk2len, ← hpeq]
        have h0 : pos + 1 - 1 = pos := rfl
        rw [h0, hc2sep, hk2self, ← hhiceq hpeq]
        exact hsp2
      · rw [hk2len, ← hpeq]
        have h0 : pos + 1 - 1 = pos := rfl
        rw [h0, hk2self, ← hhiceq hpeq]
        exact hsp4
  · -- first leaf entry is kept
    intro l hlo hfle
    have hcsne : cs ≠ [] := by
      intro h
      rw [h] at hcslen
      simp at hcslen
    have hcs2ne : cs2 ≠ [] := by
      intro h
      have h2 : cs2.length = 0 := by rw [h]; rfl
      omega
    rw [fle_internal_getD keys2 cs2 [] hcs2ne]
    rw [fle_internal_getD ks cs [] hcsne] at hfle
    by_cases hp0 : pos = 0
    · have h1 : cs2.getD 0 default = child' := by
        rw [← hp0]
        exact hc2pos
      have h2 : childLo lo ks pos = some l := by
        rw [hp0]
        exact hlo
      have h3 : find_leaf_entry (cs.getD pos default) = l := by
        rw [hp0]
        exact hfle
      rw [h1]
      exact (hsp5 l h2 h3).1
    · rw [hc2lt 0 (by omega)]
      exact hfle
  · -- keys only grow by x
    intro y hy
    rw [leafKeys_internal] at hy
    obtain ⟨c, hc, hyc⟩ := leafKeysList_mem_iff.mp hy
    rw [hcs2def] at hc
    rcases mem_listInsertAt_elim_any cs1 (pos + 1) s_c c hc with rfl | hc1
    · rcases hsp6 y (Or.inr hyc) with hyx | hym
      · exact Or.inl hyx
      · refine Or.inr ?_
        rw [leafKeys_internal]
        exact leafKeysList_mem_iff.mpr
          ⟨cs.getD pos default, getD_mem_any default hposcs, hym⟩
    · rw [hcs1def] at hc1
      rcases List.mem_or_eq_of_mem_set hc1 with hcin | hceq
      · refine Or.inr ?_
        rw [leafKeys_internal]
        exact leafKeysList_mem_iff.mpr ⟨c, hcin, hyc⟩
      · subst hceq
        rcases hsp6 y (Or.inl hyc) with hyx | hym
        · exact Or.inl hyx
        · refine Or.inr ?_
          rw [leafKeys_internal]
          exact leafKeysList_mem_iff.mpr
            ⟨cs.getD pos default, getD_mem_any default hposcs, hym⟩
  · -- the inserted key is found
    have hxloc : loLe (childLo lo ks pos) x := by
      by_cases hp0 : pos = 0
      · rw [hp0]
        exact hxlo
      · rw [childLo_pos lo ks _ (by omega)]
        exact hubl (pos - 1) (by omega)
    have hxhic : ltHi x hic := by
      rcases Nat.lt_or_ge pos ks.length with hplt | hpge
      · rw [hhiclt hplt]
        exact hubr pos (le_refl _) hplt
      · rw [hhiceq (by omega)]
        exact hxhi
    obtain ⟨hq1, hq2⟩ := hsp7 x hxloc hxhic
    rcases Nat.lt_or_ge x sep with hxsep | hxsep
    · have hub2 : get_entry_index_upper_bound keys2 x = pos := by
        apply ub_eq_of_bracket keys2 x hs2 pos (by omega)
        · intro i hi2
          rw [hk2lt i hi2]
          exact hubl i hi2
        · intro i hge hlt2
          rw [hk2len] at hlt2
          rcases Nat.lt_or_ge i (pos + 1) with h | h
          · have hieq : i = pos := by omega
            rw [hieq, hk2self]
            exact hxsep
          · rw [hk2gt i (by omega) (by omega)]
            exact hubr (i - 1) (by omega) (by omega)
      have hget2 : cs2.get? (get_entry_index_upper_bound keys2 x) = some child' := by
        rw [hub2, get?_eq_some_getD cs2 pos default (by omega), hc2pos]
      rw [nodeQuery_internal_eq_some keys2 cs2 [] x child' hget2]
      rw [hq1 hxsep, if_pos rfl]
    · have hub2 : get_entry_index_upper_bound keys2 x = pos + 1 := by
        apply ub_eq_of_bracket keys2 x hs2 (pos + 1) (by omega)
        · intro i hi2
          rcases Nat.lt_trichotomy i pos with h | h | h
          · rw [hk2lt i h]
            exact hubl i h
          · rw [h, hk2self]
            exact hxsep
          · omega
        · intro i hge hlt2
          rw [hk2len] at hlt2
          rw [hk2gt i (by omega) (by omega)]
          exact hubr (i - 1) (by omega) (by omega)
      have hget2 : cs2.get? (get_entry_index_upper_bound keys2 x) = some s_c := by
        rw [hub2, get?_eq_some_getD cs2 (pos + 1) default (by omega), hc2sep]
      rw [nodeQuery_internal_eq_some keys2 cs2 [] x s_c hget2]
      rw [hq2 hxsep, if_pos rfl]
  · -- other keys are unchanged
    intro y hyx hylo hyhi
    obtain ⟨hubly, hubry⟩ := ub_spec ks y hs
    have hqley : get_entry_index_upper_bound ks y ≤ ks.length := ub_le_length ks y
    set q := get_entry_index_upper_bound ks y with hqdef
    have hgety : cs.get? q = some (cs.getD q default) :=
      get?_eq_some_getD _ _ _ (by omega)
    rw [nodeQuery_internal_eq_some ks cs [] y _ hgety]
    rcases Nat.lt_or_ge y sep with hysep | hysep
    · have hqle : q ≤ pos := by
        by_contra hcon
        have hq1 : pos < q := by omega
        have h1 : ks.getD pos 0 ≤ y := hubly pos hq1
        have h2 : sep < ks.getD pos 0 := hstricthigh pos (le_refl _) (by omega)
        omega
      have hub2 : get_entry_index_upper_bound keys2 y = q := by
        apply ub_eq_of_bracket keys2 y hs2 q (by omega)
        · intro i hi2
          rw [hk2lt i (by omega)]
          exact hubly i hi2
        · intro i hge hlt2
          rw [hk2len] at hlt2
          rcases Nat.lt_trichotomy i pos with h | h | h
          · rw [hk2lt i h]
            exact hubry i hge (by omega)
          · rw [h, hk2self]
            exact hysep
          · rw [hk2gt i (by omega) (by omega)]
            exact hubry (i - 1) (by omega) (by omega)
      by_cases hqp : q = pos
      · have hget2 : cs2.get? (get_entry_index_upper_bound keys2 y) = some child' := by
          rw [hub2, hqp, get?_eq_some_getD cs2 pos default (by omega), hc2pos]
        rw [nodeQuery_internal_eq_some keys2 cs2 [] y child' hget2]
        have hyloc : loLe (childLo lo ks pos) y := by
          by_cases hp0 : pos = 0
          · rw [hp0]
            exact hylo
          · rw [childLo_pos lo ks _ (by omega)]
            exact hubly (pos - 1) (by omega)
        have hyhic : ltHi y hic := by
          rcases Nat.lt_or_ge pos ks.length with hplt | hpge
          · rw [hhiclt hplt]
            exact hubry pos (by omega) hplt
          · rw [hhiceq (by omega)]
            exact hyhi
        rw [(hsp7 y hyloc hyhic).1 hysep, if_neg hyx, hqp]
      · have hget2 : cs2.get? (get_entry_index_upper_bound keys2 y) =
            some (cs.getD q default) := by
          rw [hub2, get?_eq_some_getD cs2 q default (by omega), hc2lt q (by omega)]
        rw [nodeQuery_internal_eq_some keys2 cs2 [] y _ hget2]
    · have hqge : pos ≤ q := by
        by_contra hcon
        have hq1 : q < pos := by omega
        have h1 : y < ks.getD q 0 := hubry q (le_refl _) (by omega)
        have h2 : ks.getD q 0 < sep := hstrictlow q hq1
        omega
      have hub2 : get_entry_index_upper_bound keys2 y = q + 1 := by
        apply ub_eq_of_bracket keys2 y hs2 (q + 1) (by omega)
        · intro i hi2
          rcases Nat.lt_trichotomy i pos with h | h | h
          · rw [hk2lt i h]
            exact hubly i (by omega)
          · rw [h, hk2self]
            exact hysep
          · rw [hk2gt i (by omega) (by omega)]
            exact hubly (i - 1) (by omega)
        · intro i hge hlt2
          rw [hk2len] at hlt2
          rw [hk2gt i (by omega) (by omega)]
          exact hubry (i - 1) (by omega) (by omega)
      by_cases hqp : q = pos
      · have hget2 : cs2.get? (get_entry_index_upper_bound keys2 y) = some s_c := by
          rw [hub2, hqp, get?_eq_some_getD cs2 (pos + 1) default (by omega), hc2sep]
        rw [nodeQuery_internal_eq_some keys2 cs2 [] y s_c hget2]
        have hyloc : loLe (childLo lo ks pos) y := by
          by_cases hp0 : pos = 0
          · rw [hp0]
            exact hylo
          · rw [childLo_pos lo ks _ (by omega)]
            have h1 := hlp (by omega)
            show ks.getD (pos - 1) 0 ≤ y
            omega
        have hyhic : ltHi y hic := by
          rcases Nat.lt_or_ge pos ks.length with hplt | hpge
          · rw [hhiclt hplt]
            exact hubry pos (by omega) hplt
          · rw [hhiceq (by omega)]
            exact hyhi
        rw [(hsp7 y hyloc hyhic).2 hysep, if_neg hyx, hqp]
      · have hq2 : pos + 1 < q + 1 := by omega
        have hget2 : cs2.get? (get_entry_index_upper_bound keys2 y) =
            some (cs.getD q default) := by
          rw [hub2, get?_eq_some_getD cs2 (q + 1) default (by omega), hc2gt (q + 1) hq2 (by omega)]
          have h0 : q + 1 - 1 = q := rfl
          rw [h0]
        rw [nodeQuery_internal_eq_some keys2 cs2 [] y _ hget2]

/-- Main specification of `BPlusTreeNode::insert` for a fresh key inside the
node's live window, by induction over the ordering invariant. -/
theorem insert_spec {n : BPlusTreeNode V} {lo hi : Option Nat} (hinv : INV n lo hi) :
    ∀ (x : Nat) (v : V) (io lo_ord : Nat), 1 ≤ io → 2 ≤ lo_ord →
      loLe lo x → ltHi x hi → x ∉ leafKeys n →
      (∀ n', nodeInsert n x v io lo_ord = (n', none) →
        InsNoSplitOut n n' x v lo hi) ∧
      (∀ n' s, nodeInsert n x v io lo_ord = (n', some s) →
        InsSplitOut n n' s x v lo hi) := by
  induction hinv with
  | leaf ks vs lo hi hs hne hlenv hblo hbhi =>
    intro x v io lo_ord hio hlo_ord hxlo hxhi hxfresh
    rw [leafKeys_leaf] at hxfresh
    have heqe : get_equal_entry_index ks x = none :=
      get_equal_entry_index_none_of_not_mem ks x hxfresh
    have hupd := leaf_update ks vs lo hi x v
      (INV.leaf ks vs lo hi hs hne hlenv hblo hbhi) hxlo hxhi hxfresh
    constructor
    · intro n' he
      rw [nodeInsert_leaf_eq, leafInsert_eq_fresh ks [] vs x v lo_ord heqe] at he
      by_cases hov : lo_ord <
          (listInsertAt ks (get_entry_index_upper_bound ks x) x).length
      · rw [if_pos hov] at he
        injection he with hn hsn
        exact Option.noConfusion hsn
      · rw [if_neg hov] at he
        injection he with hn hsn
        subst hn
        exact hupd
    · intro n' s he
      rw [nodeInsert_leaf_eq, leafInsert_eq_fresh ks [] vs x v lo_ord heqe] at he
      by_cases hov : lo_ord <
          (listInsertAt ks (get_entry_index_upper_bound ks x) x).length
      · rw [if_pos hov] at he
        injection he with hn hsn
        injection hsn with hs2
        subst hn
        subst hs2
        exact splitOut_compose hupd
          (split_spec_leaf _ _ lo hi lo_ord hupd.1 hov hlo_ord)
      · rw [if_neg hov] at he
        injection he with hn hsn
        exact Option.noConfusion hsn
  | internal ks cs lo hi hi' hs hne hcslen hblo hbhi hlive hlast hlastlive hlastne hsep
      ihlive ihlast =>
    intro x v io lo_ord hio hlo_ord hxlo hxhi hxfresh
    have hkslen : 0 < ks.length := List.length_pos.mpr hne
    obtain ⟨hubl, hubr⟩ := ub_spec ks x hs
    have hposle : get_entry_index_upper_bound ks x ≤ ks.length := ub_le_length ks x
    have hinv2 : INV (.mk ks cs false ([] : List V)) lo hi :=
      INV.internal ks cs lo hi hi' hs hne hcslen hblo hbhi hlive hlast hlastlive
        hlastne hsep
    have hget : cs.get? (get_entry_index_upper_bound ks x) =
        some (cs.getD (get_entry_index_upper_bound ks x) default) :=
      get?_eq_some_getD cs _ default (by omega)
    have hxfresh' : x ∉ leafKeys (cs.getD (get_entry_index_upper_bound ks x) default) := by
      intro hmem
      exact hxfresh (leafKeys_child_sub ks cs [] _ (by omega) x hmem)
    obtain ⟨hic, hhiclt, hhiceq, hih⟩ :
        ∃ hic, (get_entry_index_upper_bound ks x < ks.length →
            hic = some (ks.getD (get_entry_index_upper_bound ks x) 0)) ∧
          (get_entry_index_upper_bound ks x = ks.length → hic = hi) ∧
          ((∀ n', nodeInsert (cs.getD (get_entry_index_upper_bound ks x) default)
              x v io lo_ord = (n', none) →
            InsNoSplitOut (cs.getD (get_entry_index_upper_bound ks x) default) n' x v
              (childLo lo ks (get_entry_index_upper_bound ks x)) hic) ∧
           (∀ n' s, nodeInsert (cs.getD (get_entry_index_upper_bound ks x) default)
              x v io lo_ord = (n', some s) →
            InsSplitOut (cs.getD (get_entry_index_upper_bound ks x) default) n' s x v
              (childLo lo ks (get_entry_index_upper_bound ks x)) hic)) := by
      rcases Nat.lt_or_ge (get_entry_index_upper_bound ks x) ks.length with hplt | hpge
      · refine ⟨some (ks.getD (get_entry_index_upper_bound ks x) 0), fun _ => rfl,
          fun h => absurd h (by omega), ?_⟩
        have hxloc : loLe (childLo lo ks (get_entry_index_upper_bound ks x)) x := by
          rcases he : get_entry_index_upper_bound ks x with _ | p0
          · exact hxlo
          · exact hubl p0 (by omega)
        exact ihlive _ hplt x v io lo_ord hio hlo_ord hxloc
          (hubr _ (le_refl _) hplt) hxfresh'
      · have hpeq : get_entry_index_upper_bound ks x = ks.length := by omega
        have hlasthi : ltHi (ks.getD (ks.length - 1) 0) hi := by
          cases hi with
          | none => exact trivial
          | some h =>
            have h1 : ks.getD (ks.length - 1) 0 ≤ x := hubl (ks.length - 1) (by omega)
            have h2 : x < h := hxhi
            show ks.getD (ks.length - 1) 0 < h
            omega
        have hieq : hi' = hi := hlastlive hlasthi
        refine ⟨hi, fun h => absurd h (by omega), fun _ => rfl, ?_⟩
        rw [hpeq, childLo_pos lo ks _ hkslen]
        have hxloc : loLe (some (ks.getD (ks.length - 1) 0)) x :=
          hubl (ks.length - 1) (by omega)
        have hxhi' : ltHi x hi' := by
          rw [hieq]
          exact hxhi
        have hxfresh'' : x ∉ leafKeys (cs.getD ks.length default) := by
          rw [← hpeq]
          exact hxfresh'
        have hres := ihlast x v io lo_ord hio hlo_ord hxloc hxhi' hxfresh''
        rw [hieq] at hres
        exact hres
    rcases hres : nodeInsert (cs.getD (get_entry_index_upper_bound ks x) default)
        x v io lo_ord with ⟨child', os⟩
    cases os with
    | none =>
      have hA := internal_child_nosplit ks cs lo hi x v child' hic hinv2 hxlo hxhi
        hhiclt hhiceq (hih.1 child' hres)
      constructor
      · intro n' he
        rw [nodeInsert_internal_eq_some ks cs [] x v io lo_ord _ hget, hres] at he
        have he2 : internalAfter ks
            (cs.set (get_entry_index_upper_bound ks x) child') [] none io =
            (n', none) := he
        rw [internalAfter_none_eq] at he2
        injection he2 with hn hsn
        subst hn
        exact hA
      · intro n' s he
        rw [nodeInsert_internal_eq_some ks cs [] x v io lo_ord _ hget, hres] at he
        have he2 : internalAfter ks
            (cs.set (get_entry_index_upper_bound ks x) child') [] none io =
            (n', some s) := he
        rw [internalAfter_none_eq] at he2
        injection he2 with hn hsn
        exact Option.noConfusion hsn
    | some s_c =>
      have hB := internal_child_split ks cs lo hi x v child' s_c hic hinv2 hxlo hxhi
        hhiclt hhiceq (hih.2 child' s_c hres)
      constructor
      · intro n' he
        rw [nodeInsert_internal_eq_some ks cs [] x v io lo_ord _ hget, hres] at he
        have he2 : internalAfter ks
            (cs.set (get_entry_index_upper_bound ks x) child') [] (some s_c) io =
            (n', none) := he
        rw [internalAfter_some_eq] at he2
        by_cases hov : io < (listInsertAt ks
            (get_entry_index_upper_bound ks (find_leaf_entry s_c))
            (find_leaf_entry s_c)).length
        · rw [if_pos hov] at he2
          injection he2 with hn hsn
          exact Option.noConfusion hsn
        · rw [if_neg hov] at he2
          injection he2 with hn hsn
          subst hn
          exact hB
      · intro n' s he
        rw [nodeInsert_internal_eq_some ks cs [] x v io lo_ord _ hget, hres] at he
        have he2 : internalAfter ks
            (cs.set (get_entry_index_upper_bound ks x) child') [] (some s_c) io =
            (n', some s) := he
        rw [internalAfter_some_eq] at he2
        by_cases hov : io < (listInsertAt ks
            (get_entry_index_upper_bound ks (find_leaf_entry s_c))
            (find_leaf_entry s_c)).length
        · rw [if_pos hov] at he2
          injection he2 with hn hsn
          injection hsn with hs2
          subst hn
          subst hs2
          exact splitOut_compose hB
            (split_spec_internal _ _ lo hi io hB.1 hov hio)
        · rw [if_neg hov] at he2
          injection he2 with hn hsn
          exact Option.noConfusion hsn

/-- Root state reachable by `BPlusTree::insert`: the fresh empty leaf or a
node satisfying the full ordering invariant over the unbounded window. -/
def TreeC (t : BPlusTree V) : Prop :=
  t.root = .mk [] [] true [] ∨ INV t.root none none

/-- First-match association lookup, mirroring the query semantics of a
sequence of distinct-key insertions. -/
def assocLookup : List (Nat × V) → Nat → Option V
  | [], _ => none
  | (k, v) :: rest, y => if y = k then some v else assocLookup rest y

theorem assocLookup_eq_none_of_not_mem (l : List (Nat × V)) (y : Nat)
    (h : y ∉ l.map Prod.fst) : assocLookup l y = none := by
  induction l with
  | nil => rfl
  | cons kv rest ih =>
    rcases kv with ⟨k, v⟩
    rw [List.map_cons] at h
    rw [assocLookup, if_neg ?hne, ih (fun hm => h (List.mem_cons_of_mem _ hm))]
    case hne =>
      intro he
      rw [he] at h
      exact h (List.mem_cons_self _ _)

theorem inv_keys_ne {n : BPlusTreeNode V} {lo hi : Option Nat} (h : INV n lo hi) :
    n.keys ≠ [] := by
  cases h with
  | leaf ks vs lo hi hs hne hlen hblo hbhi => exact hne
  | internal ks cs lo hi hi' hs hne hlen hblo hbhi hlive hlast hll hln hsep => exact hne

/-- One `BPlusTree::insert` of a fresh key: reachability is preserved, the new
key is found, all other queries and the leaf-key multiset are unchanged. -/
theorem tree_insert_step (t : BPlusTree V) (x : Nat) (v : V)
    (hio : 1 ≤ t.inner_order) (hlo : 2 ≤ t.leaf_order)
    (hC : TreeC t) (hfresh : x ∉ leafKeys t.root) :
    TreeC (t.insert x v) ∧
    nodeQuery (t.insert x v).root x = some v ∧
    (∀ y, y ≠ x → nodeQuery (t.insert x v).root y = nodeQuery t.root y) ∧
    (∀ y, y ∈ leafKeys (t.insert x v).root → y = x ∨ y ∈ leafKeys t.root) := by
  rcases hC with hempty | hinv
  · have hroot : (t.insert x v).root = .mk [x] [] true [v] := by
      unfold BPlusTree.insert
      rw [hempty]
      rfl
    have hsx : SortedKeys [x] := by
      intro i j hij hj
      simp at hj
      omega
    refine ⟨?_, ?_, ?_, ?_⟩
    · refine Or.inr ?_
      rw [hroot]
      exact INV.leaf [x] [v] none none hsx (by simp) rfl
        (fun k _ => trivial) (fun k _ => trivial)
    · rw [hroot, leaf_query_found [x] [] [v] x 0 hsx (by simp) rfl]
      rfl
    · intro y hyx
      rw [hroot, hempty,
        leaf_query_missing [x] [] [v] y (by
          intro hm
          exact hyx (List.mem_singleton.mp hm)),
        leaf_query_missing [] [] [] y (by simp)]
    · intro y hy
      rw [hroot, leafKeys_leaf] at hy
      exact Or.inl (List.mem_singleton.mp hy)
  · have h0 : ¬ t.root.keys.length = 0 := by
      intro h
      exact inv_keys_ne hinv (List.length_eq_zero.mp h)
    have hins := insert_spec hinv x v t.inner_order t.leaf_order hio hlo
      trivial trivial hfresh
    rcases hres : nodeInsert t.root x v t.inner_order t.leaf_order with ⟨root1, os⟩
    cases os with
    | none =>
      have hroot : (t.insert x v).root = root1 := by
        unfold BPlusTree.insert
        rw [if_neg h0, hres]
      obtain ⟨hn1, hn2, hn3, hn4, hn5⟩ := hins.1 root1 hres
      refine ⟨Or.inr (hroot ▸ hn1), ?_, ?_, ?_⟩
      · rw [hroot]
        exact hn4
      · intro y hyx
        rw [hroot]
        exact hn5 y hyx trivial trivial
      · intro y hy
        rw [hroot] at hy
        exact hn3 y hy
    | some node =>
      obtain ⟨hs1, hs2, hs3, hs4, hs5, hs6, hs7⟩ := hins.2 root1 node hres
      have hck : (if node.isLeaf then node.keys.headD 0 else find_leaf_entry node) =
          find_leaf_entry node := by
        rcases node with ⟨nks, ncs, nleaf, nvs⟩
        cases nleaf
        · rfl
        · rw [fle_leaf nks ncs nvs]
          rfl
      have hroot : (t.insert x v).root =
          .mk [find_leaf_entry node] [root1, node] false [] := by
        unfold BPlusTree.insert
        rw [if_neg h0, hres]
        show BPlusTreeNode.mk
          [if node.isLeaf then node.keys.headD 0 else find_leaf_entry node]
          [root1, node] false [] = _
        rw [hck]
      have hsR : SortedKeys [find_leaf_entry node] := by
        intro i j hij hj
        simp at hj
        omega
      have hubR1 : ∀ y, y < find_leaf_entry node →
          get_entry_index_upper_bound [find_leaf_entry node] y = 0 := by
        intro y hy
        refine ub_eq_of_bracket _ y hsR 0 (by simp) (by omega) ?_
        intro i h1 h2
        simp at h2
        subst h2
        exact hy
      have hubR2 : ∀ y, find_leaf_entry node ≤ y →
          get_entry_index_upper_bound [find_leaf_entry node] y = 1 := by
        intro y hy
        refine ub_eq_of_bracket _ y hsR 1 (by simp) ?_ (by intro i h1 h2; simp at h2; omega)
        intro i hi2
        have h2 : i = 0 := by omega
        subst h2
        exact hy
      have hquery : ∀ y, nodeQuery (t.insert x v).root y =
          if y = x then some v else nodeQuery t.root y := by
        intro y
        rw [hroot]
        rcases Nat.lt_or_ge y (find_leaf_entry node) with hy | hy
        · rw [nodeQuery_internal_eq_some [find_leaf_entry node] [root1, node] [] y root1
            (by rw [hubR1 y hy]; rfl)]
          exact (hs7 y trivial trivial).1 hy
        · rw [nodeQuery_internal_eq_some [find_leaf_entry node] [root1, node] [] y node
            (by rw [hubR2 y hy]; rfl)]
          exact (hs7 y trivial trivial).2 hy
      refine ⟨?_, ?_, ?_, ?_⟩
      · refine Or.inr ?_
        rw [hroot]
        refine INV.internal [find_leaf_entry node] [root1, node] none none none
          hsR (by simp) rfl (fun k _ => trivial) (fun k _ => trivial)
          ?_ ?_ (fun _ => rfl) trivial ?_
        · intro i hi2
          simp at hi2
          subst hi2
          exact hs1
        · exact hs2
        · intro i hi2
          simp at hi2
          subst hi2
          rfl
      · rw [hquery x, if_pos rfl]
      · intro y hyx
        rw [hquery y, if_neg hyx]
      · intro y hy
        rw [hroot, leafKeys_internal] at hy
        rw [leafKeysList, leafKeysList, leafKeysList, List.append_nil] at hy
        exact hs6 y (List.mem_append.mp hy)

/-- Folding `BPlusTree::insert` over a list of pairwise-distinct fresh keys:
every query answer is the association-list lookup, falling back to the
original tree. -/
theorem foldl_insert_queries (V : Type) :
    ∀ (l : List (Nat × V)) (t : BPlusTree V),
    1 ≤ t.inner_order → 2 ≤ t.leaf_order → TreeC t →
    (l.map Prod.fst).Nodup →
    (∀ k ∈ l.map Prod.fst, k ∉ leafKeys t.root) →
    TreeC (l.foldl (fun a kv => a.insert kv.1 kv.2) t) ∧
    (∀ y, nodeQuery (l.foldl (fun a kv => a.insert kv.1 kv.2) t).root y =
      match assocLookup l y with
      | some w => some w
      | none => nodeQuery t.root y) ∧
    (∀ y, y ∈ leafKeys (l.foldl (fun a kv => a.insert kv.1 kv.2) t).root →
      y ∈ l.map Prod.fst ∨ y ∈ leafKeys t.root) := by
  intro l
  induction l with
  | nil =>
    intro t hio hlo hC hnd hfresh
    exact ⟨hC, fun y => rfl, fun y hy => Or.inr hy⟩
  | cons kv rest ih =>
    intro t hio hlo hC hnd hfresh
    rcases kv with ⟨k, v⟩
    rw [List.map_cons] at hnd hfresh
    obtain ⟨hknotin, hndrest⟩ := List.nodup_cons.mp hnd
    obtain ⟨hstepC, hstepq, hstepo, hstepk⟩ := tree_insert_step t k v hio hlo hC
      (hfresh k (List.mem_cons_self _ _))
    have hio' : 1 ≤ (t.insert k v).inner_order := by
      rw [insert_inner_order]
      exact hio
    have hlo' : 2 ≤ (t.insert k v).leaf_order := by
      rw [insert_leaf_order]
      exact hlo
    have hfresh' : ∀ k' ∈ rest.map Prod.fst, k' ∉ leafKeys (t.insert k v).root := by
      intro k' hk' hmem
      rcases hstepk k' hmem with hk | hk
      · exact hknotin (hk ▸ hk')
      · exact hfresh k' (List.mem_cons_of_mem _ hk') hk
    obtain ⟨hC', hq', hk'⟩ := ih (t.insert k v) hio' hlo' hstepC hndrest hfresh'
    refine ⟨hC', ?_, ?_⟩
    · intro y
      rw [List.foldl_cons, hq' y, assocLookup]
      by_cases hyk : y = k
      · rw [if_pos hyk,
          assocLookup_eq_none_of_not_mem rest y (by rw [hyk]; exact hknotin)]
        rw [hyk]
        exact hstepq
      · rw [if_neg hyk]
        rcases hal : assocLookup rest y with _ | w
        · exact hstepo y hyk
        · rfl
    · intro y hy
      rw [List.foldl_cons] at hy
      rcases hk' y hy with hk2 | hk2
      · exact Or.inl (List.mem_cons_of_mem _ hk2)
      · rcases hstepk y hk2 with hk3 | hk3
        · exact Or.inl (by rw [hk3, List.map_cons]; exact List.mem_cons_self _ _)
        · exact Or.inr hk3

theorem assocLookup_mem (l : List (Nat × V)) (kv : Nat × V) (hkv : kv ∈ l)
    (hnd : (l.map Prod.fst).Nodup) : assocLookup l kv.1 = some kv.2 := by
  induction l with
  | nil => cases hkv
  | cons hd rest ih =>
    rcases hd with ⟨k, v⟩
    rw [List.map_cons] at hnd
    obtain ⟨hknotin, hndrest⟩ := List.nodup_cons.mp hnd
    rcases List.mem_cons.mp hkv with heq | hmem
    · subst heq
      rw [assocLookup, if_pos rfl]
    · have hne : kv.1 ≠ k := fun he =>
        hknotin (he ▸ List.mem_map.mpr ⟨kv, hmem, rfl⟩)
      rw [assocLookup, if_neg hne]
      exact ih hmem hndrest

/-- C1: for every sequence of insertions of pairwise-distinct keys into a tree
created by `BPlusTree::new` (with at least binary node capacities), every
inserted pair `(k, v)` is answered with `Some v` both by the in-memory
`BPlusTree::query` and, after `serialize` to a fresh file, by the streaming
`BPlusTreeQuery::query` (as `Ok (Some v)`); every never-inserted key is
answered `None` resp. `Ok None`. -/
theorem c1_insert_query_roundtrip (V : Type) (km vm : Nat) (l : List (Nat × V))
    (hnd : (l.map Prod.fst).Nodup)
    (hio : 1 ≤ (treeOrders km vm).1) (hlo : 2 ≤ (treeOrders km vm).2) :
    (∀ kv ∈ l, (buildTree V km vm l).query kv.1 = some kv.2 ∧
      BPlusTreeQuery.query ((buildTree V km vm l).serialize []).1 kv.1 =
        some (some kv.2)) ∧
    (∀ y, y ∉ l.map Prod.fst → (buildTree V km vm l).query y = none ∧
      BPlusTreeQuery.query ((buildTree V km vm l).serialize []).1 y = some none) := by
  have hC0 : TreeC (BPlusTree.new V km vm) := Or.inl rfl
  have hfresh0 : ∀ k ∈ l.map Prod.fst, k ∉ leafKeys (BPlusTree.new V km vm).root := by
    intro k _ hmem
    rw [show (BPlusTree.new V km vm).root = .mk [] [] true [] from rfl,
      leafKeys_leaf] at hmem
    cases hmem
  obtain ⟨hC, hq, hk⟩ := foldl_insert_queries V l (BPlusTree.new V km vm)
    hio hlo hC0 hnd hfresh0
  have hwf : SINV (buildTree V km vm l).root := (treeWF_buildTree V km vm l).1
  have hqb : ∀ y, (buildTree V km vm l).query y =
      match assocLookup l y with
      | some w => some w
      | none => none := by
    intro y
    have h1 : nodeQuery (buildTree V km vm l).root y =
        match assocLookup l y with
        | some w => some w
        | none => nodeQuery (BPlusTree.new V km vm).root y := hq y
    have h0 : nodeQuery (BPlusTree.new V km vm).root y = none := by
      rw [show (BPlusTree.new V km vm).root = .mk [] [] true [] from rfl,
        leaf_query_missing [] [] [] y (by simp)]
    rcases hal : assocLookup l y with _ | w
    · rw [hal] at h1
      show nodeQuery (buildTree V km vm l).root y = none
      rw [h1]
      exact h0
    · rw [hal] at h1
      exact h1
  constructor
  · intro kv hkv
    have ha : assocLookup l kv.1 = some kv.2 := assocLookup_mem l kv hkv hnd
    have hmem : (buildTree V km vm l).query kv.1 = some kv.2 := by
      have h1 := hqb kv.1
      rw [ha] at h1
      exact h1
    refine ⟨hmem, ?_⟩
    rw [streamQuery_of_serialize _ hwf, hmem]
  · intro y hy
    have ha := assocLookup_eq_none_of_not_mem l y hy
    have hmiss : (buildTree V km vm l).query y = none := by
      have h1 := hqb y
      rw [ha] at h1
      exact h1
    refine ⟨hmiss, ?_⟩
    rw [streamQuery_of_serialize _ hwf, hmiss]

/-- Witness: a concrete run of C1 at `key_mem_size = 4`, `value_mem_size = 24`
(orders 163/77) with three distinct keys. -/
theorem c1_insert_query_roundtrip_witness :
    (buildTree Nat 4 24 [(3, 30), (1, 10), (2, 20)]).query 1 = some 10 ∧
    BPlusTreeQuery.query
      ((buildTree Nat 4 24 [(3, 30), (1, 10), (2, 20)]).serialize []).1 3 =
      some (some 30) ∧
    (buildTree Nat 4 24 [(3, 30), (1, 10), (2, 20)]).query 7 = none ∧
    BPlusTreeQuery.query
      ((buildTree Nat 4 24 [(3, 30), (1, 10), (2, 20)]).serialize []).1 7 =
      some none := by
  have h := c1_insert_query_roundtrip Nat 4 24 [(3, 30), (1, 10), (2, 20)]
    (by decide) (by decide) (by decide)
  exact ⟨(h.1 (1, 10) (by decide)).1, (h.1 (3, 30) (by decide)).2,
    (h.2 7 (by decide)).1, (h.2 7 (by decide)).2⟩

/-- C3: re-inserting a key `k` already present at index `j` of a sorted leaf
inserts the new value at index `j` of the values vector without touching the
keys or removing the prior value, so the leaf ends up with one more value
than keys, and a subsequent query answers the newly inserted value. -/
theorem c3_duplicate_insert (V : Type) (ks : List Nat) (vs : List V) (k : Nat)
    (v2 : V) (io lo j : Nat) (hs : SortedKeys ks) (hj : j < ks.length)
    (hkey : ks.getD j 0 = k) (hlen : vs.length = ks.length) :
    nodeInsert (.mk ks [] true vs) k v2 io lo =
      (.mk ks [] true (listInsertAt vs j v2), none) ∧
    (nodeInsert (.mk ks [] true vs) k v2 io lo).1.values.length = ks.length + 1 ∧
    nodeQuery (nodeInsert (.mk ks [] true vs) k v2 io lo).1 k = some v2 := by
  have heq := get_equal_entry_index_complete ks k hs j hj hkey
  have h1 : nodeInsert (.mk ks ([] : List (BPlusTreeNode V)) true vs) k v2 io lo =
      (.mk ks [] true (listInsertAt vs j v2), none) := by
    rw [nodeInsert_leaf_eq, leafInsert_eq_dup ks [] vs k v2 lo j heq]
  refine ⟨h1, ?_, ?_⟩
  · rw [h1]
    show (listInsertAt vs j v2).length = ks.length + 1
    rw [length_listInsertAt, hlen]
  · rw [h1]
    show nodeQuery (.mk ks [] true (listInsertAt vs j v2)) k = some v2
    rw [leaf_query_found ks [] _ k j hs hj hkey,
      get?_listInsertAt_self vs j v2 (by omega)]

/-- Witness: duplicate insert of key 2 into the leaf `[1,2,3] / [10,20,30]`. -/
theorem c3_duplicate_insert_witness :
    nodeInsert (BPlusTreeNode.mk [1, 2, 3] [] true [10, 20, 30]) 2 99 163 77 =
      (BPlusTreeNode.mk [1, 2, 3] [] true [10, 99, 20, 30], none) ∧
    nodeQuery (nodeInsert (BPlusTreeNode.mk [1, 2, 3] [] true [10, 20, 30])
      2 99 163 77).1 2 = some 99 := by
  have h := c3_duplicate_insert Nat [1, 2, 3] [10, 20, 30] 2 99 163 77 1
    (by
      intro i j hij hj
      simp only [List.length_cons, List.length_nil] at hj
      interval_cases j <;> interval_cases i <;> decide)
    (by decide) (by decide) (by decide)
  refine ⟨?_, h.2.2⟩
  rw [h.1]
  rfl

/-! ### `xmltv_api.rs`: EPG endpoint, time-shift parsing and rewriting -/

/-- `TargetType` of `model/config.rs` as matched in `get_epg_path_for_target`. -/
inductive TargetType where
  | m3u
  | xtream
  | strm
deriving DecidableEq

/-- Abstract file-system and repository collaborators of the EPG endpoint
(`get_target_storage_path`, `xtream_get_storage_path`,
`m3u_get_epg_file_path`, `xtream_get_epg_file_path`, `path_exists` and the
later `File::open`), with paths as abstract ids. -/
structure EpgEnv where
  storagePathM3u : Option Nat
  storagePathXtream : Option Nat
  m3uEpgPath : Nat → Nat
  xtreamEpgPath : Nat → Nat
  pathExists : Nat → Bool
  openOk : Nat → Bool

/-- `get_epg_path_for_target_of_type`: the path only when the file exists. -/
def get_epg_path_for_target_of_type (env : EpgEnv) (p : Nat) : Option Nat :=
  if env.pathExists p then some p else none

/-- `get_epg_path_for_target`: the loop over `target.output`; the first
`M3u`/`Xtream` output with a storage path returns (existing file or `None`),
`Strm` and outputs without a storage path fall through. -/
def get_epg_path_for_target (env : EpgEnv) : List TargetType → Option Nat
  | [] => none
  | t :: rest =>
    match t with
    | .m3u =>
      match env.storagePathM3u with
      | some tp => get_epg_path_for_target_of_type env (env.m3uEpgPath tp)
      | none => get_epg_path_for_target env rest
    | .xtream =>
      match env.storagePathXtream with
      | some sp => get_epg_path_for_target_of_type env (env.xtreamEpgPath sp)
      | none => get_epg_path_for_target env rest
    | .strm => get_epg_path_for_target env rest

/-- In the spec's words: the EPG path a target's outputs designate, ignoring
whether the file exists ("the target has EPG configured"). -/
def epg_configured_path (env : EpgEnv) : List TargetType → Option Nat
  | [] => none
  | t :: rest =>
    match t with
    | .m3u =>
      match env.storagePathM3u with
      | some tp => some (env.m3uEpgPath tp)
      | none => epg_configured_path env rest
    | .xtream =>
      match env.storagePathXtream with
      | some sp => some (env.xtreamEpgPath sp)
      | none => epg_configured_path env rest
    | .strm => epg_configured_path env rest

theorem get_epg_path_eq (env : EpgEnv) : ∀ outputs : List TargetType,
    get_epg_path_for_target env outputs =
      match epg_configured_path env outputs with
      | some p => if env.pathExists p then some p else none
      | none => none := by
  intro outputs
  induction outputs with
  | nil => rfl
  | cons t rest ih =>
    cases t with
    | m3u =>
      rcases hsp : env.storagePathM3u with _ | tp
      · rw [get_epg_path_for_target, epg_configured_path, hsp]
        exact ih
      · rw [get_epg_path_for_target, epg_configured_path, hsp]
        rfl
    | xtream =>
      rcases hsp : env.storagePathXtream with _ | sp
      · rw [get_epg_path_for_target, epg_configured_path, hsp]
        exact ih
      · rw [get_epg_path_for_target, epg_configured_path, hsp]
        rfl
    | strm =>
      rw [get_epg_path_for_target, epg_configured_path]
      exact ih

/-- Character-level model of Rust `str::split(sep)` (all occurrences; `n`
separators give `n + 1` parts, empty parts included). -/
def splitOnChar (sep : Char) : List Char → List (List Char)
  | [] => [[]]
  | a :: rest =>
    if a = sep then [] :: splitOnChar sep rest
    else
      match splitOnChar sep rest with
      | [] => [[a]]
      | p :: ps => (a :: p) :: ps

def digitsValAux : List Char → Nat → Option Nat
  | [], acc => some acc
  | c :: rest, acc =>
    if c.isDigit then digitsValAux rest (acc * 10 + (c.toNat - 48)) else none

/-- Value of a nonempty all-digit character run. -/
def digitsVal : List Char → Option Nat
  | [] => none
  | l => digitsValAux l 0

/-- Rust `str::parse::<i32>()`: optional sign, at least one digit, all
digits, result within the `i32` range. -/
def parse_i32 : List Char → Option Int
  | '+' :: rest =>
    match digitsVal rest with
    | some n => if n ≤ 2147483647 then some (n : Int) else none
    | none => none
  | '-' :: rest =>
    match digitsVal rest with
    | some n => if n ≤ 2147483648 then some (-(n : Int)) else none
    | none => none
  | l =>
    match digitsVal l with
    | some n => if n ≤ 2147483647 then some (n : Int) else none
    | none => none

/-- `.parse().unwrap_or(0)`. -/
def parse_unwrap_zero (l : List Char) : Int := (parse_i32 l).getD 0

/-- `offset.starts_with('-')` sign factor. -/
def sign_factor : List Char → Int
  | '-' :: _ => -1
  | _ => 1

/-- `offset.trim_start_matches(&['-', '+'][..])`. -/
def stripSigns (l : List Char) : List Char :=
  l.dropWhile (fun c => c = '-' || c = '+')

/-- The `total_minutes` computation of `parse_timeshift`. -/
def timeshiftTotal (l : List Char) : Int :=
  let off := stripSigns l
  if off.contains ':' then
    let parts := splitOnChar ':' off
    let hours : Int :=
      if (parts.headD []).isEmpty then 0 else parse_unwrap_zero (parts.headD [])
    let minutes : Int :=
      if parts.length > 1 then parse_unwrap_zero (parts.getD 1 []) else 0
    hours * 60 + minutes
  else parse_unwrap_zero off * 60

/-- `parse_timeshift` (`xmltv_api.rs` lines 68-103). -/
def parse_timeshift : Option (List Char) → Option Int
  | none => none
  | some l => if 0 < timeshiftTotal l then some (sign_factor l * timeshiftTotal l) else none

/-- Responses the EPG endpoint can produce, abstracted to status line,
content type / encoding and whether the body is the fixed empty XMLTV
document, a gzip frame, or the file served by `serve_file`. -/
inductive XmltvResponse where
  | ok_gzip
  | ok_file (contentType : String)
  | no_content
  | ok_empty_doc
deriving DecidableEq

def XmltvResponse.status : XmltvResponse → Nat
  | .ok_gzip => 200
  | .ok_file _ => 200
  | .no_content => 204
  | .ok_empty_doc => 200

def XmltvResponse.contentEncoding : XmltvResponse → Option String
  | .ok_gzip => some "gzip"
  | _ => none

/-- The literal body of the no-EPG fallback response of `xmltv_api`. -/
def empty_xmltv_doc : String :=
  "<?xml version=\"1.0\" encoding=\"utf-8\" ?><!DOCTYPE tv SYSTEM \"xmltv.dtd\"><tv generator-info-name=\"Xtream Codes\" generator-info-url=\"\"></tv>"

def XmltvResponse.bodyText : XmltvResponse → Option String
  | .ok_empty_doc => some empty_xmltv_doc
  | _ => none

/-- `serve_epg`: open the file (`Err` → 204), then serve untransformed
(`text/xml`) without a time shift, else gzip via the rewriter. -/
def serve_epg (env : EpgEnv) (p : Nat) (ts : Option (List Char)) : XmltvResponse :=
  if env.openOk p then
    match parse_timeshift ts with
    | none => .ok_file "text/xml"
    | some _ => .ok_gzip
  else .no_content

/-- `xmltv_api`: `userTarget` is the result of `get_user_target` (outputs of
the resolved target and the user's `epg_timeshift`). -/
def xmltv_api (env : EpgEnv)
    (userTarget : Option (List TargetType × Option (List Char))) : XmltvResponse :=
  match userTarget with
  | some (outputs, ts) =>
    match get_epg_path_for_target env outputs with
    | none => .ok_empty_doc
    | some p => serve_epg env p ts
  | none => .ok_empty_doc

/-- Environment of the C4 counterexample: one M3u output with a storage
path (EPG configured) whose EPG file does not exist. -/
def c4_env : EpgEnv :=
  { storagePathM3u := some 0
    storagePathXtream := none
    m3uEpgPath := fun _ => 5
    xtreamEpgPath := fun _ => 9
    pathExists := fun _ => false
    openOk := fun _ => false }

/-- C4 counterexample: with EPG configured but the file absent, the endpoint
answers the 200 empty-XMLTV fallback, not 204 No Content: the existence check
happens inside `get_epg_path_for_target`, whose `None` falls through to the
fallback body, while 204 is produced only by a later failing `File::open`. -/
theorem c4_counterexample :
    epg_configured_path c4_env [TargetType.m3u] = some 5 ∧
    c4_env.pathExists 5 = false ∧
    xmltv_api c4_env (some ([TargetType.m3u], none)) = XmltvResponse.ok_empty_doc ∧
    (xmltv_api c4_env (some ([TargetType.m3u], none))).status = 200 ∧
    (xmltv_api c4_env (some ([TargetType.m3u], none))).status ≠ 204 := by
  decide

/-- C4 (amended): with a valid user and target, (1) an EPG-configured target
whose EPG file is absent gets the 200 empty-XMLTV fallback (not 204), (2) no
configured EPG likewise gets the fallback, (3) an existing file that opens
with a parsed time shift gets 200 with `Content-Encoding: gzip`, (4) 204 is
answered exactly when the path existed at lookup but `File::open` fails. -/
theorem c4_epg_responses (env : EpgEnv) (outputs : List TargetType)
    (ts : Option (List Char)) :
    (∀ p, epg_configured_path env outputs = some p → env.pathExists p = false →
      xmltv_api env (some (outputs, ts)) = .ok_empty_doc) ∧
    (epg_configured_path env outputs = none →
      xmltv_api env (some (outputs, ts)) = .ok_empty_doc) ∧
    (∀ p, epg_configured_path env outputs = some p → env.pathExists p = true →
      env.openOk p = true → ∀ d, parse_timeshift ts = some d →
      xmltv_api env (some (outputs, ts)) = .ok_gzip) ∧
    (∀ p, epg_configured_path env outputs = some p → env.pathExists p = true →
      env.openOk p = false →
      xmltv_api env (some (outputs, ts)) = .no_content) ∧
    XmltvResponse.ok_empty_doc.status = 200 ∧
    XmltvResponse.ok_empty_doc.bodyText = some empty_xmltv_doc ∧
    XmltvResponse.ok_gzip.status = 200 ∧
    XmltvResponse.ok_gzip.contentEncoding = some "gzip" := by
  have hb := get_epg_path_eq env outputs
  refine ⟨?_, ?_, ?_, ?_, rfl, rfl, rfl, rfl⟩
  · intro p hp hex
    simp [xmltv_api, hb, hp, hex]
  · intro hp
    simp [xmltv_api, hb, hp]
  · intro p hp hex hopen d hts
    simp [xmltv_api, hb, hp, hex, serve_epg, hopen, hts]
  · intro p hp hex hopen
    simp [xmltv_api, hb, hp, hex, serve_epg, hopen]

/-- Environment for the C4 witness: the EPG file exists and opens. -/
def c4_env2 : EpgEnv :=
  { storagePathM3u := some 0
    storagePathXtream := none
    m3uEpgPath := fun _ => 5
    xtreamEpgPath := fun _ => 9
    pathExists := fun _ => true
    openOk := fun _ => true }

theorem c4_epg_responses_witness :
    xmltv_api c4_env2 (some ([TargetType.m3u], some ['+', '2'])) =
      XmltvResponse.ok_gzip ∧
    xmltv_api c4_env2 (some ([TargetType.strm], none)) =
      XmltvResponse.ok_empty_doc := by
  refine ⟨?_, ?_⟩
  · exact (c4_epg_responses c4_env2 [TargetType.m3u] (some ['+', '2'])).2.2.1 5
      (by decide) (by decide) (by decide) 120 (by decide)
  · exact (c4_epg_responses c4_env2 [TargetType.strm] none).2.1 (by decide)

/-- C6: the concrete time-shift parses of the spec, the zero-total rule, the
general `sign · (hours·60 + minutes)` result for positive totals, and the
untransformed `text/xml` service when the parse yields `None`. -/
theorem c6_parse_timeshift_spec :
    parse_timeshift (some ['-', '2', ':', '3', '0']) = some (-150) ∧
    parse_timeshift (some [':', '3', '0']) = some 30 ∧
    parse_timeshift (some ['+', '2']) = some 120 ∧
    parse_timeshift (some ['0']) = none ∧
    (∀ l, timeshiftTotal l = 0 → parse_timeshift (some l) = none) ∧
    (∀ l, 0 < timeshiftTotal l →
      parse_timeshift (some l) = some (sign_factor l * timeshiftTotal l)) ∧
    (∀ env p ts, env.openOk p = true → parse_timeshift ts = none →
      serve_epg env p ts = .ok_file "text/xml") := by
  refine ⟨by decide, by decide, by decide, by decide, ?_, ?_, ?_⟩
  · intro l h
    rw [parse_timeshift, if_neg (by omega)]
  · intro l h
    rw [parse_timeshift, if_pos h]
  · intro env p ts hopen hts
    simp [serve_epg, hopen, hts]

/-- Environment for the C6 witness. -/
def c6_env : EpgEnv :=
  { storagePathM3u := none
    storagePathXtream := none
    m3uEpgPath := fun _ => 0
    xtreamEpgPath := fun _ => 0
    pathExists := fun _ => true
    openOk := fun _ => true }

theorem c6_parse_timeshift_spec_witness :
    parse_timeshift (some ['1', ':', '0', '5']) = some 65 ∧
    serve_epg c6_env 0 (some ['0']) = XmltvResponse.ok_file "text/xml" := by
  have h := c6_parse_timeshift_spec
  refine ⟨?_, ?_⟩
  · rw [h.2.2.2.2.2.1 ['1', ':', '0', '5'] (by decide)]
    decide
  · exact h.2.2.2.2.2.2 c6_env 0 (some ['0']) (by decide) (by decide)

/-! ### `time_correct`: datetime rewriting of programme attributes -/

def isLeapYear (y : Nat) : Bool := (y % 4 = 0 && y % 100 ≠ 0) || y % 400 = 0

def daysInMonth (y m : Nat) : Nat :=
  if m = 2 then (if isLeapYear y then 29 else 28)
  else if m = 4 ∨ m = 6 ∨ m = 9 ∨ m = 11 then 30
  else 31

/-- Civil-calendar day number of `y-mo-d`, offset so that all intermediate
values are natural numbers (Howard Hinnant's `days_from_civil`, with the
year shifted by +400). -/
def days_from_civil400 (y mo d : Nat) : Nat :=
  let y2 := y + 400
  let y' := if mo ≤ 2 then y2 - 1 else y2
  let era := y' / 400
  let yoe := y' - era * 400
  let mp := if 2 < mo then mo - 3 else mo + 9
  let doy := (153 * mp + 2) / 5 + d - 1
  let doe := yoe * 365 + yoe / 4 - yoe / 100 + doy
  era * 146097 + doe

/-- Inverse of `days_from_civil400` (`civil_from_days`, year still shifted
by +400). -/
def civil_from_days400 (z : Nat) : Nat × Nat × Nat :=
  let era := z / 146097
  let doe := z % 146097
  let yoe := (doe - doe / 1460 + doe / 36524 - doe / 146096) / 365
  let doy := doe - (365 * yoe + yoe / 4 - yoe / 100)
  let mp := (5 * doy + 2) / 153
  let d := doy - (153 * mp + 2) / 5 + 1
  let mo := if mp < 10 then mp + 3 else mp - 9
  let y := yoe + era * 400 + (if mo ≤ 2 then 1 else 0)
  (y, mo, d)

def digitChar (n : Nat) : Char := Char.ofNat (48 + n)

def pad2 (n : Nat) : List Char := [digitChar (n / 10 % 10), digitChar (n % 10)]

def pad4 (n : Nat) : List Char :=
  [digitChar (n / 1000 % 10), digitChar (n / 100 % 10),
   digitChar (n / 10 % 10), digitChar (n % 10)]

/-- `NaiveDateTime::parse_from_str(_, "%Y%m%d%H%M%S")` on a 14-digit string:
fixed-width fields and chrono's calendar validity checks. -/
def parseDT (l : List Char) : Option (Nat × Nat × Nat × Nat × Nat × Nat) :=
  if l.length = 14 then
    match digitsVal (l.take 4), digitsVal ((l.drop 4).take 2),
        digitsVal ((l.drop 6).take 2), digitsVal ((l.drop 8).take 2),
        digitsVal ((l.drop 10).take 2), digitsVal ((l.drop 12).take 2) with
    | some y, some mo, some d, some h, some mi, some s =>
      if 1 ≤ mo ∧ mo ≤ 12 ∧ 1 ≤ d ∧ d ≤ daysInMonth y mo ∧ h ≤ 23 ∧ mi ≤ 59 ∧ s ≤ 59
      then some (y, mo, d, h, mi, s)
      else none
    | _, _, _, _, _, _ => none
  else none

/-- Parse a local `YYYYMMDDhhmmss` component, add `minutes` and reformat in
the same layout (`native_dt + correction` followed by `format`): the civil
arithmetic is modelled on the years 0-9999 that the fixed-width layout can
represent. -/
def shiftDT (l : List Char) (minutes : Int) : Option (List Char) :=
  match parseDT l with
  | none => none
  | some (y, mo, d, h, mi, s) =>
    let total : Int := (days_from_civil400 y mo d : Int) * 86400 +
      ((h * 3600 + mi * 60 + s : Nat) : Int) + minutes * 60
    if 0 ≤ total then
      let t : Nat := total.toNat
      let days := t / 86400
      let tod := t % 86400
      let ymd := civil_from_days400 days
      if 400 ≤ ymd.1 ∧ ymd.1 ≤ 400 + 9999 then
        some (pad4 (ymd.1 - 400) ++ pad2 ymd.2.1 ++ pad2 ymd.2.2 ++
          pad2 (tod / 3600) ++ pad2 (tod % 3600 / 60) ++ pad2 (tod % 60))
      else none
    else none

/-- `time_correct` (`xmltv_api.rs` lines 23-38): split on every space,
require exactly two parts, shift the first part and rejoin with the second,
returning the input unchanged when the split or the parse fails. -/
def time_correct (value : List Char) (corrMinutes : Int) : List Char :=
  let parts := splitOnChar ' ' value
  if parts.length ≠ 2 then value
  else
    match shiftDT (parts.headD []) corrMinutes with
    | none => value
    | some s => s ++ ' ' :: parts.getD 1 []

/-- Split at the first occurrence of `sep` only. -/
def splitOnceChar (sep : Char) : List Char → Option (List Char × List Char)
  | [] => none
  | a :: rest =>
    if a = sep then some ([], rest)
    else
      match splitOnceChar sep rest with
      | none => none
      | some (p, q) => some (a :: p, q)

/-- The claim's reading of `time_correct`: split once on the first space,
shift the first part, rejoin with everything after that space. -/
def time_correct_spec (value : List Char) (corrMinutes : Int) : List Char :=
  match splitOnceChar ' ' value with
  | none => value
  | some (p0, p1) =>
    match shiftDT p0 corrMinutes with
    | none => value
    | some s => s ++ ' ' :: p1

theorem splitOnChar_ne_nil (sep : Char) : ∀ l : List Char, splitOnChar sep l ≠ [] := by
  intro l
  cases l with
  | nil => intro h; cases h
  | cons a rest =>
    rw [splitOnChar]
    by_cases ha : a = sep
    · rw [if_pos ha]
      intro h
      cases h
    · rw [if_neg ha]
      rcases hs : splitOnChar sep rest with _ | ⟨p, ps⟩
      · intro h; cases h
      · intro h; cases h

theorem splitOnChar_singleton (sep : Char) : ∀ l p : List Char,
    splitOnChar sep l = [p] → p = l := by
  intro l
  induction l with
  | nil =>
    intro p h
    rw [splitOnChar] at h
    cases h
    rfl
  | cons a rest ih =>
    intro p h
    rw [splitOnChar] at h
    by_cases ha : a = sep
    · rw [if_pos ha] at h
      injection h with h1 h2
      exact absurd h2 (splitOnChar_ne_nil sep rest)
    · rw [if_neg ha] at h
      rcases hs : splitOnChar sep rest with _ | ⟨p', ps⟩
      · exact absurd hs (splitOnChar_ne_nil sep rest)
      · rw [hs] at h
        injection h with h1 h2
        subst h2
        rw [← h1, ih p' hs]

theorem splitOnceChar_eq_none (sep : Char) : ∀ l : List Char, sep ∉ l →
    splitOnceChar sep l = none := by
  intro l
  induction l with
  | nil => intro _; rfl
  | cons a rest ih =>
    intro h
    rw [splitOnceChar, if_neg ?hne2, ih (fun hm => h (List.mem_cons_of_mem _ hm))]
    case hne2 =>
      intro he
      rw [he] at h
      exact h (List.mem_cons_self _ _)

theorem splitOnceChar_of_two_parts (sep : Char) : ∀ l p0 p1 : List Char,
    splitOnChar sep l = [p0, p1] → splitOnceChar sep l = some (p0, p1) := by
  intro l
  induction l with
  | nil =>
    intro p0 p1 h
    rw [splitOnChar] at h
    cases h
  | cons a rest ih =>
    intro p0 p1 h
    rw [splitOnChar] at h
    rw [splitOnceChar]
    by_cases ha : a = sep
    · rw [if_pos ha] at h ⊢
      injection h with h1 h2
      rw [← h1, splitOnChar_singleton sep rest p1 h2]
    · rw [if_neg ha] at h ⊢
      rcases hs : splitOnChar sep rest with _ | ⟨p', ps⟩
      · exact absurd hs (splitOnChar_ne_nil sep rest)
      · rw [hs] at h
        injection h with h1 h2
        rw [ih p' p1 (by rw [hs, h2]), ← h1]

theorem splitOnChar_length (sep : Char) : ∀ l : List Char,
    (splitOnChar sep l).length = l.count sep + 1 := by
  intro l
  induction l with
  | nil => rfl
  | cons a rest ih =>
    rw [splitOnChar]
    by_cases ha : a = sep
    · subst ha
      rw [if_pos rfl, List.length_cons, ih, List.count_cons_self]
    · rw [if_neg ha]
      rcases hsp : splitOnChar sep rest with _ | ⟨p, ps⟩
      · exact absurd hsp (splitOnChar_ne_nil sep rest)
      · rw [List.length_cons]
        have h2 := ih
        rw [hsp, List.length_cons] at h2
        rw [List.count_cons_of_ne (fun he => ha he.symm)]
        omega

/-- C5 (amended): `time_correct` splits on every space and requires exactly
two parts — a value with no or at least two spaces passes through unchanged;
on exactly two parts the local component is shifted and rejoined with a
single space and the unchanged timezone token (unparsable local component:
unchanged); on values with at most one space this coincides with the claim's
split-once-on-the-first-space reading. -/
theorem c5_time_correct (value : List Char) (corr : Int) :
    ((splitOnChar ' ' value).length ≠ 2 → time_correct value corr = value) ∧
    (∀ p0 p1, splitOnChar ' ' value = [p0, p1] →
      time_correct value corr =
        (match shiftDT p0 corr with
         | none => value
         | some s => s ++ ' ' :: p1)) ∧
    (value.count ' ' ≤ 1 → time_correct value corr = time_correct_spec value corr) := by
  have hlen := splitOnChar_length ' ' value
  refine ⟨?_, ?_, ?_⟩
  · intro h
    simp only [time_correct]
    rw [if_pos h]
  · intro p0 p1 hs
    simp only [time_correct]
    rw [hs, if_neg (by simp)]
    rfl
  · intro hc
    rcases Nat.lt_or_ge (value.count ' ') 1 with h0 | h1
    · have hc0 : value.count ' ' = 0 := by omega
      have hnotmem : ' ' ∉ value := List.count_eq_zero.mp hc0
      simp only [time_correct, time_correct_spec]
      rw [if_pos (by omega), splitOnceChar_eq_none ' ' value hnotmem]
    · have h2 : (splitOnChar ' ' value).length = 2 := by omega
      rcases hs : splitOnChar ' ' value with _ | ⟨p0, ps⟩
      · rw [hs] at h2
        cases h2
      · rcases ps with _ | ⟨p1, ps2⟩
        · rw [hs] at h2
          simp at h2
        · rcases ps2 with _ | ⟨p2, ps3⟩
          · have honce := splitOnceChar_of_two_parts ' ' value p0 p1 hs
            simp only [time_correct, time_correct_spec]
            rw [hs, if_neg (by simp), honce]
            rfl
          · rw [hs] at h2
            simp at h2

/-- C5 counterexample: a value with two spaces. `time_correct` splits it
into three parts and returns it unchanged, while the claim's
split-once-on-the-first-space reading shifts the local component. -/
theorem c5_counterexample :
    time_correct ("20240115103000 +0000 x".toList) 90 =
      "20240115103000 +0000 x".toList ∧
    time_correct_spec ("20240115103000 +0000 x".toList) 90 =
      "20240115120000 +0000 x".toList ∧
    time_correct ("20240115103000 +0000 x".toList) 90 ≠
      time_correct_spec ("20240115103000 +0000 x".toList) 90 := by
  decide

theorem c5_time_correct_witness :
    time_correct ("20240115103000 +0000".toList) 90 =
      "20240115120000 +0000".toList ∧
    time_correct ("abc def ghi".toList) 90 = "abc def ghi".toList := by
  refine ⟨?_, ?_⟩
  · rw [(c5_time_correct ("20240115103000 +0000".toList) 90).2.1
      ("20240115103000".toList) ("+0000".toList) (by decide)]
    decide
  · exact (c5_time_correct ("abc def ghi".toList) 90).1 (by decide)

/-! ### `playlist.rs`: M3U header emission -/

/-- The only field of `ConfigTargetOptions` that `to_m3u` consults. -/
structure ConfigTargetOptions where
  ignore_logo : Bool

/-- The fields of `M3uPlaylistItem` used by `to_m3u` (the source field
`rec` is called `tvg_rec` here; `rec` collides with the recursor name). -/
structure M3uPlaylistItem where
  epg_channel_id : Option String
  name : String
  group : String
  logo : String
  logo_small : String
  chno : String
  parent_code : String
  audio_track : String
  time_shift : String
  tvg_rec : String
  title : String
  url : String

/-- One expansion step of `to_m3u_non_empty_fields!`:
`line = format!("{} {}=\"{}\"", line, field, value)` when the field is
non-empty. -/
def attrIfNonEmpty (line field value : String) : String :=
  if value.isEmpty then line
  else line ++ " " ++ field ++ "=\"" ++ value ++ "\""

/-- `M3uPlaylistItem::to_m3u` (`playlist.rs` lines 245-264). -/
def M3uPlaylistItem.to_m3u (item : M3uPlaylistItem)
    (target_options : Option ConfigTargetOptions) (url : Option String) : String :=
  let ignore_logo := match target_options with
    | some o => o.ignore_logo
    | none => false
  let line := "#EXTINF:-1 tvg-id=\"" ++ (item.epg_channel_id.getD "") ++
    "\" tvg-name=\"" ++ item.name ++ "\" group-title=\"" ++ item.group ++ "\""
  let line := if ignore_logo then line else
    attrIfNonEmpty (attrIfNonEmpty line "tvg-logo" item.logo)
      "tvg-logo-small" item.logo_small
  let line := attrIfNonEmpty line "tvg-chno" item.chno
  let line := attrIfNonEmpty line "parent-code" item.parent_code
  let line := attrIfNonEmpty line "audio-track" item.audio_track
  let line := attrIfNonEmpty line "timeshift" item.time_shift
  let line := attrIfNonEmpty line "tvg-rec" item.tvg_rec
  line ++ "," ++ item.title ++ "\n" ++ (url.getD item.url)

/-- An attribute rendered as an optional suffix, as the claim enumerates. -/
def optAttr (field value : String) : String :=
  if value.isEmpty then "" else " " ++ field ++ "=\"" ++ value ++ "\""

/-- The claim's description of the emitted line: fixed header followed by
the optional attributes in order, then `,<title>`, a newline and the URL. -/
def m3u_line_spec (item : M3uPlaylistItem)
    (target_options : Option ConfigTargetOptions) (url : Option String) : String :=
  let ignore_logo := match target_options with
    | some o => o.ignore_logo
    | none => false
  "#EXTINF:-1 tvg-id=\"" ++ (item.epg_channel_id.getD "") ++
    "\" tvg-name=\"" ++ item.name ++ "\" group-title=\"" ++ item.group ++ "\"" ++
    (if ignore_logo then "" else
      optAttr "tvg-logo" item.logo ++ optAttr "tvg-logo-small" item.logo_small) ++
    optAttr "tvg-chno" item.chno ++
    optAttr "parent-code" item.parent_code ++
    optAttr "audio-track" item.audio_track ++
    optAttr "timeshift" item.time_shift ++
    optAttr "tvg-rec" item.tvg_rec ++
    "," ++ item.title ++ "\n" ++ (url.getD item.url)

theorem str_append_assoc (a b c : String) : a ++ b ++ c = a ++ (b ++ c) := by
  cases a with
  | mk x =>
    cases b with
    | mk y =>
      cases c with
      | mk z =>
        show String.mk (x ++ y ++ z) = String.mk (x ++ (y ++ z))
        rw [List.append_assoc]

theorem str_append_empty (s : String) : s ++ "" = s := by
  cases s with
  | mk x =>
    show String.mk (x ++ []) = String.mk x
    rw [List.append_nil]

theorem str_empty_append (s : String) : "" ++ s = s := by
  cases s with
  | mk x =>
    show String.mk ([] ++ x) = String.mk x
    rw [List.nil_append]

theorem attrIfNonEmpty_eq (line field value : String) :
    attrIfNonEmpty line field value = line ++ optAttr field value := by
  rw [attrIfNonEmpty, optAttr]
  by_cases h : value.isEmpty
  · rw [if_pos h, if_pos h, str_append_empty]
  · rw [if_neg h, if_neg h]
    simp only [str_append_assoc]

/-- C7: `to_m3u` emits exactly the line the claim describes — the fixed
`#EXTINF:-1 tvg-id/tvg-name/group-title` header, then `tvg-logo` and
`tvg-logo-small` only when non-empty and `ignore_logo` is unset (with
`ignore_logo` both are suppressed regardless), then `tvg-chno`,
`parent-code`, `audio-track`, `timeshift`, `tvg-rec` each only when
non-empty, then `,<title>`, a newline and the URL. -/
theorem c7_to_m3u_spec (item : M3uPlaylistItem)
    (target_options : Option ConfigTargetOptions) (url : Option String) :
    item.to_m3u target_options url = m3u_line_spec item target_options url := by
  rcases target_options with _ | o
  · simp only [M3uPlaylistItem.to_m3u, m3u_line_spec, attrIfNonEmpty_eq]
    simp [str_append_assoc, str_append_empty, str_empty_append]
  · rcases o with ⟨b⟩
    cases b
    · simp only [M3uPlaylistItem.to_m3u, m3u_line_spec, attrIfNonEmpty_eq]
      simp [str_append_assoc, str_append_empty, str_empty_append]
    · simp only [M3uPlaylistItem.to_m3u, m3u_line_spec, attrIfNonEmpty_eq]
      simp [str_append_assoc, str_append_empty, str_empty_append]

/-! ### `file_utils.rs`: `sanitize_filename` -/

/-- `sanitize_filename` (`file_utils.rs` lines 178-184), parametrized by the
alphanumeric predicate so the Unicode `char::is_alphanumeric` can be
instantiated per character range. -/
def sanitize_filename (isAlnum : Char → Bool) (s : List Char) : List Char :=
  s.map (fun c => if isAlnum c || c == '_' || c == '-' then c else '_')

/-- `[A-Za-z0-9]`. -/
def ascii_alnum (c : Char) : Bool :=
  ('A' ≤ c && c ≤ 'Z') || ('a' ≤ c && c ≤ 'z') || ('0' ≤ c && c ≤ '9')

/-- The claim's description: retain `[A-Za-z0-9_-]`, replace everything
else with `'_'`. -/
def sanitize_filename_spec (s : List Char) : List Char :=
  s.map (fun c => if ascii_alnum c || c == '_' || c == '-' then c else '_')

/-- Tabulation of Rust `char::is_alphanumeric` (Unicode `Alphabetic` or
`Number`) on the Latin-1 range U+0000..U+00FF: the ASCII alphanumerics plus
ª ² ³ µ ¹ º ¼ ½ ¾ and the accented letters À-Ö, Ø-ö, ø-ÿ; characters above
U+00FF are outside this table's scope. -/
def latin1_is_alphanumeric (c : Char) : Bool :=
  let n := c.toNat
  if n < 128 then ascii_alnum c
  else n = 0xAA || n = 0xB2 || n = 0xB3 || n = 0xB5 || n = 0xB9 || n = 0xBA ||
    (0xBC ≤ n && n ≤ 0xBE) || (0xC0 ≤ n && n ≤ 0xD6) ||
    (0xD8 ≤ n && n ≤ 0xF6) || (0xF8 ≤ n && n ≤ 0xFF)

/-- C8 counterexample: `é` (U+00E9) is alphanumeric for Rust's Unicode-aware
`char::is_alphanumeric`, so `sanitize_filename` retains it, while the
claim's `[A-Za-z0-9_-]` rule would replace it with `'_'`. -/
theorem c8_counterexample :
    sanitize_filename latin1_is_alphanumeric ['é'] = ['é'] ∧
    sanitize_filename_spec ['é'] = ['_'] ∧
    sanitize_filename latin1_is_alphanumeric ['é'] ≠ sanitize_filename_spec ['é'] := by
  decide

/-- C8 (amended): `sanitize_filename` keeps the character count, maps every
character that is alphanumeric (Unicode, not just ASCII) or `'_'` or `'-'`
to itself and every other character to `'_'`; restricted to inputs on which
the alphanumeric predicate coincides with `[A-Za-z0-9]` — in particular all
ASCII inputs — it is exactly the claim's `[A-Za-z0-9_-]` rule. -/
theorem c8_sanitize_filename (isAlnum : Char → Bool) (s : List Char) :
    (sanitize_filename isAlnum s).length = s.length ∧
    (∀ i, i < s.length →
      (sanitize_filename isAlnum s).getD i '_' =
        (if isAlnum (s.getD i ' ') || s.getD i ' ' == '_' || s.getD i ' ' == '-'
         then s.getD i ' ' else '_')) ∧
    ((∀ c ∈ s, isAlnum c = ascii_alnum c) →
      sanitize_filename isAlnum s = sanitize_filename_spec s) := by
  refine ⟨by simp [sanitize_filename], ?_, ?_⟩
  · intro i hi
    rw [sanitize_filename, List.getD_eq_getElem _ _ (by simp; omega),
      List.getElem_map, List.getD_eq_getElem _ _ hi]
  · intro h
    rw [sanitize_filename, sanitize_filename_spec]
    refine List.map_congr_left ?_
    intro c hc
    rw [h c hc]

theorem c8_sanitize_filename_witness :
    sanitize_filename latin1_is_alphanumeric ("ab-1.x".toList) =
      sanitize_filename_spec ("ab-1.x".toList) ∧
    (sanitize_filename latin1_is_alphanumeric ("ab-1.x".toList)).length = 6 ∧
    (sanitize_filename latin1_is_alphanumeric ("ab-1.x".toList)).getD 4 '_' = '_' := by
  have h := c8_sanitize_filename latin1_is_alphanumeric ("ab-1.x".toList)
  refine ⟨h.2.2 (by decide), ?_, ?_⟩
  · rw [h.1]
    decide
  · rw [h.2.1 4 (by decide)]
    decide
